import Mathlib

/-!
# go-ssml-parser: a shallow embedding of `ssml/ssml.go`

Go strings are modelled as lists of Unicode code points (`List Char`), i.e. as the
rune sequence of a valid UTF-8 string.  All patterns and separators of the source
are ASCII, so prefix and suffix tests, replacement, splitting and the two regular
expressions act on the rune sequence exactly as they act on the bytes.

Results of code that can fail at run time (an index out of range) are values of
`Except Fault`.  Recursive code is modelled with a fuel argument; running out of
fuel is reported as `Fault.outOfFuel`, never as a result.
-/

namespace SSML

/-! ## Characters and string helpers of the Go standard library -/

/-- The tab character, `SpecialCharTab`. -/
def SpecialCharTab : Char := Char.ofNat 9

/-- The line feed character, `SpecialCharNewLine`. -/
def SpecialCharNewLine : Char := Char.ofNat 10

/-- The carriage return character, `SpecialCharCarriageReturn`. -/
def SpecialCharCarriageReturn : Char := Char.ofNat 13

/-- The character `<`, `SpecialCharLessThan`. -/
def SpecialCharLessThan : Char := '<'

/-- The character `>`, `SpecialCharGreaterThan`. -/
def SpecialCharGreaterThan : Char := '>'

/-- The character `&`, `SpecialCharAmpersand`. -/
def SpecialCharAmpersand : Char := '&'

/-- The double quote character. -/
def quoteChar : Char := Char.ofNat 34

/-- The escape `&lt;`, `SpecialStrLessThan`. -/
def SpecialStrLessThan : List Char := ['&', 'l', 't', ';']

/-- The escape `&gt;`, `SpecialStrGreaterThan`. -/
def SpecialStrGreaterThan : List Char := ['&', 'g', 't', ';']

/-- The escape `&amp;`, `SpecialStrAmpersand`. -/
def SpecialStrAmpersand : List Char := ['&', 'a', 'm', 'p', ';']

/-- The two characters `</`, `SpecialStrClosingTag`. -/
def SpecialStrClosingTag : List Char := ['<', '/']

/-- The two characters `/>`, `SpecialStrSelfClosingTag`. -/
def SpecialStrSelfClosingTag : List Char := ['/', '>']

/-- Go `strings.HasPrefix s p`. -/
def HasPrefix (s p : List Char) : Bool := p.isPrefixOf s

/-- Go `strings.HasSuffix s p`. -/
def HasSuffix (s p : List Char) : Bool := p.reverse.isPrefixOf s.reverse

/-- Go `unicode.IsSpace`: the Latin-1 spaces and the code points with the Unicode
White_Space property. -/
def isSpace (c : Char) : Bool :=
  let n := c.toNat
  (9 ≤ n && n ≤ 13) || n == 32 || n == 0x85 || n == 0xA0 || n == 0x1680 ||
  (0x2000 ≤ n && n ≤ 0x200A) || n == 0x2028 || n == 0x2029 || n == 0x202F ||
  n == 0x205F || n == 0x3000

/-- Go `strings.TrimSpace`: drop leading and trailing `unicode.IsSpace` characters. -/
def TrimSpace (s : List Char) : List Char :=
  ((s.dropWhile isSpace).reverse.dropWhile isSpace).reverse

/-- The body of `strings.ReplaceAll` for a non-empty `old`: scan left to right, at each
position where `old` starts emit `new` and skip `old`, otherwise copy one character. -/
def replaceAllAux (old new : List Char) : Nat → List Char → List Char
  | 0, _ => []
  | _ + 1, [] => []
  | fuel + 1, c :: cs =>
    if old.isPrefixOf (c :: cs) then
      new ++ replaceAllAux old new fuel ((c :: cs).drop old.length)
    else
      c :: replaceAllAux old new fuel cs

/-- Go `strings.ReplaceAll s old new` (non-overlapping occurrences, left to right; for an
empty `old` Go inserts `new` before every rune and at the end). -/
def ReplaceAll (s old new : List Char) : List Char :=
  if old = [] then new ++ s.flatMap (fun c => c :: new)
  else replaceAllAux old new s.length s

/-- Go `strings.Split s sep` for a separator of one character (the source only splits
on `" "` and on `"="`): the pieces between the occurrences of `sep`. -/
def Split : List Char → Char → List (List Char)
  | [], _ => [[]]
  | c :: cs, sep =>
    if c = sep then [] :: Split cs sep
    else
      match Split cs sep with
      | [] => [[c]]
      | piece :: rest => (c :: piece) :: rest

/-! ## Tokens and their classification -/

/-- A lexical unit: `type Token struct { value string }`. -/
structure Token where
  value : List Char
deriving DecidableEq, Repr

/-- Source `Token.isSelfClosingTag`. -/
def Token.isSelfClosingTag (t : Token) : Bool :=
  HasPrefix t.value [SpecialCharLessThan] && HasSuffix t.value SpecialStrSelfClosingTag

/-- Source `Token.isClosingTag`. -/
def Token.isClosingTag (t : Token) : Bool :=
  HasPrefix t.value SpecialStrClosingTag && HasSuffix t.value [SpecialCharGreaterThan]

/-- Source `Token.isOpeningTag`. -/
def Token.isOpeningTag (t : Token) : Bool :=
  !t.isClosingTag && !t.isSelfClosingTag && HasPrefix t.value [SpecialCharLessThan] &&
    HasSuffix t.value [SpecialCharGreaterThan]

/-- Source `Token.isTag`. -/
def Token.isTag (t : Token) : Bool :=
  t.isClosingTag || t.isSelfClosingTag || t.isOpeningTag

/-- Source `Token.extractValue`. -/
def Token.extractValue (t : Token) : List Char :=
  if !t.isTag then t.value
  else
    let s := ReplaceAll t.value SpecialStrClosingTag []
    let s := ReplaceAll s SpecialStrSelfClosingTag []
    let s := ReplaceAll s [SpecialCharLessThan] []
    let s := ReplaceAll s [SpecialCharGreaterThan] []
    let s := TrimSpace s
    (Split s ' ').headD []

/-- How many of the three tag classes hold for a token. -/
def Token.classCount (t : Token) : Nat :=
  (if t.isOpeningTag then 1 else 0) + (if t.isClosingTag then 1 else 0) +
    (if t.isSelfClosingTag then 1 else 0)

/-! ## The two regular expressions

Go's `regexp` is leftmost-first: `FindAllString` takes, from the current position on, the
first position at which the pattern matches, and at that position the match the
backtracking search reaches first (first alternative first, stars greedy).  In both
patterns of the source every starred class is followed by a character outside that class,
so giving back characters of a star can never lead to a match: at a given position the
only candidate is the one with maximal runs, which is what the matchers below compute.
No match is empty. -/

/-- The class `[a-zA-Z0-9_/=\-" .:]` of the tag alternative. -/
def isTagChar (c : Char) : Bool :=
  c.isAlphanum || c == '_' || c == '/' || c == '=' || c == '-' || c == quoteChar ||
    c == ' ' || c == '.' || c == ':'

/-- The class `\s` of Go regular expressions: tab, line feed, form feed, carriage return
and space. -/
def isReSpace (c : Char) : Bool :=
  c == SpecialCharTab || c == SpecialCharNewLine || c == Char.ofNat 12 ||
    c == SpecialCharCarriageReturn || c == ' '

/-- The class `[^<>]`. -/
def isNotAngle (c : Char) : Bool := c != '<' && c != '>'

/-- The class `[^<>\s]`. -/
def isTextStart (c : Char) : Bool := isNotAngle c && !isReSpace c

/-- The class `[:a-zA-Z0-9]` of attribute names. -/
def isAttrNameChar (c : Char) : Bool := c == ':' || c.isAlphanum

/-- The class `[a-zA-Z0-9 .-]` of attribute values. -/
def isAttrValueChar (c : Char) : Bool := c.isAlphanum || c == ' ' || c == '.' || c == '-'

/-- The class of the pattern ` *`: the space character. -/
def isBlank (c : Char) : Bool := c == ' '

/-- Length of the match of the first alternative `<[a-zA-Z0-9_/=\-" .:]*>` at the start of
the string, if it matches there. -/
def matchTag (s : List Char) : Option Nat :=
  match s with
  | [] => none
  | c :: rest =>
    if c = '<' then
      match rest.dropWhile isTagChar with
      | [] => none
      | d :: _ => if d = '>' then some ((rest.takeWhile isTagChar).length + 2) else none
    else none

/-- Length of the match of the second alternative `( *[^<>\s][^<>]*)` at the start of the
string, if it matches there. -/
def matchText (s : List Char) : Option Nat :=
  match s.dropWhile isBlank with
  | [] => none
  | c :: rest =>
    if isTextStart c then
      some ((s.takeWhile isBlank).length + 1 + (rest.takeWhile isNotAngle).length)
    else none

/-- Length of the match of the pattern of `tokenize`,
`<[a-zA-Z0-9_/=\-" .:]*>|( *[^<>\s][^<>]*)`, at the start of the string. -/
def matchToken (s : List Char) : Option Nat :=
  match matchTag s with
  | some n => some n
  | none => matchText s

/-- Length of the match of the pattern of `tokenizeAttributes`,
`[:a-zA-Z0-9]+ *= *"[a-zA-Z0-9 .-]*"`, at the start of the string. -/
def matchAttribute (s : List Char) : Option Nat :=
  let name := s.takeWhile isAttrNameChar
  if name = [] then none
  else
    let s1 := s.dropWhile isAttrNameChar
    match s1.dropWhile isBlank with
    | [] => none
    | e :: s2 =>
      if e = '=' then
        match s2.dropWhile isBlank with
        | [] => none
        | q :: s3 =>
          if q = quoteChar then
            match s3.dropWhile isAttrValueChar with
            | [] => none
            | r :: _ =>
              if r = quoteChar then
                some (name.length + (s1.takeWhile isBlank).length + 1 +
                  (s2.takeWhile isBlank).length + 1 + (s3.takeWhile isAttrValueChar).length + 1)
              else none
          else none
      else none

/-- The scan of `regexp.FindAllString(s, -1)` for a pattern given by its matcher: at each
position either a match starts there, it is emitted and the scan goes on after it, or the
character is passed over. -/
def findAllAux (m : List Char → Option Nat) : Nat → List Char → List (List Char)
  | 0, _ => []
  | _ + 1, [] => []
  | fuel + 1, c :: cs =>
    match m (c :: cs) with
    | some n => (c :: cs).take n :: findAllAux m fuel ((c :: cs).drop n)
    | none => findAllAux m fuel cs

/-- Go `regex.FindAllString(s, -1)`: the successive non-overlapping matches. -/
def FindAllString (m : List Char → Option Nat) (s : List Char) : List (List Char) :=
  findAllAux m s.length s

/-! ## The tokenizer -/

/-- Lines 91-97 of `WordTokenizer.tokenize`: the string the pattern is run on. -/
def tokenizeNormalize (input : List Char) : List Char :=
  let s := ReplaceAll input [SpecialCharTab] []
  let s := ReplaceAll s [SpecialCharNewLine] []
  let s := ReplaceAll s [SpecialCharCarriageReturn] []
  let s := ReplaceAll s SpecialStrLessThan [SpecialCharLessThan]
  let s := ReplaceAll s SpecialStrGreaterThan [SpecialCharGreaterThan]
  let s := ReplaceAll s SpecialStrAmpersand [SpecialCharAmpersand]
  TrimSpace s

/-- Source `WordTokenizer.tokenize`. -/
def tokenize (input : List Char) : List Token :=
  (FindAllString matchToken (tokenizeNormalize input)).map Token.mk

/-- Lines 113-116 of `WordTokenizer.tokenizeAttributes`: the string the pattern is run
on. -/
def attributesNormalize (input : List Char) : List Char :=
  let s := ReplaceAll input [SpecialCharTab] []
  let s := ReplaceAll s [SpecialCharNewLine] []
  let s := ReplaceAll s [SpecialCharCarriageReturn] []
  TrimSpace s

/-- Source `WordTokenizer.tokenizeAttributes`. -/
def tokenizeAttributes (input : List Char) : List Token :=
  (FindAllString matchAttribute (attributesNormalize input)).map Token.mk

/-! ## Attributes and nodes -/

/-- Ways in which the Go code can stop without a result. -/
inductive Fault where
  | outOfFuel
  | indexOutOfRange
  | nilChild
deriving DecidableEq, Repr

/-- An attribute: `type SSMLAttribute struct { name, value string }`. -/
structure SSMLAttribute where
  name : List Char
  value : List Char
deriving DecidableEq, Repr

/-- A node of the tree: `type SSMLNode struct`. -/
inductive SSMLNode where
  | mk (attributes : List SSMLAttribute) (value : List Char) (children : List SSMLNode)

/-- Field `attributes` of a node. -/
def SSMLNode.attributes : SSMLNode → List SSMLAttribute
  | .mk a _ _ => a

/-- Field `value` of a node. -/
def SSMLNode.value : SSMLNode → List Char
  | .mk _ v _ => v

/-- Field `children` of a node. -/
def SSMLNode.children : SSMLNode → List SSMLNode
  | .mk _ _ c => c

/-- Source `newNode`. -/
def newNode (value : List Char) (attributes : List SSMLAttribute) : SSMLNode :=
  .mk attributes value []

/-- The assignment `parent.children = append(parent.children, child)`. -/
def SSMLNode.appendChild (parent child : SSMLNode) : SSMLNode :=
  .mk parent.attributes parent.value (parent.children ++ [child])

/-- The body of the loop of `ParseAttributes` for one token: split on `=`, index the
pieces 0 and 1 (an index out of range is a fault), trim the name, delete the quotes. -/
def parseAttribute (token : Token) : Except Fault SSMLAttribute :=
  match Split token.value '=' with
  | name :: value :: _ =>
    .ok { name := TrimSpace name, value := ReplaceAll value [quoteChar] [] }
  | _ => .error Fault.indexOutOfRange

/-- The loop of `ParseAttributes` over the attribute tokens. -/
def parseAttributeTokens : List Token → Except Fault (List SSMLAttribute)
  | [] => .ok []
  | token :: rest =>
    match parseAttribute token with
    | .error e => .error e
    | .ok a =>
      match parseAttributeTokens rest with
      | .error e => .error e
      | .ok as => .ok (a :: as)

/-- Source `SSMLParser.ParseAttributes`, with the built-in `WordTokenizer`. -/
def ParseAttributes (input : List Char) : Except Fault (List SSMLAttribute) :=
  parseAttributeTokens (tokenizeAttributes input)

/-- Source `SSMLParser.getNodeFromToken`. -/
def getNodeFromToken (token : Token) : Except Fault SSMLNode :=
  match ParseAttributes token.value with
  | .error e => .error e
  | .ok attributes => .ok (newNode token.extractValue attributes)

/-! ## The recursive builder

Every node is complete when it is appended to its parent (the recursive call that fills
it has returned, and later calls only append to the parent), so the pointer structure of
the Go code is a tree of values.  The shared cell `*maxParsed` is passed in and returned. -/

/-- Source `SSMLParser.addNode`.  The first argument is fuel: each recursive call of the
source is a call with one unit less.  The result pairs the returned pointer (`none` is
`nil`) with the final content of `*maxParsed`.  Reading `tokens[index]` outside the slice
is `Fault.indexOutOfRange`; `Fault.nilChild` marks a `nil` pointer returned for the node
to append. -/
def addNode : Nat → Option SSMLNode → Nat → List Token → Nat →
    Except Fault (Option SSMLNode × Nat)
  | 0, _, _, _, _ => .error Fault.outOfFuel
  | fuel + 1, parent, index, tokens, maxParsed =>
    if index ≥ tokens.length then .ok (parent, maxParsed)
    else
      let maxParsed := max maxParsed index
      match tokens[index]? with
      | none => .error Fault.indexOutOfRange
      | some currentToken =>
        match parent with
        | none =>
          match getNodeFromToken currentToken with
          | .error e => .error e
          | .ok newParent => addNode fuel (some newParent) (index + 1) tokens maxParsed
        | some parent =>
          if currentToken.isClosingTag then .ok (some parent, maxParsed)
          else if index < maxParsed then
            addNode fuel (some parent) (maxParsed + 1) tokens maxParsed
          else if currentToken.isOpeningTag then
            match getNodeFromToken currentToken with
            | .error e => .error e
            | .ok newParent =>
              match addNode fuel (some newParent) (index + 1) tokens maxParsed with
              | .error e => .error e
              | .ok (none, _) => .error Fault.nilChild
              | .ok (some nodeToAdd, maxParsed) =>
                addNode fuel (some (parent.appendChild nodeToAdd)) (index + 1) tokens maxParsed
          else
            match getNodeFromToken currentToken with
            | .error e => .error e
            | .ok nodeToAdd =>
              addNode fuel (some (parent.appendChild nodeToAdd)) (index + 1) tokens maxParsed

/-- The call `parser.addNode(nil, 0, tokens, maxParsed)` of `ParseTree`, with
`*maxParsed = 0` and fuel for one call per index up to the length of the slice. -/
def buildTree (tokens : List Token) : Except Fault (Option SSMLNode) :=
  match addNode (tokens.length + 1) none 0 tokens 0 with
  | .error e => .error e
  | .ok (root, _) => .ok root

/-- Source `SSMLParser.ParseTree`. -/
def ParseTree (input : List Char) : Except Fault (Option SSMLNode) :=
  buildTree (tokenize input)

/-! ## The loop form

`constructSSMLTree` keeps pointers to nodes that are already linked into the tree and
appends to them, so it is modelled on a heap: a pointer is the index of a cell. -/

/-- A node in the heap: the children are pointers. -/
structure HeapNode where
  attributes : List SSMLAttribute
  value : List Char
  children : List Nat
deriving DecidableEq, Repr

/-- The variables of the loop of `constructSSMLTree`, and the heap. -/
structure LoopState where
  heap : List HeapNode
  root : Option Nat
  current : Option Nat
  stack : List (Option Nat)
deriving DecidableEq, Repr

/-- The assignment `current.children = append(current.children, node)` on the heap. -/
def heapAppendChild (heap : List HeapNode) (current node : Nat) : List HeapNode :=
  heap.modify (fun cell => { cell with children := cell.children ++ [node] }) current

/-- One iteration of the loop of `constructSSMLTree`. -/
def loopStep (st : LoopState) (token : Token) : Except Fault LoopState :=
  if token.isClosingTag then
    if st.stack.length > 0 then
      .ok { st with current := (st.stack.getLast?).join, stack := st.stack.dropLast }
    else .ok st
  else
    match getNodeFromToken token with
    | .error e => .error e
    | .ok made =>
      let node := st.heap.length
      let heap := st.heap ++ [{ attributes := made.attributes, value := made.value,
                                children := [] }]
      let root := match st.root with
        | none => some node
        | some r => some r
      let heap := match st.current with
        | none => heap
        | some cur => heapAppendChild heap cur node
      if token.isOpeningTag then
        .ok { heap := heap, root := root, current := some node,
              stack := st.stack ++ [st.current] }
      else
        .ok { heap := heap, root := root, current := st.current, stack := st.stack }

/-- The loop of `constructSSMLTree` over the tokens. -/
def loopRun : LoopState → List Token → Except Fault LoopState
  | st, [] => .ok st
  | st, token :: rest =>
    match loopStep st token with
    | .error e => .error e
    | .ok st1 => loopRun st1 rest

/-- The tree of values a pointer of the heap stands for. -/
def readNode (heap : List HeapNode) : Nat → Nat → Except Fault SSMLNode
  | 0, _ => .error Fault.outOfFuel
  | fuel + 1, ptr =>
    match heap[ptr]? with
    | none => .error Fault.indexOutOfRange
    | some cell =>
      match cell.children.mapM (readNode heap fuel) with
      | .error e => .error e
      | .ok children => .ok (.mk cell.attributes cell.value children)

/-- Source `SSMLParser.constructSSMLTree`: run the loop from the empty state and return
`root`, read as a tree of values. -/
def constructSSMLTree (tokens : List Token) : Except Fault (Option SSMLNode) :=
  match loopRun { heap := [], root := none, current := none, stack := [] } tokens with
  | .error e => .error e
  | .ok st =>
    match st.root with
    | none => .ok none
    | some r =>
      match readNode st.heap (st.heap.length + 1) r with
      | .error e => .error e
      | .ok node => .ok (some node)

/-! ## The recursive builder with its calls recorded -/

/-- The function `addNode` again, returning in addition the recursive calls that were
made, each as the pair (index of the calling activation, index passed to the call), in
the order in which they were made. -/
def addNodeCalls : Nat → Option SSMLNode → Nat → List Token → Nat →
    Except Fault (Option SSMLNode × Nat × List (Nat × Nat))
  | 0, _, _, _, _ => .error Fault.outOfFuel
  | fuel + 1, parent, index, tokens, maxParsed =>
    if index ≥ tokens.length then .ok (parent, maxParsed, [])
    else
      let maxParsed := max maxParsed index
      match tokens[index]? with
      | none => .error Fault.indexOutOfRange
      | some currentToken =>
        match parent with
        | none =>
          match getNodeFromToken currentToken with
          | .error e => .error e
          | .ok newParent =>
            match addNodeCalls fuel (some newParent) (index + 1) tokens maxParsed with
            | .error e => .error e
            | .ok (node, mp, calls) => .ok (node, mp, (index, index + 1) :: calls)
        | some parent =>
          if currentToken.isClosingTag then .ok (some parent, maxParsed, [])
          else if index < maxParsed then
            match addNodeCalls fuel (some parent) (maxParsed + 1) tokens maxParsed with
            | .error e => .error e
            | .ok (node, mp, calls) => .ok (node, mp, (index, maxParsed + 1) :: calls)
          else if currentToken.isOpeningTag then
            match getNodeFromToken currentToken with
            | .error e => .error e
            | .ok newParent =>
              match addNodeCalls fuel (some newParent) (index + 1) tokens maxParsed with
              | .error e => .error e
              | .ok (none, _, _) => .error Fault.nilChild
              | .ok (some nodeToAdd, maxParsed, calls1) =>
                match addNodeCalls fuel (some (parent.appendChild nodeToAdd)) (index + 1)
                    tokens maxParsed with
                | .error e => .error e
                | .ok (node, mp, calls2) =>
                  .ok (node, mp, (index, index + 1) :: calls1 ++ (index, index + 1) :: calls2)
          else
            match getNodeFromToken currentToken with
            | .error e => .error e
            | .ok nodeToAdd =>
              match addNodeCalls fuel (some (parent.appendChild nodeToAdd)) (index + 1)
                  tokens maxParsed with
              | .error e => .error e
              | .ok (node, mp, calls) => .ok (node, mp, (index, index + 1) :: calls)

/-- Forgetting the recorded calls. -/
def dropCalls : Except Fault (Option SSMLNode × Nat × List (Nat × Nat)) →
    Except Fault (Option SSMLNode × Nat)
  | .error e => .error e
  | .ok (node, mp, _) => .ok (node, mp)

/-! ## Trees and well-formed token sequences -/

mutual
/-- Number of nodes of a tree. -/
def SSMLNode.size : SSMLNode → Nat
  | .mk _ _ children => 1 + nodesSize children
/-- Number of nodes of a list of trees. -/
def nodesSize : List SSMLNode → Nat
  | [] => 0
  | node :: rest => node.size + nodesSize rest
end

/-- The attributes `ParseAttributes` returns for the text of a token (the empty list
stands for a failure, which does not occur). -/
def attributesOf (token : Token) : List SSMLAttribute :=
  match ParseAttributes token.value with
  | .ok attributes => attributes
  | .error _ => []

/-- The nesting of a document: an item is a leaf token, or an element with its opening
token, its items and its closing token. -/
inductive Item where
  | leaf (token : Token)
  | elem (opening : Token) (items : List Item) (closing : Token)

mutual
/-- The token sequence of an item, in document order. -/
def Item.tokens : Item → List Token
  | .leaf token => [token]
  | .elem opening items closing => opening :: (itemsTokens items ++ [closing])
/-- The token sequence of a list of items. -/
def itemsTokens : List Item → List Token
  | [] => []
  | item :: rest => item.tokens ++ itemsTokens rest
end

mutual
/-- Well-formed item of the kind the tests use: a leaf is neither an opening nor a closing
tag; a nested element has an opening tag, a closing tag and at least one item, all
well-formed. -/
def Item.wellFormed : Item → Bool
  | .leaf token => !token.isOpeningTag && !token.isClosingTag
  | .elem opening items closing =>
    opening.isOpeningTag && closing.isClosingTag && !items.isEmpty && itemsWellFormed items
/-- All items of the list are well-formed. -/
def itemsWellFormed : List Item → Bool
  | [] => true
  | item :: rest => item.wellFormed && itemsWellFormed rest
end

mutual
/-- The tree that mirrors the nesting of an item: value and attributes from the (opening)
token, one child per item in document order. -/
def Item.mirror : Item → SSMLNode
  | .leaf token => .mk (attributesOf token) token.extractValue []
  | .elem opening items _ => .mk (attributesOf opening) opening.extractValue (itemsMirror items)
/-- The trees of a list of items, in order. -/
def itemsMirror : List Item → List SSMLNode
  | [] => []
  | item :: rest => item.mirror :: itemsMirror rest
end

mutual
/-- The nodes strictly below a node, in document order. -/
def SSMLNode.descendants : SSMLNode → List SSMLNode
  | .mk _ _ children => nodesAll children
/-- The nodes of a list of trees: each tree's root and the nodes below it. -/
def nodesAll : List SSMLNode → List SSMLNode
  | [] => []
  | node :: rest => node :: (node.descendants ++ nodesAll rest)
end

/-- The node `n` is the node of a token of the sequence that is not a closing tag: it has
the extracted value and the attributes of that token, and it has no children unless the
token is an opening tag. -/
def builtFromTokens (tokens : List Token) (n : SSMLNode) : Prop :=
  ∃ t ∈ tokens, t.isClosingTag = false ∧ n.value = t.extractValue ∧
    n.attributes = attributesOf t ∧ (t.isOpeningTag = false → n.children = [])

/-- Text of a token written as a Lean string. -/
def tok (s : String) : Token := Token.mk s.toList

/-! ## Strings and orders the statements speak of -/

/-- The leaf node `getNodeFromToken` makes of a token. -/
def leafNode (token : Token) : SSMLNode :=
  .mk (attributesOf token) token.extractValue []

/-- The string with every tab, line feed and carriage return deleted. -/
def deleteControl (s : List Char) : List Char :=
  s.filter (fun c => c != SpecialCharTab && c != SpecialCharNewLine &&
    c != SpecialCharCarriageReturn)

/-- The characters of a tag name: letters, digits, `_`, `-`, `.` and `:`. -/
def isNameChar (c : Char) : Bool :=
  c.isAlphanum || c == '_' || c == '-' || c == '.' || c == ':'

/-- The escape `&lt;` with its replacement. -/
def escapeLessThan : List Char × List Char := (SpecialStrLessThan, [SpecialCharLessThan])

/-- The escape `&gt;` with its replacement. -/
def escapeGreaterThan : List Char × List Char :=
  (SpecialStrGreaterThan, [SpecialCharGreaterThan])

/-- The escape `&amp;` with its replacement. -/
def escapeAmpersand : List Char × List Char := (SpecialStrAmpersand, [SpecialCharAmpersand])

/-- The replacements of lines 94-96 of `tokenize`, done in a given order. -/
def replaceEscapes (order : List (List Char × List Char)) (s : List Char) : List Char :=
  order.foldl (fun acc e => ReplaceAll acc e.1 e.2) s

/-! ## Balanced token sequences and trees in the heap -/

mutual
/-- Balanced item: a leaf is neither an opening nor a closing tag; an element has an
opening tag, a closing tag and balanced items (possibly none). -/
def Item.balanced : Item → Bool
  | .leaf token => !token.isOpeningTag && !token.isClosingTag
  | .elem opening items closing =>
    opening.isOpeningTag && closing.isClosingTag && itemsBalanced items
/-- All items of the list are balanced. -/
def itemsBalanced : List Item → Bool
  | [] => true
  | item :: rest => item.balanced && itemsBalanced rest
end

/-- The heap cell `constructSSMLTree` allocates for a token. -/
def cellOf (token : Token) : HeapNode :=
  { attributes := attributesOf token, value := token.extractValue, children := [] }

/-- The cell after `children = append(children, ptrs...)`. -/
def HeapNode.withChildren (cell : HeapNode) (ptrs : List Nat) : HeapNode :=
  { cell with children := cell.children ++ ptrs }

mutual
/-- The pointer `ptr` stands for the tree in the heap, all cells of the tree lying at the
addresses from `lo` up to, not including, `hi`. -/
def ReprIn (heap : List HeapNode) (lo hi : Nat) : Nat → SSMLNode → Prop
  | ptr, .mk a v cs =>
    lo ≤ ptr ∧ ptr < hi ∧ ∃ cell, heap[ptr]? = some cell ∧ cell.attributes = a ∧
      cell.value = v ∧ ReprListIn heap lo hi cell.children cs
/-- The pointers stand, in order, for the trees of the list. -/
def ReprListIn (heap : List HeapNode) (lo hi : Nat) : List Nat → List SSMLNode → Prop
  | ptrs, [] => ptrs = []
  | ptrs, t :: ts =>
    ∃ p ps, ptrs = p :: ps ∧ ReprIn heap lo hi p t ∧ ReprListIn heap lo hi ps ts
end

/-! ## Escaped input -/

/-- What an angle bracket is written as when it is escaped: `&lt;` for `<`, `&gt;` for `>`;
any other character stands for itself. -/
def escapeChar (c : Char) : List Char :=
  if c = SpecialCharLessThan then SpecialStrLessThan
  else if c = SpecialCharGreaterThan then SpecialStrGreaterThan
  else [c]

/-- The string with every `<` replaced by `&lt;` and every `>` replaced by `&gt;`. -/
def escapeAngles (s : List Char) : List Char :=
  s.flatMap escapeChar

/-! ## The recursive builder with the token of each node recorded -/

/-- A node together with the index of the token it was made from. -/
inductive TaggedNode where
  | mk (index : Nat) (attributes : List SSMLAttribute) (value : List Char)
      (children : List TaggedNode)

/-- Index of the token the node was made from. -/
def TaggedNode.index : TaggedNode → Nat
  | .mk i _ _ _ => i

/-- Field `attributes` of a node. -/
def TaggedNode.attributes : TaggedNode → List SSMLAttribute
  | .mk _ a _ _ => a

/-- Field `value` of a node. -/
def TaggedNode.value : TaggedNode → List Char
  | .mk _ _ v _ => v

/-- Field `children` of a node. -/
def TaggedNode.children : TaggedNode → List TaggedNode
  | .mk _ _ _ c => c

/-- The assignment `parent.children = append(parent.children, child)`. -/
def TaggedNode.appendChild (parent child : TaggedNode) : TaggedNode :=
  .mk parent.index parent.attributes parent.value (parent.children ++ [child])

mutual
/-- The node of the source: the recorded index forgotten. -/
def TaggedNode.erase : TaggedNode → SSMLNode
  | .mk _ a v children => .mk a v (eraseAll children)
/-- The nodes of the source, in order. -/
def eraseAll : List TaggedNode → List SSMLNode
  | [] => []
  | node :: rest => node.erase :: eraseAll rest
end

mutual
/-- The nodes strictly below a node, in document order. -/
def TaggedNode.descendants : TaggedNode → List TaggedNode
  | .mk _ _ _ children => taggedAll children
/-- The nodes of a list of trees: each tree's root and the nodes below it. -/
def taggedAll : List TaggedNode → List TaggedNode
  | [] => []
  | node :: rest => node :: (node.descendants ++ taggedAll rest)
end

/-- The call `getNodeFromToken(currentToken)` made at `index`: the node it returns,
with the index recorded. -/
def getTaggedNodeFromToken (index : Nat) (token : Token) : Except Fault TaggedNode :=
  match getNodeFromToken token with
  | .error e => .error e
  | .ok made => .ok (.mk index made.attributes made.value [])

/-- The function `addNode` again, every node carrying the index at which
`getNodeFromToken` was called to make it. -/
def addNodeTagged : Nat → Option TaggedNode → Nat → List Token → Nat →
    Except Fault (Option TaggedNode × Nat)
  | 0, _, _, _, _ => .error Fault.outOfFuel
  | fuel + 1, parent, index, tokens, maxParsed =>
    if index ≥ tokens.length then .ok (parent, maxParsed)
    else
      let maxParsed := max maxParsed index
      match tokens[index]? with
      | none => .error Fault.indexOutOfRange
      | some currentToken =>
        match parent with
        | none =>
          match getTaggedNodeFromToken index currentToken with
          | .error e => .error e
          | .ok newParent => addNodeTagged fuel (some newParent) (index + 1) tokens maxParsed
        | some parent =>
          if currentToken.isClosingTag then .ok (some parent, maxParsed)
          else if index < maxParsed then
            addNodeTagged fuel (some parent) (maxParsed + 1) tokens maxParsed
          else if currentToken.isOpeningTag then
            match getTaggedNodeFromToken index currentToken with
            | .error e => .error e
            | .ok newParent =>
              match addNodeTagged fuel (some newParent) (index + 1) tokens maxParsed with
              | .error e => .error e
              | .ok (none, _) => .error Fault.nilChild
              | .ok (some nodeToAdd, maxParsed) =>
                addNodeTagged fuel (some (parent.appendChild nodeToAdd)) (index + 1) tokens
                  maxParsed
          else
            match getTaggedNodeFromToken index currentToken with
            | .error e => .error e
            | .ok nodeToAdd =>
              addNodeTagged fuel (some (parent.appendChild nodeToAdd)) (index + 1) tokens
                maxParsed

/-- Forgetting the recorded indices in a result of `addNodeTagged`. -/
def eraseResult : Except Fault (Option TaggedNode × Nat) → Except Fault (Option SSMLNode × Nat)
  | .error e => .error e
  | .ok (node, mp) => .ok (node.map TaggedNode.erase, mp)

/-- The call of `ParseTree` to the builder, with the indices recorded. -/
def buildTreeTagged (tokens : List Token) : Except Fault (Option TaggedNode) :=
  match addNodeTagged (tokens.length + 1) none 0 tokens 0 with
  | .error e => .error e
  | .ok (root, _) => .ok root

/-- The node was made from the token at its recorded index, which is not the first token
and not a closing tag: it has the extracted value and the attributes of that token, and it
has no children unless the token is an opening tag. -/
def madeAt (tokens : List Token) (n : TaggedNode) : Prop :=
  0 < n.index ∧ ∃ t, tokens[n.index]? = some t ∧ t.isClosingTag = false ∧
    n.value = t.extractValue ∧ n.attributes = attributesOf t ∧
    (t.isOpeningTag = false → n.children = [])

/-! ## Segmentations: what a scan of `FindAllString` looks like -/

/-- The string a list of (passed-over characters, match) pairs spells. -/
def segmentsFlat : List (List Char × List Char) → List Char
  | [] => []
  | (gap, tok) :: rest => gap ++ (tok ++ segmentsFlat rest)

/-- The pairs `gs` followed by the passed-over characters `last` are the scan of the
pattern with matcher `m`: the pattern matches nowhere at a passed-over character, and
every match is the match of the pattern at its position. -/
def IsScan (m : List Char → Option Nat) : List (List Char × List Char) → List Char → Prop
  | [], last => ∀ g1 c g2, last = g1 ++ c :: g2 → m (c :: g2) = none
  | (gap, tok) :: gs, last =>
    (∀ g1 c g2, gap = g1 ++ c :: g2 →
        m (c :: (g2 ++ (tok ++ (segmentsFlat gs ++ last)))) = none) ∧
    m (tok ++ (segmentsFlat gs ++ last)) = some tok.length ∧ tok ≠ [] ∧ IsScan m gs last

/-! # Theorems -/

/-! ## The scan of `FindAllString` -/

theorem isScan_skip (m : List Char → Option Nat) (c : Char) :
    ∀ (gs : List (List Char × List Char)) (last : List Char),
      m (c :: (segmentsFlat gs ++ last)) = none → IsScan m gs last →
      ∃ gs1 last1, gs1.map Prod.snd = gs.map Prod.snd ∧
        segmentsFlat gs1 ++ last1 = c :: (segmentsFlat gs ++ last) ∧ IsScan m gs1 last1 := by
  intro gs last hnone hscan
  cases gs with
  | nil =>
    refine ⟨[], c :: last, rfl, rfl, ?_⟩
    intro g1 d g2 hsplit
    cases g1 with
    | nil =>
      simp only [List.nil_append, List.cons.injEq] at hsplit
      obtain ⟨rfl, rfl⟩ := hsplit
      simpa [segmentsFlat] using hnone
    | cons e g1 =>
      simp only [List.cons_append, List.cons.injEq] at hsplit
      exact hscan g1 d g2 hsplit.2
  | cons g gs =>
    obtain ⟨gap, tok⟩ := g
    obtain ⟨hgap, htok, hne, hrest⟩ := hscan
    refine ⟨(c :: gap, tok) :: gs, last, rfl, by simp [segmentsFlat], ?_, htok, hne, hrest⟩
    intro g1 d g2 hsplit
    cases g1 with
    | nil =>
      simp only [List.nil_append, List.cons.injEq] at hsplit
      obtain ⟨rfl, rfl⟩ := hsplit
      simpa [segmentsFlat] using hnone
    | cons e g1 =>
      simp only [List.cons_append, List.cons.injEq] at hsplit
      exact hgap g1 d g2 hsplit.2

theorem findAllAux_isScan (m : List Char → Option Nat)
    (hm : ∀ s n, m s = some n → 0 < n ∧ n ≤ s.length) :
    ∀ (fuel : Nat) (s : List Char), s.length ≤ fuel →
      ∃ gs last, findAllAux m fuel s = gs.map Prod.snd ∧ segmentsFlat gs ++ last = s ∧
        IsScan m gs last := by
  intro fuel
  induction fuel with
  | zero =>
    intro s hs
    have : s = [] := List.eq_nil_of_length_eq_zero (by omega)
    subst this
    exact ⟨[], [], rfl, rfl, by intro g1 c g2 h; simp at h⟩
  | succ fuel ih =>
    intro s hs
    cases s with
    | nil => exact ⟨[], [], rfl, rfl, by intro g1 c g2 h; simp at h⟩
    | cons c cs =>
      cases hmatch : m (c :: cs) with
      | none =>
        obtain ⟨gs, last, hfind, hflat, hscan⟩ := ih cs (by simpa using hs)
        obtain ⟨gs1, last1, hmap, hflat1, hscan1⟩ :=
          isScan_skip m c gs last (by rw [hflat]; exact hmatch) hscan
        refine ⟨gs1, last1, ?_, by rw [hflat1, hflat], hscan1⟩
        simp only [findAllAux, hmatch]
        rw [hfind, hmap]
      | some n =>
        obtain ⟨hpos, hle⟩ := hm _ _ hmatch
        obtain ⟨gs, last, hfind, hflat, hscan⟩ :=
          ih ((c :: cs).drop n) (by simp only [List.length_drop, List.length_cons] at hs ⊢; omega)
        refine ⟨([], (c :: cs).take n) :: gs, last, ?_, ?_, ?_, ?_, ?_, hscan⟩
        · simp only [findAllAux, hmatch, List.map_cons]
          rw [hfind]
        · simp only [segmentsFlat, List.nil_append, List.append_assoc]
          rw [hflat, List.take_append_drop]
        · intro g1 d g2 h
          simp at h
        · rw [hflat, List.take_append_drop, hmatch, List.length_take]
          congr 1
          omega
        · intro h
          have := congrArg List.length h
          rw [List.length_take] at this
          simp only [List.length_cons, List.length_nil] at this hle
          omega

theorem findAllString_isScan (m : List Char → Option Nat)
    (hm : ∀ s n, m s = some n → 0 < n ∧ n ≤ s.length) (s : List Char) :
    ∃ gs last, FindAllString m s = gs.map Prod.snd ∧ segmentsFlat gs ++ last = s ∧
      IsScan m gs last :=
  findAllAux_isScan m hm s.length s (Nat.le_refl _)

theorem length_takeWhile_add_dropWhile (p : Char → Bool) (l : List Char) :
    (l.takeWhile p).length + (l.dropWhile p).length = l.length := by
  induction l with
  | nil => rfl
  | cons c cs ih =>
    by_cases h : p c = true
    · simp only [List.takeWhile_cons, List.dropWhile_cons, h, if_true, List.length_cons]
      omega
    · simp [List.takeWhile_cons, List.dropWhile_cons, h]

theorem matchTag_bounds (s : List Char) (n : Nat) (h : matchTag s = some n) :
    0 < n ∧ n ≤ s.length := by
  unfold matchTag at h
  split at h
  · simp at h
  · rename_i c rest
    split at h
    · have hlen := length_takeWhile_add_dropWhile isTagChar rest
      split at h
      · simp at h
      · rename_i d tl hd
        rw [hd] at hlen
        split at h
        · simp only [Option.some.injEq] at h
          simp only [List.length_cons] at hlen ⊢
          omega
        · simp at h
    · simp at h

theorem matchText_bounds (s : List Char) (n : Nat) (h : matchText s = some n) :
    0 < n ∧ n ≤ s.length := by
  unfold matchText at h
  have hlen := length_takeWhile_add_dropWhile isBlank s
  split at h
  · simp at h
  · rename_i c rest hd
    rw [hd] at hlen
    have hlen2 := length_takeWhile_add_dropWhile isNotAngle rest
    split at h
    · simp only [Option.some.injEq] at h
      simp only [List.length_cons] at hlen
      omega
    · simp at h

theorem matchToken_bounds (s : List Char) (n : Nat) (h : matchToken s = some n) :
    0 < n ∧ n ≤ s.length := by
  unfold matchToken at h
  split at h
  · rename_i k hk
    simp only [Option.some.injEq] at h
    subst h
    exact matchTag_bounds s _ hk
  · exact matchText_bounds s n h

/-! ## Classification of tokens -/

/-- Claim C5, as stated, fails: the token `</>` is both a closing tag and a self-closing
tag, so two of the three classes hold for it. -/
theorem classification_not_exclusive :
    ¬ ((Token.mk ['<', '/', '>']).classCount ≤ 1) ∧
    (Token.mk ['<', '/', '>']).isClosingTag = true ∧
    (Token.mk ['<', '/', '>']).isSelfClosingTag = true ∧
    (Token.mk ['<', '/', '>']).isTag = true := by
  decide

/-- Claim C5, amended: for every string that does not both start with `</` and end with
`/>`, at most one of `isOpeningTag`, `isClosingTag`, `isSelfClosingTag` holds, and `isTag`
holds if and only if exactly one of them holds. -/
theorem classification_exclusive (t : Token)
    (h : ¬ (HasPrefix t.value SpecialStrClosingTag = true ∧
            HasSuffix t.value SpecialStrSelfClosingTag = true)) :
    t.classCount ≤ 1 ∧ (t.isTag = true ↔ t.classCount = 1) := by
  unfold Token.classCount Token.isTag Token.isOpeningTag Token.isClosingTag
    Token.isSelfClosingTag
  revert h
  generalize HasPrefix t.value SpecialStrClosingTag = a
  generalize HasSuffix t.value SpecialStrSelfClosingTag = d
  generalize HasPrefix t.value [SpecialCharLessThan] = c
  generalize HasSuffix t.value [SpecialCharGreaterThan] = b
  cases a <;> cases b <;> cases c <;> cases d <;> simp

/-- The amended claim C5 at the opening tag `<speak>`: exactly one class holds. -/
theorem classification_exclusive_witness :
    (Token.mk ['<', 's', 'p', 'e', 'a', 'k', '>']).classCount ≤ 1 ∧
    ((Token.mk ['<', 's', 'p', 'e', 'a', 'k', '>']).isTag = true ↔
      (Token.mk ['<', 's', 'p', 'e', 'a', 'k', '>']).classCount = 1) :=
  classification_exclusive (Token.mk ['<', 's', 'p', 'e', 'a', 'k', '>']) (by decide)

/-! ## Attribute matches and their splitting -/

theorem matchAttribute_shape (s : List Char) (n : Nat) (h : matchAttribute s = some n) :
    ∃ name sp1 sp2 val rest,
      s = name ++ (sp1 ++ '=' :: (sp2 ++ quoteChar :: (val ++ quoteChar :: rest))) ∧
      n = (name ++ (sp1 ++ '=' :: (sp2 ++ quoteChar :: (val ++ [quoteChar])))).length ∧
      name ≠ [] ∧ (∀ c ∈ name, isAttrNameChar c = true) ∧ (∀ c ∈ sp1, isBlank c = true) ∧
      (∀ c ∈ sp2, isBlank c = true) ∧ (∀ c ∈ val, isAttrValueChar c = true) := by
  unfold matchAttribute at h
  simp only at h
  split at h
  · simp at h
  · rename_i hname
    split at h
    · simp at h
    · rename_i e s2 h1
      split at h
      · rename_i he
        subst he
        split at h
        · simp at h
        · rename_i q s3 h2
          split at h
          · rename_i hq
            subst hq
            split at h
            · simp at h
            · rename_i r rest h3
              split at h
              · rename_i hr
                subst hr
                simp only [Option.some.injEq] at h
                refine ⟨s.takeWhile isAttrNameChar,
                  (s.dropWhile isAttrNameChar).takeWhile isBlank, s2.takeWhile isBlank,
                  s3.takeWhile isAttrValueChar, rest, ?_, ?_, hname, ?_, ?_, ?_, ?_⟩
                · rw [← h3, List.takeWhile_append_dropWhile, ← h2,
                    List.takeWhile_append_dropWhile, ← h1, List.takeWhile_append_dropWhile,
                    List.takeWhile_append_dropWhile]
                · rw [← h]
                  simp only [List.length_append, List.length_cons, List.length_nil]
                  omega
                · intro c hc
                  exact List.mem_takeWhile_imp hc
                · intro c hc
                  exact List.mem_takeWhile_imp hc
                · intro c hc
                  exact List.mem_takeWhile_imp hc
                · intro c hc
                  exact List.mem_takeWhile_imp hc
              · simp at h
          · simp at h
      · simp at h

theorem matchAttribute_bounds (s : List Char) (n : Nat) (h : matchAttribute s = some n) :
    0 < n ∧ n ≤ s.length := by
  obtain ⟨name, sp1, sp2, val, rest, hs, hn, -⟩ := matchAttribute_shape s n h
  subst hs hn
  simp only [List.length_append, List.length_cons, List.length_nil]
  omega

/-- The text of a match of the attribute pattern: a name, spaces, `=`, spaces and a quoted
value. -/
theorem match_text_of_matchAttribute (tok rest : List Char)
    (h : matchAttribute (tok ++ rest) = some tok.length) :
    ∃ name sp1 sp2 val,
      tok = name ++ (sp1 ++ '=' :: (sp2 ++ quoteChar :: (val ++ [quoteChar]))) ∧
      name ≠ [] ∧ (∀ c ∈ name, isAttrNameChar c = true) ∧ (∀ c ∈ sp1, isBlank c = true) ∧
      (∀ c ∈ sp2, isBlank c = true) ∧ (∀ c ∈ val, isAttrValueChar c = true) := by
  obtain ⟨name, sp1, sp2, val, rest1, hs, hn, hne, h1, h2, h3, h4⟩ :=
    matchAttribute_shape _ _ h
  refine ⟨name, sp1, sp2, val, ?_, hne, h1, h2, h3, h4⟩
  have hs2 : tok ++ rest =
      (name ++ (sp1 ++ '=' :: (sp2 ++ quoteChar :: (val ++ [quoteChar])))) ++ rest1 := by
    rw [hs]
    simp
  exact (List.append_inj hs2 hn).1

theorem split_ne_nil (s : List Char) (sep : Char) : Split s sep ≠ [] := by
  induction s with
  | nil => simp [Split]
  | cons c cs ih =>
    unfold Split
    split
    · simp
    · split <;> simp

theorem split_of_not_mem (s : List Char) (sep : Char) (h : sep ∉ s) : Split s sep = [s] := by
  induction s with
  | nil => rfl
  | cons c cs ih =>
    simp only [List.mem_cons, not_or] at h
    unfold Split
    rw [if_neg (fun hc => h.1 hc.symm), ih h.2]

theorem split_append_sep (a b : List Char) (sep : Char) (h : sep ∉ a) :
    Split (a ++ sep :: b) sep = a :: Split b sep := by
  induction a with
  | nil => simp [Split]
  | cons c cs ih =>
    simp only [List.mem_cons, not_or] at h
    simp only [List.cons_append]
    conv_lhs => unfold Split
    rw [if_neg (fun hc => h.1 hc.symm), ih h.2]

theorem attrNameChar_ne_eq (c : Char) (h : isAttrNameChar c = true) : c ≠ '=' := by
  rintro rfl
  revert h
  decide

theorem attrValueChar_ne_eq (c : Char) (h : isAttrValueChar c = true) : c ≠ '=' := by
  rintro rfl
  revert h
  decide

theorem blank_eq_space (c : Char) (h : isBlank c = true) : c = ' ' := by
  simpa [isBlank] using h

/-- Splitting a match of the attribute pattern on `=` gives exactly two pieces. -/
theorem split_match (name sp1 sp2 val : List Char)
    (h1 : ∀ c ∈ name, isAttrNameChar c = true) (h2 : ∀ c ∈ sp1, isBlank c = true)
    (h3 : ∀ c ∈ sp2, isBlank c = true) (h4 : ∀ c ∈ val, isAttrValueChar c = true) :
    Split (name ++ (sp1 ++ '=' :: (sp2 ++ quoteChar :: (val ++ [quoteChar])))) '=' =
      [name ++ sp1, sp2 ++ quoteChar :: (val ++ [quoteChar])] := by
  have hleft : '=' ∉ name ++ sp1 := by
    intro hmem
    rcases List.mem_append.1 hmem with hm | hm
    · exact attrNameChar_ne_eq _ (h1 _ hm) rfl
    · exact absurd (blank_eq_space _ (h2 _ hm)) (by decide)
  have hright : '=' ∉ sp2 ++ quoteChar :: (val ++ [quoteChar]) := by
    intro hmem
    rcases List.mem_append.1 hmem with hm | hm
    · exact absurd (blank_eq_space _ (h3 _ hm)) (by decide)
    · rcases List.mem_cons.1 hm with hm | hm
      · exact absurd hm (by decide)
      · rcases List.mem_append.1 hm with hm | hm
        · exact attrValueChar_ne_eq _ (h4 _ hm) rfl
        · simp only [List.mem_singleton] at hm
          exact absurd hm (by decide)
  rw [← List.append_assoc, split_append_sep _ _ _ hleft, split_of_not_mem _ _ hright]

/-- The loop body of `ParseAttributes` does not fail on a match of the attribute pattern. -/
theorem parseAttribute_match (tok rest : List Char)
    (h : matchAttribute (tok ++ rest) = some tok.length) :
    ∃ a, parseAttribute (Token.mk tok) = .ok a := by
  obtain ⟨name, sp1, sp2, val, htok, -, h1, h2, h3, h4⟩ := match_text_of_matchAttribute _ _ h
  subst htok
  unfold parseAttribute
  simp only
  rw [split_match name sp1 sp2 val h1 h2 h3 h4]
  exact ⟨_, rfl⟩

theorem parseAttributeTokens_isScan (gs : List (List Char × List Char)) (last : List Char)
    (h : IsScan matchAttribute gs last) :
    ∃ attrs, parseAttributeTokens ((gs.map Prod.snd).map Token.mk) = .ok attrs ∧
      attrs.length = gs.length := by
  induction gs with
  | nil => exact ⟨[], rfl, rfl⟩
  | cons g gs ih =>
    obtain ⟨gap, tok⟩ := g
    obtain ⟨-, htok, -, hrest⟩ := h
    obtain ⟨attrs, hattrs, hlen⟩ := ih hrest
    obtain ⟨a, ha⟩ := parseAttribute_match tok _ htok
    refine ⟨a :: attrs, ?_, by simp [hlen]⟩
    simp only [List.map_cons, parseAttributeTokens, ha, hattrs]

/-- `ParseAttributes` returns a list for every input: it never indexes out of range. -/
theorem parseAttributes_ok (input : List Char) : ∃ attrs, ParseAttributes input = .ok attrs := by
  obtain ⟨gs, last, hfind, -, hscan⟩ :=
    findAllString_isScan matchAttribute matchAttribute_bounds (attributesNormalize input)
  obtain ⟨attrs, hattrs, -⟩ := parseAttributeTokens_isScan gs last hscan
  exact ⟨attrs, by unfold ParseAttributes tokenizeAttributes; rw [hfind, hattrs]⟩

theorem getNodeFromToken_ok (token : Token) :
    ∃ attrs, ParseAttributes token.value = .ok attrs ∧
      getNodeFromToken token = .ok (newNode token.extractValue attrs) := by
  obtain ⟨attrs, h⟩ := parseAttributes_ok token.value
  exact ⟨attrs, h, by unfold getNodeFromToken; rw [h]⟩

/-! ## The recursive builder: termination -/

theorem addNodeCalls_spec (tokens : List Token) :
    ∀ (fuel : Nat) (parent : Option SSMLNode) (index maxParsed : Nat),
      0 < fuel → tokens.length + 1 ≤ fuel + index →
      ∃ node mp calls, addNodeCalls fuel parent index tokens maxParsed = .ok (node, mp, calls) ∧
        (parent.isSome = true → node.isSome = true) ∧
        ∀ call ∈ calls, call.1 < call.2 ∧ call.1 < tokens.length := by
  intro fuel
  induction fuel with
  | zero => intro _ _ _ h; omega
  | succ fuel ih =>
    intro parent index maxParsed _ hfuel
    unfold addNodeCalls
    by_cases hidx : index ≥ tokens.length
    · rw [if_pos hidx]
      exact ⟨parent, maxParsed, [], rfl, id, by simp⟩
    · rw [if_neg hidx]
      have hlt : index < tokens.length := by omega
      have hfuel0 : 0 < fuel := by omega
      simp only [List.getElem?_eq_getElem hlt]
      cases parent with
      | none =>
        obtain ⟨attrs, -, hnode⟩ := getNodeFromToken_ok tokens[index]
        simp only [hnode]
        obtain ⟨node, mp, calls, hcall, hsome, hcalls⟩ :=
          ih (some (newNode tokens[index].extractValue attrs)) (index + 1)
            (max maxParsed index) hfuel0 (by omega)
        simp only [hcall]
        refine ⟨node, mp, _, rfl, fun h => by simp at h, ?_⟩
        intro call hmem
        rcases List.mem_cons.1 hmem with rfl | hmem
        · exact ⟨Nat.lt_succ_self _, hlt⟩
        · exact hcalls call hmem
      | some p =>
        simp only
        by_cases hclose : tokens[index].isClosingTag = true
        · rw [if_pos hclose]
          exact ⟨some p, _, [], rfl, fun _ => rfl, by simp⟩
        · rw [if_neg hclose]
          by_cases hmark : index < max maxParsed index
          · rw [if_pos hmark]
            obtain ⟨node, mp, calls, hcall, hsome, hcalls⟩ :=
              ih (some p) (max maxParsed index + 1) (max maxParsed index) hfuel0 (by omega)
            simp only [hcall]
            refine ⟨node, mp, _, rfl, fun _ => hsome rfl, ?_⟩
            intro call hmem
            rcases List.mem_cons.1 hmem with rfl | hmem
            · exact ⟨by simp only; omega, hlt⟩
            · exact hcalls call hmem
          · rw [if_neg hmark]
            obtain ⟨attrs, -, hnode⟩ := getNodeFromToken_ok tokens[index]
            by_cases hopen : tokens[index].isOpeningTag = true
            · rw [if_pos hopen]
              simp only [hnode]
              obtain ⟨node1, mp1, calls1, hcall1, hsome1, hcalls1⟩ :=
                ih (some (newNode tokens[index].extractValue attrs)) (index + 1)
                  (max maxParsed index) hfuel0 (by omega)
              have hn1 := hsome1 rfl
              obtain ⟨child, rfl⟩ := Option.isSome_iff_exists.1 hn1
              simp only [hcall1]
              obtain ⟨node2, mp2, calls2, hcall2, hsome2, hcalls2⟩ :=
                ih (some (p.appendChild child)) (index + 1) mp1 hfuel0 (by omega)
              simp only [hcall2]
              refine ⟨node2, mp2, _, rfl, fun _ => hsome2 rfl, ?_⟩
              intro call hmem
              rcases List.mem_cons.1 hmem with rfl | hmem
              · exact ⟨Nat.lt_succ_self _, hlt⟩
              · rcases List.mem_append.1 hmem with hmem | hmem
                · exact hcalls1 call hmem
                · rcases List.mem_cons.1 hmem with rfl | hmem
                  · exact ⟨Nat.lt_succ_self _, hlt⟩
                  · exact hcalls2 call hmem
            · rw [if_neg hopen]
              simp only [hnode]
              obtain ⟨node, mp, calls, hcall, hsome, hcalls⟩ :=
                ih (some (p.appendChild (newNode tokens[index].extractValue attrs)))
                  (index + 1) (max maxParsed index) hfuel0 (by omega)
              simp only [hcall]
              refine ⟨node, mp, _, rfl, fun _ => hsome rfl, ?_⟩
              intro call hmem
              rcases List.mem_cons.1 hmem with rfl | hmem
              · exact ⟨Nat.lt_succ_self _, hlt⟩
              · exact hcalls call hmem

theorem addNodeCalls_result (tokens : List Token) :
    ∀ (fuel : Nat) (parent : Option SSMLNode) (index maxParsed : Nat),
      dropCalls (addNodeCalls fuel parent index tokens maxParsed) =
        addNode fuel parent index tokens maxParsed := by
  intro fuel
  induction fuel with
  | zero => intro _ _ _; rfl
  | succ fuel ih =>
    intro parent index maxParsed
    unfold addNodeCalls addNode
    by_cases hidx : index ≥ tokens.length
    · simp only [if_pos hidx, dropCalls]
    · simp only [if_neg hidx]
      cases tokens[index]? with
      | none => rfl
      | some currentToken =>
        cases parent with
        | none =>
          simp only
          cases getNodeFromToken currentToken with
          | error e => rfl
          | ok newParent =>
            simp only
            rw [← ih]
            cases addNodeCalls fuel (some newParent) (index + 1) tokens (max maxParsed index) with
            | error e => rfl
            | ok r => rfl
        | some p =>
          simp only
          by_cases hclose : currentToken.isClosingTag = true
          · simp only [if_pos hclose, dropCalls]
          · simp only [if_neg hclose]
            by_cases hmark : index < max maxParsed index
            · simp only [if_pos hmark]
              rw [← ih]
              cases addNodeCalls fuel (some p) (max maxParsed index + 1) tokens
                (max maxParsed index) with
              | error e => rfl
              | ok r => rfl
            · simp only [if_neg hmark]
              by_cases hopen : currentToken.isOpeningTag = true
              · simp only [if_pos hopen]
                cases getNodeFromToken currentToken with
                | error e => rfl
                | ok newParent =>
                  simp only
                  rw [← ih]
                  cases addNodeCalls fuel (some newParent) (index + 1) tokens
                    (max maxParsed index) with
                  | error e => rfl
                  | ok r =>
                    obtain ⟨node1, mp1, calls1⟩ := r
                    cases node1 with
                    | none => rfl
                    | some child =>
                      simp only [dropCalls]
                      rw [← ih]
                      cases addNodeCalls fuel (some (p.appendChild child)) (index + 1) tokens
                        mp1 with
                      | error e => rfl
                      | ok r => rfl
              · simp only [if_neg hopen]
                cases getNodeFromToken currentToken with
                | error e => rfl
                | ok nodeToAdd =>
                  simp only
                  rw [← ih]
                  cases addNodeCalls fuel (some (p.appendChild nodeToAdd)) (index + 1) tokens
                    (max maxParsed index) with
                  | error e => rfl
                  | ok r => rfl

/-! ## The recursive builder: one step of each kind -/

theorem getNodeFromToken_eq (token : Token) :
    getNodeFromToken token = .ok (.mk (attributesOf token) token.extractValue []) := by
  obtain ⟨attrs, hattrs, hnode⟩ := getNodeFromToken_ok token
  rw [hnode]
  unfold attributesOf newNode
  rw [hattrs]

/-- The list `attributesOf` names is the list `ParseAttributes` returns. -/
theorem parseAttributes_eq_attributesOf (token : Token) :
    ParseAttributes token.value = .ok (attributesOf token) := by
  obtain ⟨attrs, hattrs⟩ := parseAttributes_ok token.value
  unfold attributesOf
  rw [hattrs]

theorem addNode_root (fuel index maxParsed : Nat) (tokens : List Token) (t : Token)
    (ht : tokens[index]? = some t) :
    addNode (fuel + 1) none index tokens maxParsed =
      addNode fuel (some (.mk (attributesOf t) t.extractValue [])) (index + 1) tokens
        (max maxParsed index) := by
  have hlt : index < tokens.length := (List.getElem?_eq_some.1 ht).1
  conv_lhs => unfold addNode
  rw [if_neg (by omega)]
  simp only [ht, getNodeFromToken_eq]

theorem addNode_closing (fuel index maxParsed : Nat) (tokens : List Token) (t : Token)
    (p : SSMLNode) (ht : tokens[index]? = some t) (hclose : t.isClosingTag = true) :
    addNode (fuel + 1) (some p) index tokens maxParsed = .ok (some p, max maxParsed index) := by
  have hlt : index < tokens.length := (List.getElem?_eq_some.1 ht).1
  conv_lhs => unfold addNode
  rw [if_neg (by omega)]
  simp only [ht, hclose, if_true]

theorem addNode_parsed (fuel index maxParsed : Nat) (tokens : List Token) (t : Token)
    (p : SSMLNode) (ht : tokens[index]? = some t) (hclose : t.isClosingTag = false)
    (hmark : index < maxParsed) :
    addNode (fuel + 1) (some p) index tokens maxParsed =
      addNode fuel (some p) (maxParsed + 1) tokens maxParsed := by
  have hlt : index < tokens.length := (List.getElem?_eq_some.1 ht).1
  have hmax : max maxParsed index = maxParsed := by omega
  conv_lhs => unfold addNode
  rw [if_neg (by omega)]
  simp only [ht, hclose, hmax, if_pos hmark]
  simp

theorem addNode_leaf (fuel index maxParsed : Nat) (tokens : List Token) (t : Token)
    (p : SSMLNode) (ht : tokens[index]? = some t) (hclose : t.isClosingTag = false)
    (hopen : t.isOpeningTag = false) (hmark : maxParsed ≤ index) :
    addNode (fuel + 1) (some p) index tokens maxParsed =
      addNode fuel (some (p.appendChild (.mk (attributesOf t) t.extractValue []))) (index + 1)
        tokens index := by
  have hlt : index < tokens.length := (List.getElem?_eq_some.1 ht).1
  have hmax : max maxParsed index = index := by omega
  conv_lhs => unfold addNode
  rw [if_neg (by omega)]
  simp only [ht, hclose, hopen, hmax, getNodeFromToken_eq]
  simp

theorem addNode_opening (fuel index maxParsed mp : Nat) (tokens : List Token) (t : Token)
    (p child : SSMLNode) (ht : tokens[index]? = some t) (hclose : t.isClosingTag = false)
    (hopen : t.isOpeningTag = true) (hmark : maxParsed ≤ index)
    (hchild : addNode fuel (some (.mk (attributesOf t) t.extractValue [])) (index + 1) tokens
      index = .ok (some child, mp)) :
    addNode (fuel + 1) (some p) index tokens maxParsed =
      addNode fuel (some (p.appendChild child)) (index + 1) tokens mp := by
  have hlt : index < tokens.length := (List.getElem?_eq_some.1 ht).1
  have hmax : max maxParsed index = index := by omega
  conv_lhs => unfold addNode
  rw [if_neg (by omega)]
  simp only [ht, hclose, hopen, hmax, getNodeFromToken_eq, hchild]
  simp

theorem ok_pair_congr {a : Option SSMLNode} {m n : Nat} (h : m = n) :
    (Except.ok (a, m) : Except Fault (Option SSMLNode × Nat)) = .ok (a, n) := by
  rw [h]

theorem getElem?_append_cons (pre post : List Token) (t : Token) :
    (pre ++ t :: post)[pre.length]? = some t := by
  induction pre with
  | nil => simp
  | cons a pre ih => simpa using ih

theorem opening_not_closing (t : Token) (h : t.isOpeningTag = true) :
    t.isClosingTag = false := by
  unfold Token.isOpeningTag at h
  cases hc : t.isClosingTag <;> simp [hc] at h ⊢

theorem itemsTokens_head (items : List Item) (hwf : itemsWellFormed items = true)
    (hne : items ≠ []) :
    ∃ t tl, itemsTokens items = t :: tl ∧ t.isClosingTag = false := by
  cases items with
  | nil => exact absurd rfl hne
  | cons item rest =>
    cases item with
    | leaf token =>
      refine ⟨token, itemsTokens rest, by simp [itemsTokens, Item.tokens], ?_⟩
      simp only [itemsWellFormed, Item.wellFormed, Bool.and_eq_true, Bool.not_eq_true'] at hwf
      exact hwf.1.2
    | elem opening its closing =>
      refine ⟨opening, (itemsTokens its ++ [closing]) ++ itemsTokens rest,
        by simp [itemsTokens, Item.tokens], ?_⟩
      simp only [itemsWellFormed, Item.wellFormed, Bool.and_eq_true] at hwf
      exact opening_not_closing _ hwf.1.1.1.1

/-- The children loop of `addNode` on a well-formed run of items that is followed by a
closing tag: the items are appended in order and the mark ends on the closing tag. -/
theorem addNode_items :
    ∀ (n : Nat) (items : List Item), (itemsTokens items).length ≤ n →
      itemsWellFormed items = true →
      ∀ (pre post : List Token) (closing : Token) (p : SSMLNode) (m fuel : Nat),
        closing.isClosingTag = true → m ≤ pre.length →
        (pre ++ (itemsTokens items ++ closing :: post)).length + 1 ≤ fuel + pre.length →
        addNode fuel (some p) pre.length (pre ++ (itemsTokens items ++ closing :: post)) m =
          .ok (some (.mk p.attributes p.value (p.children ++ itemsMirror items)),
            pre.length + (itemsTokens items).length) := by
  intro n
  induction n with
  | zero =>
    intro items hlen hwf pre post closing p m fuel hclose hm hfuel
    cases items with
    | nil =>
      obtain ⟨fuel, rfl⟩ : ∃ k, fuel = k + 1 := ⟨fuel - 1, by
        simp only [List.length_append, List.length_cons] at hfuel; omega⟩
      simp only [itemsTokens, List.nil_append, itemsMirror, List.append_nil, List.length_nil,
        Nat.add_zero]
      rw [addNode_closing fuel _ _ _ closing p (getElem?_append_cons pre post closing) hclose]
      cases p
      simp only [SSMLNode.attributes, SSMLNode.value, SSMLNode.children]
      exact ok_pair_congr (by omega)
    | cons item rest =>
      cases item <;> simp [itemsTokens, Item.tokens] at hlen
  | succ n ih =>
    intro items hlen hwf pre post closing p m fuel hclose hm hfuel
    cases items with
    | nil => exact ih [] (by simp [itemsTokens]) hwf pre post closing p m fuel hclose hm hfuel
    | cons item rest =>
      cases item with
      | leaf token =>
        simp only [itemsWellFormed, Item.wellFormed, Bool.and_eq_true, Bool.not_eq_true'] at hwf
        obtain ⟨⟨hopen, hcl⟩, hrest⟩ := hwf
        simp only [itemsTokens, Item.tokens, List.singleton_append, List.length_cons,
          List.cons_append, List.nil_append, itemsMirror] at hlen hfuel ⊢
        obtain ⟨fuel, rfl⟩ : ∃ k, fuel = k + 1 := ⟨fuel - 1, by
          simp only [List.length_append, List.length_cons] at hfuel; omega⟩
        rw [addNode_leaf fuel _ _ _ token p (getElem?_append_cons pre _ token) hcl hopen hm]
        have hpre : pre ++ token :: (itemsTokens rest ++ closing :: post) =
            (pre ++ [token]) ++ (itemsTokens rest ++ closing :: post) := by simp
        have hidx : pre.length + 1 = (pre ++ [token]).length := by simp
        rw [hpre, hidx]
        rw [ih rest (by omega) hrest (pre ++ [token]) post closing _ pre.length fuel hclose
          (by simp) (by
            simp only [List.length_append, List.length_cons, List.length_nil] at hfuel ⊢
            omega)]
        cases p
        simp only [SSMLNode.appendChild, SSMLNode.attributes, SSMLNode.value,
          SSMLNode.children, Item.mirror, List.append_assoc, List.singleton_append,
          List.length_append, List.length_cons, List.length_nil]
        exact ok_pair_congr (by omega)
      | elem opening its cl =>
        simp only [itemsWellFormed, Item.wellFormed, Bool.and_eq_true, Bool.not_eq_true',
          List.isEmpty_eq_false] at hwf
        obtain ⟨⟨⟨⟨hopen, hcl⟩, hne⟩, hits⟩, hrest⟩ := hwf
        obtain ⟨t, tl, hhead, htclose⟩ := itemsTokens_head its hits hne
        simp only [itemsTokens, Item.tokens, List.length_cons, List.cons_append,
          List.length_append, List.length_nil, itemsMirror] at hlen hfuel ⊢
        obtain ⟨fuel, rfl⟩ : ∃ k, fuel = k + 2 := ⟨fuel - 2, by
          rw [hhead] at hfuel
          simp only [List.length_cons] at hfuel; omega⟩
        have hnc := opening_not_closing _ hopen
        -- the tokens, seen from the first item of the element
        have htoks1 : pre ++ opening :: (itemsTokens its ++ [cl] ++ itemsTokens rest ++
            closing :: post) =
            (pre ++ [opening]) ++ (itemsTokens its ++ cl :: (itemsTokens rest ++
              closing :: post)) := by simp
        have hchild := ih its (by omega) hits (pre ++ [opening])
          (itemsTokens rest ++ closing :: post) cl
          (.mk (attributesOf opening) opening.extractValue []) pre.length (fuel + 1) hcl
          (by simp) (by
            simp only [List.length_append, List.length_cons, List.length_nil] at hfuel ⊢
            omega)
        simp only [List.length_append, List.length_cons, List.length_nil, SSMLNode.attributes,
          SSMLNode.value, SSMLNode.children, List.nil_append] at hchild
        rw [← htoks1] at hchild
        rw [List.append_assoc, List.append_assoc] at hchild ⊢
        rw [addNode_opening (fuel + 1) _ _ _ _ opening p _ (getElem?_append_cons pre _ opening)
          hnc hopen hm hchild]
        -- back in the parent: the first token of the element is not a closing tag
        have htoks2 : pre ++ opening :: (itemsTokens its ++ ([cl] ++ (itemsTokens rest ++
            closing :: post))) =
            (pre ++ [opening]) ++ t :: (tl ++ ([cl] ++ (itemsTokens rest ++
              closing :: post))) := by simp [hhead]
        have hget : (pre ++ opening :: (itemsTokens its ++ ([cl] ++ (itemsTokens rest ++
            closing :: post))))[pre.length + 1]? = some t := by
          rw [htoks2]
          have := getElem?_append_cons (pre ++ [opening]) (tl ++ ([cl] ++ (itemsTokens rest ++
              closing :: post))) t
          simpa using this
        have hpos : 0 < (itemsTokens its).length := by rw [hhead]; simp
        rw [addNode_parsed fuel _ _ _ t _ hget htclose (by omega)]
        -- the rest of the items, after the closing tag of the element
        have htoks3 : pre ++ opening :: (itemsTokens its ++ ([cl] ++ (itemsTokens rest ++
            closing :: post))) =
            (pre ++ opening :: (itemsTokens its ++ [cl])) ++ (itemsTokens rest ++
              closing :: post) := by simp
        have hidx : pre.length + 1 + (itemsTokens its).length + 1 =
            (pre ++ opening :: (itemsTokens its ++ [cl])).length := by
          simp only [List.length_append, List.length_cons, List.length_nil]
          omega
        rw [htoks3, hidx]
        rw [ih rest (by omega) hrest (pre ++ opening :: (itemsTokens its ++ [cl])) post closing
          _ (pre.length + 1 + (itemsTokens its).length) fuel hclose
          (by simp only [List.length_append, List.length_cons, List.length_nil]; omega) (by
            simp only [List.length_append, List.length_cons, List.length_nil] at hfuel ⊢
            omega)]
        cases p
        simp only [SSMLNode.appendChild, SSMLNode.attributes, SSMLNode.value,
          SSMLNode.children, Item.mirror, List.append_assoc, List.singleton_append,
          List.length_append, List.length_cons, List.length_nil]
        exact ok_pair_congr (by omega)

/-- Claim C2: for a token sequence made of a first token, a run of well-formed items
(leaf tokens that are neither opening nor closing tags, and nested elements with an
opening tag, at least one item and a closing tag) and a closing tag, the recursive builder,
called as `ParseTree` calls it, returns the tree that mirrors the nesting: the node of
each element has the extracted value and the attributes of its opening token and one child
per item in document order, each leaf is a childless node, no closing tag is a node. -/
theorem buildTree_mirrors_nesting (opening closing : Token) (items : List Item)
    (hclose : closing.isClosingTag = true) (hwf : itemsWellFormed items = true) :
    buildTree (Item.elem opening items closing).tokens =
      .ok (some (Item.elem opening items closing).mirror) := by
  have h := addNode_items (itemsTokens items).length items (Nat.le_refl _) hwf [opening] []
    closing (.mk (attributesOf opening) opening.extractValue []) 0
    (itemsTokens items).length.succ.succ hclose (by simp)
    (by simp only [List.length_append, List.length_cons, List.length_nil]; omega)
  simp only [List.length_cons, List.length_nil, List.singleton_append, SSMLNode.attributes,
    SSMLNode.value, SSMLNode.children, List.nil_append, Nat.zero_add] at h
  unfold buildTree
  simp only [Item.tokens, List.length_cons, List.length_append, List.length_nil,
    Nat.zero_add]
  rw [addNode_root _ 0 0 _ opening (by simp)]
  simp only [Nat.max_self, Nat.zero_add]
  rw [h]
  simp only [Item.mirror]

/-- The claim C2 at `<speak><p><s>Sentence <emphasis>x</emphasis></s></p></speak>`: the
tree is speak -> p -> s -> [text, emphasis -> [text]]. -/
theorem buildTree_mirrors_nesting_witness :
    buildTree [tok "<speak>", tok "<p>", tok "<s>", tok "Sentence ", tok "<emphasis>", tok "x",
        tok "</emphasis>", tok "</s>", tok "</p>", tok "</speak>"] =
      .ok (some (.mk [] "speak".toList [.mk [] "p".toList [.mk [] "s".toList
        [.mk [] "Sentence ".toList [],
         .mk [] "emphasis".toList [.mk [] "x".toList []]]]])) :=
  buildTree_mirrors_nesting (tok "<speak>") (tok "</speak>")
    [.elem (tok "<p>")
      [.elem (tok "<s>")
        [.leaf (tok "Sentence "), .elem (tok "<emphasis>") [.leaf (tok "x")] (tok "</emphasis>")]
        (tok "</s>")]
      (tok "</p>")]
    (by decide) (by decide)

/-! ## Nodes and the tokens they are built from -/

theorem addNode_end (fuel index maxParsed : Nat) (tokens : List Token)
    (parent : Option SSMLNode) (h : tokens.length ≤ index) :
    addNode (fuel + 1) parent index tokens maxParsed = .ok (parent, maxParsed) := by
  unfold addNode
  rw [if_pos h]

theorem addNode_opening_eq (fuel index maxParsed : Nat) (tokens : List Token) (t : Token)
    (p : SSMLNode) (ht : tokens[index]? = some t) (hclose : t.isClosingTag = false)
    (hopen : t.isOpeningTag = true) (hmark : maxParsed ≤ index) :
    addNode (fuel + 1) (some p) index tokens maxParsed =
      match addNode fuel (some (.mk (attributesOf t) t.extractValue [])) (index + 1) tokens
          index with
      | .error e => .error e
      | .ok (none, _) => .error Fault.nilChild
      | .ok (some child, mp) => addNode fuel (some (p.appendChild child)) (index + 1) tokens mp := by
  have hlt : index < tokens.length := (List.getElem?_eq_some.1 ht).1
  have hmax : max maxParsed index = index := by omega
  conv_lhs => unfold addNode
  rw [if_neg (by omega)]
  simp only [ht, hclose, hopen, hmax, getNodeFromToken_eq]
  simp

theorem value_mk (a : List SSMLAttribute) (v : List Char) (c : List SSMLNode) :
    (SSMLNode.mk a v c).value = v := rfl

theorem attributes_mk (a : List SSMLAttribute) (v : List Char) (c : List SSMLNode) :
    (SSMLNode.mk a v c).attributes = a := rfl

theorem children_mk (a : List SSMLAttribute) (v : List Char) (c : List SSMLNode) :
    (SSMLNode.mk a v c).children = c := rfl

theorem nodesAll_append (xs ys : List SSMLNode) :
    nodesAll (xs ++ ys) = nodesAll xs ++ nodesAll ys := by
  induction xs with
  | nil => simp [nodesAll]
  | cons x xs ih => simp [nodesAll, ih]

/-- The children loop only appends nodes of non-closing tokens, and gives children only
to nodes of opening tags. -/
theorem addNode_builtFromTokens (tokens : List Token) :
    ∀ (fuel : Nat) (p r : SSMLNode) (index m mp : Nat),
      addNode fuel (some p) index tokens m = .ok (some r, mp) →
      (∀ n ∈ nodesAll p.children, builtFromTokens tokens n) →
      r.value = p.value ∧ r.attributes = p.attributes ∧
        ∀ n ∈ nodesAll r.children, builtFromTokens tokens n := by
  intro fuel
  induction fuel with
  | zero =>
    intro p r index m mp h
    simp [addNode] at h
  | succ fuel ih =>
    intro p r index m mp h hp
    by_cases hidx : tokens.length ≤ index
    · rw [addNode_end fuel index m tokens _ hidx] at h
      simp only [Except.ok.injEq, Prod.mk.injEq, Option.some.injEq] at h
      obtain ⟨rfl, -⟩ := h
      exact ⟨rfl, rfl, hp⟩
    · have hlt : index < tokens.length := by omega
      have ht : tokens[index]? = some tokens[index] := List.getElem?_eq_getElem hlt
      have hmem : tokens[index] ∈ tokens := List.getElem_mem hlt
      cases hclose : tokens[index].isClosingTag with
      | true =>
        rw [addNode_closing fuel index m tokens _ p ht hclose] at h
        simp only [Except.ok.injEq, Prod.mk.injEq, Option.some.injEq] at h
        obtain ⟨rfl, -⟩ := h
        exact ⟨rfl, rfl, hp⟩
      | false =>
        by_cases hmark : index < m
        · rw [addNode_parsed fuel index m tokens _ p ht hclose hmark] at h
          exact ih p r _ _ _ h hp
        · have hmark : m ≤ index := by omega
          cases hopen : tokens[index].isOpeningTag with
          | false =>
            rw [addNode_leaf fuel index m tokens _ p ht hclose hopen hmark] at h
            obtain ⟨hv, ha, hc⟩ := ih _ r _ _ _ h (by
              intro n hn
              cases p
              simp only [SSMLNode.appendChild, SSMLNode.children, nodesAll_append, nodesAll,
                SSMLNode.descendants, List.append_nil, List.mem_append, List.mem_singleton]
                at hn hp
              rcases hn with hn | rfl
              · exact hp n hn
              · exact ⟨tokens[index], hmem, hclose, value_mk _ _ _, attributes_mk _ _ _,
                  fun _ => children_mk _ _ _⟩)
            cases p
            exact ⟨hv, ha, hc⟩
          | true =>
            rw [addNode_opening_eq fuel index m tokens _ p ht hclose hopen hmark] at h
            cases hchild : addNode fuel (some (.mk (attributesOf tokens[index])
                tokens[index].extractValue [])) (index + 1) tokens index with
            | error e => simp [hchild] at h
            | ok res =>
              obtain ⟨node, mp1⟩ := res
              cases node with
              | none => simp [hchild] at h
              | some child =>
                simp only [hchild] at h
                obtain ⟨hcv, hca, hcc⟩ := ih _ child _ _ _ hchild (by
                  intro n hn
                  simp [SSMLNode.children, nodesAll] at hn)
                obtain ⟨hv, ha, hc⟩ := ih _ r _ _ _ h (by
                  intro n hn
                  cases p
                  cases child
                  simp only [SSMLNode.appendChild, SSMLNode.children, nodesAll_append,
                    nodesAll, SSMLNode.descendants, List.append_nil, List.mem_append,
                    List.mem_cons] at hn hp hcc
                  simp only [value_mk, attributes_mk] at hcv hca
                  rcases hn with hn | rfl | hn
                  · exact hp n hn
                  · exact ⟨tokens[index], hmem, hclose, (value_mk _ _ _).trans hcv,
                      (attributes_mk _ _ _).trans hca,
                      fun hf => absurd (hopen.symm.trans hf) (by decide)⟩
                  · exact hcc n hn)
                cases p
                exact ⟨hv, ha, hc⟩

/-! ## Inputs without an attribute match -/

theorem mem_replaceAllAux_nil (old : List Char) :
    ∀ (fuel : Nat) (s : List Char) (c : Char), c ∈ replaceAllAux old [] fuel s → c ∈ s := by
  intro fuel
  induction fuel with
  | zero => intro s c h; simp [replaceAllAux] at h
  | succ fuel ih =>
    intro s c h
    cases s with
    | nil => simp [replaceAllAux] at h
    | cons d ds =>
      unfold replaceAllAux at h
      split at h
      · simp only [List.nil_append] at h
        exact List.mem_of_mem_drop (ih _ _ h)
      · rcases List.mem_cons.1 h with rfl | h
        · exact List.mem_cons_self _ _
        · exact List.mem_cons_of_mem _ (ih _ _ h)

theorem mem_replaceAll_nil (s old : List Char) (c : Char) (hold : old ≠ [])
    (h : c ∈ ReplaceAll s old []) : c ∈ s := by
  unfold ReplaceAll at h
  rw [if_neg hold] at h
  exact mem_replaceAllAux_nil old _ _ _ h

theorem mem_trimSpace (s : List Char) (c : Char) (h : c ∈ TrimSpace s) : c ∈ s := by
  unfold TrimSpace at h
  rw [List.mem_reverse] at h
  have h1 := (List.dropWhile_suffix isSpace).subset h
  rw [List.mem_reverse] at h1
  exact (List.dropWhile_suffix isSpace).subset h1

theorem mem_attributesNormalize (s : List Char) (c : Char) (h : c ∈ attributesNormalize s) :
    c ∈ s := by
  unfold attributesNormalize at h
  have h1 := mem_trimSpace _ _ h
  have h2 := mem_replaceAll_nil _ _ _ (List.cons_ne_nil _ _) h1
  have h3 := mem_replaceAll_nil _ _ _ (List.cons_ne_nil _ _) h2
  exact mem_replaceAll_nil _ _ _ (List.cons_ne_nil _ _) h3

theorem tokenizeAttributes_of_no_eq (s : List Char) (h : '=' ∉ s) :
    tokenizeAttributes s = [] := by
  obtain ⟨gs, last, hfind, hflat, hscan⟩ :=
    findAllString_isScan matchAttribute matchAttribute_bounds (attributesNormalize s)
  unfold tokenizeAttributes
  rw [hfind]
  cases gs with
  | nil => rfl
  | cons g gs =>
    exfalso
    obtain ⟨gap, tok⟩ := g
    obtain ⟨-, htok, -, -⟩ := hscan
    obtain ⟨name, sp1, sp2, val, hshape, -⟩ := match_text_of_matchAttribute _ _ htok
    apply h
    apply mem_attributesNormalize
    rw [← hflat, hshape]
    simp [segmentsFlat]

theorem attributesOf_of_no_eq (t : Token) (h : '=' ∉ t.value) : attributesOf t = [] := by
  unfold attributesOf ParseAttributes
  rw [tokenizeAttributes_of_no_eq _ h]
  rfl

/-! ## Claim C6 -/

/-- Claim C6, as stated, fails.  In `<s>a="b"</s>` the node of the text run `a="b"` has the
attribute list [(a, b)]; in `x<c>d</c>` the node of the text run `x` is the root and has
the child `c`. -/
theorem text_node_with_attributes_or_children :
    tokenize "<s>a=\"b\"</s>".toList = [tok "<s>", tok "a=\"b\"", tok "</s>"] ∧
    (tok "a=\"b\"").isTag = false ∧
    ParseTree "<s>a=\"b\"</s>".toList =
      .ok (some (.mk [] ['s'] [.mk [⟨['a'], ['b']⟩] "a=\"b\"".toList []])) ∧
    tokenize "x<c>d</c>".toList = [tok "x", tok "<c>", tok "d", tok "</c>"] ∧
    (tok "x").isTag = false ∧
    ParseTree "x<c>d</c>".toList =
      .ok (some (.mk [] ['x'] [.mk [] ['c'] [.mk [] ['d'] []]])) :=
  ⟨by decide, by decide, by rfl, by decide, by decide, by rfl⟩

/-- Claim C4: for every token sequence the recursive builder terminates without a fault.
`ParseTree` and its call of `addNode` return a result; from any parent, index and mark,
`addNode` returns a result with fuel for one call per remaining index, every recursive
call it makes is made from an index inside the slice to a strictly larger index, and at an
index at or beyond the end of the slice the call returns the parent it was given. -/
theorem addNode_terminates (tokens : List Token) (parent : Option SSMLNode)
    (index maxParsed extra : Nat) :
    (∀ input, ∃ root, ParseTree input = .ok root) ∧
    (∃ root, buildTree tokens = .ok root) ∧
    (∃ node mp calls,
      addNodeCalls (tokens.length - index + 1 + extra) parent index tokens maxParsed =
        .ok (node, mp, calls) ∧
      addNode (tokens.length - index + 1 + extra) parent index tokens maxParsed =
        .ok (node, mp) ∧
      ∀ call ∈ calls, call.1 < call.2 ∧ call.1 < tokens.length) ∧
    addNode (extra + 1) parent (tokens.length + index) tokens maxParsed =
      .ok (parent, maxParsed) := by
  have hbuild : ∀ toks : List Token, ∃ root, buildTree toks = .ok root := by
    intro toks
    obtain ⟨node, mp, calls, hcalls, -, -⟩ :=
      addNodeCalls_spec toks (toks.length + 1) none 0 0 (by omega) (by omega)
    have h := addNodeCalls_result toks (toks.length + 1) none 0 0
    rw [hcalls] at h
    refine ⟨node, ?_⟩
    unfold buildTree
    rw [← h]
    rfl
  refine ⟨fun input => hbuild (tokenize input), hbuild tokens, ?_, ?_⟩
  · obtain ⟨node, mp, calls, hcalls, -, hlt⟩ :=
      addNodeCalls_spec tokens (tokens.length - index + 1 + extra) parent index maxParsed
        (by omega) (by omega)
    have h := addNodeCalls_result tokens (tokens.length - index + 1 + extra) parent index
      maxParsed
    rw [hcalls] at h
    exact ⟨node, mp, calls, hcalls, h.symm, hlt⟩
  · unfold addNode
    rw [if_pos (by omega)]

/-- Claim C1 fails on the code: for `<a><b></b>x</a>` the recursive builder returns the
root `a` with the single child `b`, the loop form returns `a` with the children `b` and
`x`. -/
theorem builders_differ_on_empty_element :
    tokenize "<a><b></b>x</a>".toList = [tok "<a>", tok "<b>", tok "</b>", tok "x", tok "</a>"] ∧
    buildTree [tok "<a>", tok "<b>", tok "</b>", tok "x", tok "</a>"] =
      .ok (some (.mk [] ['a'] [.mk [] ['b'] []])) ∧
    constructSSMLTree [tok "<a>", tok "<b>", tok "</b>", tok "x", tok "</a>"] =
      .ok (some (.mk [] ['a'] [.mk [] ['b'] [], .mk [] ['x'] []])) :=
  ⟨by decide, by rfl, by rfl⟩

/-- Claim C3 fails on the code: for the three tokens of `<a><b>x` the recursive builder
returns a tree of four nodes, in which the token `x` is a child of `b` and again a child
of `a`. -/
theorem addNode_duplicates_last_token :
    tokenize "<a><b>x".toList = [tok "<a>", tok "<b>", tok "x"] ∧
    buildTree [tok "<a>", tok "<b>", tok "x"] =
      .ok (some (.mk [] ['a'] [.mk [] ['b'] [.mk [] ['x'] []], .mk [] ['x'] []])) ∧
    (SSMLNode.mk [] ['a'] [.mk [] ['b'] [.mk [] ['x'] []], .mk [] ['x'] []]).size = 4 ∧
    [tok "<a>", tok "<b>", tok "x"].length = 3 :=
  ⟨by decide, by rfl, by rfl, by rfl⟩

/-! ## Claim C7: the tokens cover the normalized input -/

theorem matchToken_none_char (c : Char) (cs : List Char) (h : matchToken (c :: cs) = none) :
    c = '<' ∨ c = '>' ∨ isReSpace c = true := by
  unfold matchToken at h
  split at h
  · simp at h
  · unfold matchText at h
    by_cases hb : isBlank c = true
    · right; right
      rw [blank_eq_space c hb]
      decide
    · simp only [List.dropWhile_cons, hb, List.takeWhile_cons, Bool.false_eq_true, if_false,
        List.length_nil] at h
      split at h
      · simp at h
      · rename_i ht
        simp only [isTextStart, isNotAngle, Bool.and_eq_true, Bool.not_eq_true', bne_iff_ne,
          ne_eq, not_and, Bool.not_eq_false] at ht
        by_cases h1 : c = '<'
        · exact Or.inl h1
        · by_cases h2 : c = '>'
          · exact Or.inr (Or.inl h2)
          · exact Or.inr (Or.inr (ht ⟨h1, h2⟩))

theorem isScan_gap_chars (m : List Char → Option Nat) :
    ∀ (gs : List (List Char × List Char)) (last : List Char), IsScan m gs last →
      (∀ g ∈ gs, ∀ c ∈ g.1, ∃ cs, m (c :: cs) = none) ∧ ∀ c ∈ last, ∃ cs, m (c :: cs) = none := by
  intro gs
  induction gs with
  | nil =>
    intro last h
    refine ⟨by simp, ?_⟩
    intro c hc
    obtain ⟨g1, g2, hsplit⟩ := List.append_of_mem hc
    exact ⟨g2, h g1 c g2 hsplit⟩
  | cons g gs ih =>
    intro last h
    obtain ⟨gap, tok⟩ := g
    obtain ⟨hgap, -, -, hrest⟩ := h
    obtain ⟨h1, h2⟩ := ih last hrest
    refine ⟨?_, h2⟩
    intro g hg c hc
    rcases List.mem_cons.1 hg with rfl | hg
    · obtain ⟨g1, g2, hsplit⟩ := List.append_of_mem hc
      exact ⟨_, hgap g1 c g2 hsplit⟩
    · exact h1 g hg c hc

theorem mem_segmentsFlat (c : Char) :
    ∀ gs : List (List Char × List Char), c ∈ segmentsFlat gs →
      ∃ g ∈ gs, c ∈ g.1 ∨ c ∈ g.2 := by
  intro gs
  induction gs with
  | nil => intro h; simp [segmentsFlat] at h
  | cons g gs ih =>
    intro h
    obtain ⟨gap, tok⟩ := g
    simp only [segmentsFlat, List.mem_append] at h
    rcases h with h | h | h
    · exact ⟨(gap, tok), List.mem_cons_self _ _, Or.inl h⟩
    · exact ⟨(gap, tok), List.mem_cons_self _ _, Or.inr h⟩
    · obtain ⟨g, hg, hc⟩ := ih h
      exact ⟨g, List.mem_cons_of_mem _ hg, hc⟩

/-- Claim C7, as stated, fails: for the input `a>b` the tokens are `a` and `b`, and the
character `>` of the normalized input, which is not whitespace, lies in no token. -/
theorem tokens_drop_angle_bracket :
    tokenizeNormalize "a>b".toList = "a>b".toList ∧
    (tokenize "a>b".toList).map Token.value = ["a".toList, "b".toList] ∧
    ¬ ∃ (gs : List (List Char × List Char)) (last : List Char),
      segmentsFlat gs ++ last = tokenizeNormalize "a>b".toList ∧
      gs.map Prod.snd = (tokenize "a>b".toList).map Token.value ∧
      (∀ g ∈ gs, ∀ c ∈ g.1, isSpace c = true) ∧ ∀ c ∈ last, isSpace c = true := by
  have hnorm : tokenizeNormalize "a>b".toList = "a>b".toList := by decide
  have htoks : (tokenize "a>b".toList).map Token.value = ["a".toList, "b".toList] := by decide
  refine ⟨hnorm, htoks, ?_⟩
  rintro ⟨gs, last, hflat, hmap, hgaps, hlast⟩
  rw [hnorm] at hflat
  rw [htoks] at hmap
  have hmem : '>' ∈ segmentsFlat gs ++ last := by
    rw [hflat]
    decide
  rcases List.mem_append.1 hmem with h | h
  · obtain ⟨g, hg, hc | hc⟩ := mem_segmentsFlat _ gs h
    · exact absurd (hgaps g hg _ hc) (by decide)
    · have : g.2 ∈ gs.map Prod.snd := List.mem_map_of_mem _ hg
      rw [hmap] at this
      simp only [List.mem_cons, List.mem_singleton, List.not_mem_nil, or_false] at this
      rcases this with h2 | h2
      · rw [h2] at hc
        exact absurd hc (by decide)
      · rw [h2] at hc
        exact absurd hc (by decide)
  · exact absurd (hlast _ h) (by decide)

/-- Claim C7, amended: for every input string the tokens returned by `tokenize` are
consecutive, non-overlapping substrings of the normalized input in left-to-right order,
and every character of the normalized input that lies in no token is a whitespace
character (of the class `\s`) or one of the angle brackets `<` and `>`. -/
theorem tokens_cover_normalized_input (input : List Char) :
    ∃ (gs : List (List Char × List Char)) (last : List Char),
      segmentsFlat gs ++ last = tokenizeNormalize input ∧
      gs.map Prod.snd = (tokenize input).map Token.value ∧
      (∀ g ∈ gs, ∀ c ∈ g.1, c = '<' ∨ c = '>' ∨ isReSpace c = true) ∧
      ∀ c ∈ last, c = '<' ∨ c = '>' ∨ isReSpace c = true := by
  obtain ⟨gs, last, hfind, hflat, hscan⟩ :=
    findAllString_isScan matchToken matchToken_bounds (tokenizeNormalize input)
  obtain ⟨hgaps, hlast⟩ := isScan_gap_chars matchToken gs last hscan
  refine ⟨gs, last, hflat, ?_, ?_, ?_⟩
  · unfold tokenize
    rw [hfind]
    simp [Function.comp_def]
  · intro g hg c hc
    obtain ⟨cs, hnone⟩ := hgaps g hg c hc
    exact matchToken_none_char c cs hnone
  · intro c hc
    obtain ⟨cs, hnone⟩ := hlast c hc
    exact matchToken_none_char c cs hnone

/-! ## Claim C8: the shape of a text run -/

theorem head_dropWhile_false (p : Char → Bool) (l : List Char) (x : Char)
    (h : (l.dropWhile p).head? = some x) : p x = false := by
  induction l with
  | nil => simp at h
  | cons c cs ih =>
    by_cases hc : p c = true
    · simp only [List.dropWhile_cons, hc, if_true] at h
      exact ih h
    · simp only [List.dropWhile_cons, hc, Bool.false_eq_true, if_false, List.head?_cons,
        Option.some.injEq] at h
      subst h
      simpa using hc

theorem matchText_shape (s : List Char) (n : Nat) (h : matchText s = some n) :
    ∃ sp c body rest, s = sp ++ c :: (body ++ rest) ∧ n = (sp ++ c :: body).length ∧
      (∀ x ∈ sp, isBlank x = true) ∧ isTextStart c = true ∧
      (∀ x ∈ body, isNotAngle x = true) ∧ ∀ x, rest.head? = some x → isNotAngle x = false := by
  unfold matchText at h
  split at h
  · simp at h
  · rename_i c rest hd
    split at h
    · rename_i hstart
      simp only [Option.some.injEq] at h
      refine ⟨s.takeWhile isBlank, c, rest.takeWhile isNotAngle, rest.dropWhile isNotAngle,
        ?_, ?_, ?_, hstart, ?_, ?_⟩
      · rw [List.takeWhile_append_dropWhile, ← hd, List.takeWhile_append_dropWhile]
      · rw [← h]
        simp only [List.length_append, List.length_cons]
        omega
      · intro x hx
        exact List.mem_takeWhile_imp hx
      · intro x hx
        exact List.mem_takeWhile_imp hx
      · intro x hx
        exact head_dropWhile_false _ _ _ hx
    · simp at h

theorem matchTag_shape (s : List Char) (n : Nat) (h : matchTag s = some n) :
    ∃ body rest, s = '<' :: (body ++ '>' :: rest) ∧ n = ('<' :: (body ++ ['>'])).length ∧
      ∀ x ∈ body, isTagChar x = true := by
  unfold matchTag at h
  split at h
  · simp at h
  · rename_i c rest
    split at h
    · rename_i hc
      subst hc
      split at h
      · simp at h
      · rename_i d tl hd
        split at h
        · rename_i hdd
          subst hdd
          simp only [Option.some.injEq] at h
          refine ⟨rest.takeWhile isTagChar, tl, ?_, ?_, ?_⟩
          · rw [← hd, List.takeWhile_append_dropWhile]
          · rw [← h]
            simp
          · intro x hx
            exact List.mem_takeWhile_imp hx
        · simp at h
    · simp at h

/-- The text of a match of the tag alternative is a tag token. -/
theorem isTag_of_tag_text (body : List Char) :
    (Token.mk ('<' :: (body ++ ['>']))).isTag = true := by
  have hp : HasPrefix ('<' :: (body ++ ['>'])) [SpecialCharLessThan] = true := by
    simp [HasPrefix, SpecialCharLessThan, List.isPrefixOf]
  have hs : HasSuffix ('<' :: (body ++ ['>'])) [SpecialCharGreaterThan] = true := by
    simp [HasSuffix, SpecialCharGreaterThan, List.isPrefixOf]
  unfold Token.isTag Token.isOpeningTag Token.isClosingTag Token.isSelfClosingTag
  simp only [hp, hs]
  generalize HasPrefix ('<' :: (body ++ ['>'])) SpecialStrClosingTag = a
  generalize HasSuffix ('<' :: (body ++ ['>'])) SpecialStrSelfClosingTag = b
  cases a <;> cases b <;> rfl

/-- A token of the scan that is not a tag was matched by the text alternative. -/
theorem matchText_of_not_tag (t rest : List Char)
    (h : matchToken (t ++ rest) = some t.length) (hnot : (Token.mk t).isTag = false) :
    matchText (t ++ rest) = some t.length := by
  unfold matchToken at h
  split at h
  · rename_i n hn
    simp only [Option.some.injEq] at h
    subst h
    obtain ⟨body, rest1, hs, hlen, -⟩ := matchTag_shape _ _ hn
    have hs2 : t ++ rest = ('<' :: (body ++ ['>'])) ++ rest1 := by
      rw [hs]
      simp
    have ht := (List.append_inj hs2 hlen).1
    rw [ht, isTag_of_tag_text] at hnot
    exact absurd hnot (by decide)
  · exact h

theorem matchTag_space (s : List Char) : matchTag (' ' :: s) = none := by
  simp [matchTag]

theorem matchText_space (s : List Char) (n : Nat) (h : matchText s = some n) :
    matchText (' ' :: s) = some (n + 1) := by
  unfold matchText at h ⊢
  have hb : isBlank ' ' = true := by decide
  simp only [List.dropWhile_cons, hb, if_true, List.takeWhile_cons, List.length_cons]
  split at h
  · simp at h
  · rename_i c rest hd
    split at h
    · rename_i hstart
      rw [if_pos hstart]
      simp only [Option.some.injEq] at h ⊢
      omega
    · simp at h

theorem isScan_at (m : List Char → Option Nat) :
    ∀ (gs1 gs2 : List (List Char × List Char)) (gap t last : List Char),
      IsScan m (gs1 ++ (gap, t) :: gs2) last →
      (∀ g1 c g2, gap = g1 ++ c :: g2 →
        m (c :: (g2 ++ (t ++ (segmentsFlat gs2 ++ last)))) = none) ∧
      m (t ++ (segmentsFlat gs2 ++ last)) = some t.length ∧ t ≠ [] := by
  intro gs1
  induction gs1 with
  | nil =>
    intro gs2 gap t last h
    exact ⟨h.1, h.2.1, h.2.2.1⟩
  | cons g gs1 ih =>
    intro gs2 gap t last h
    obtain ⟨gap0, t0⟩ := g
    exact ih gs2 gap t last h.2.2.2

theorem segmentsFlat_append (gs1 gs2 : List (List Char × List Char)) :
    segmentsFlat (gs1 ++ gs2) = segmentsFlat gs1 ++ segmentsFlat gs2 := by
  induction gs1 with
  | nil => rfl
  | cons g gs1 ih =>
    obtain ⟨gap, t⟩ := g
    simp [segmentsFlat, ih]

theorem notAngle_false (x : Char) (h : isNotAngle x = false) : x = '<' ∨ x = '>' := by
  by_cases h1 : x = '<'
  · exact Or.inl h1
  · by_cases h2 : x = '>'
    · exact Or.inr h2
    · simp [isNotAngle, h1, h2] at h

theorem notAngle_ne (x : Char) (h : isNotAngle x = true) : x ≠ '<' ∧ x ≠ '>' := by
  simpa [isNotAngle] using h

theorem text_token_facts (t rest : List Char) (h : matchText (t ++ rest) = some t.length) :
    (∃ sp c body, t = sp ++ c :: body ∧ (∀ x ∈ sp, x = ' ') ∧ isTextStart c = true ∧
      ∀ x ∈ body, isNotAngle x = true) ∧
    ∀ x, rest.head? = some x → x = '<' ∨ x = '>' := by
  obtain ⟨sp, c, body, rest1, hs, hlen, hsp, hc, hbody, hrest⟩ := matchText_shape _ _ h
  have hs2 : t ++ rest = (sp ++ c :: body) ++ rest1 := by
    rw [hs]
    simp
  obtain ⟨ht, hr⟩ := List.append_inj hs2 hlen
  refine ⟨⟨sp, c, body, ht, fun x hx => blank_eq_space x (hsp x hx), hc, hbody⟩, ?_⟩
  intro x hx
  rw [hr] at hx
  exact notAngle_false x (hrest x hx)

theorem last_eq_of_concat_eq (xs ys : List Char) (a b : Char) (h : xs ++ [a] = ys ++ [b]) :
    a = b := by
  have := (List.append_inj' h rfl).2
  simpa using this

/-- A text run of the scan is not preceded by a space. -/
theorem text_token_not_after_space (gs1 gs2 : List (List Char × List Char))
    (gap t last : List Char) (hscan : IsScan matchToken (gs1 ++ (gap, t) :: gs2) last)
    (hnot : (Token.mk t).isTag = false) :
    (segmentsFlat gs1 ++ gap).getLast? ≠ some ' ' := by
  obtain ⟨hgap, htok, -⟩ := isScan_at matchToken gs1 gs2 gap t last hscan
  have htext := matchText_of_not_tag _ _ htok hnot
  intro hlast
  obtain ⟨ys, hys⟩ := List.getLast?_eq_some_iff.1 hlast
  rcases List.eq_nil_or_concat gap with rfl | ⟨g1, c, rfl⟩
  · rcases List.eq_nil_or_concat gs1 with rfl | ⟨gs0, g, rfl⟩
    · simp [segmentsFlat] at hys
    · obtain ⟨gap0, t0⟩ := g
      rw [List.concat_eq_append, List.append_assoc] at hscan
      obtain ⟨-, htok0, hne0⟩ :=
        isScan_at matchToken gs0 (([], t) :: gs2) gap0 t0 last hscan
      simp only [segmentsFlat, List.nil_append, List.append_assoc] at htok0
      unfold matchToken at htok0
      split at htok0
      · rename_i n hn
        simp only [Option.some.injEq] at htok0
        subst htok0
        obtain ⟨body, rest1, hs, hlen, -⟩ := matchTag_shape _ _ hn
        have hs2 : t0 ++ (t ++ (segmentsFlat gs2 ++ last)) =
            ('<' :: (body ++ ['>'])) ++ rest1 := by
          rw [hs]
          simp
        have ht0 := (List.append_inj hs2 hlen).1
        rw [List.concat_eq_append, segmentsFlat_append, ht0] at hys
        simp only [segmentsFlat, List.append_nil] at hys
        have hys2 : (segmentsFlat gs0 ++ (gap0 ++ '<' :: body)) ++ ['>'] = ys ++ [' '] := by
          rw [← hys]
          simp
        exact absurd (last_eq_of_concat_eq _ _ _ _ hys2) (by decide)
      · obtain ⟨-, hnext⟩ := text_token_facts _ _ htok0
        obtain ⟨⟨sp, c, body, ht, hsp, hc, -⟩, -⟩ := text_token_facts _ _ htext
        have hcna : isNotAngle c = true := by
          simp only [isTextStart, Bool.and_eq_true] at hc
          exact hc.1
        cases sp with
        | nil =>
          rw [ht] at hnext
          rcases hnext c (by simp) with h1 | h1 <;> rw [h1] at hcna <;>
            exact absurd hcna (by decide)
        | cons x sp =>
          rw [ht] at hnext
          have hx := hsp x (List.mem_cons_self _ _)
          rcases hnext x (by simp) with h1 | h1 <;> rw [h1] at hx <;>
            exact absurd hx (by decide)
  · rw [List.concat_eq_append, ← List.append_assoc] at hys
    have hc := last_eq_of_concat_eq _ _ _ _ hys
    subst hc
    have hnone := hgap g1 ' ' [] (by simp)
    simp only [List.nil_append] at hnone
    unfold matchToken at hnone
    rw [matchTag_space, matchText_space _ _ htext] at hnone
    simp at hnone

/-- Claim C8, as stated, fails: for `<a>b </a>` the text run `b ` is a token, and it ends
with a space. -/
theorem text_token_ends_with_space :
    tokenize "<a>b </a>".toList = [tok "<a>", tok "b ", tok "</a>"] ∧
    (tok "b ").isTag = false ∧ (tok "b ").value.getLast? = some ' ' ∧ isSpace ' ' = true := by
  decide

/-- Claim C8, amended: in the scan of the normalized input, every text-run token is made
of a run of space characters, a character that is neither an angle bracket nor in the
pattern class `\s` (tab, line feed, form feed, carriage return, space), and characters
other than angle brackets; it is not preceded by a space (the spaces before its first
character outside `\s` are kept), and it is followed by `<`, by `>` or by the end of the
input (it extends to the next angle bracket, whitespace before it included). -/
theorem text_runs_keep_spaces (input : List Char) :
    ∃ (gs : List (List Char × List Char)) (last : List Char),
      segmentsFlat gs ++ last = tokenizeNormalize input ∧
      gs.map Prod.snd = (tokenize input).map Token.value ∧
      ∀ gs1 gap t gs2, gs = gs1 ++ (gap, t) :: gs2 → (Token.mk t).isTag = false →
        (segmentsFlat gs1 ++ gap).getLast? ≠ some ' ' ∧
        (∃ sp c body, t = sp ++ c :: body ∧ (∀ x ∈ sp, x = ' ') ∧
          c ≠ '<' ∧ c ≠ '>' ∧ isReSpace c = false ∧ ∀ x ∈ body, x ≠ '<' ∧ x ≠ '>') ∧
        ∀ x, (segmentsFlat gs2 ++ last).head? = some x → x = '<' ∨ x = '>' := by
  obtain ⟨gs, last, hfind, hflat, hscan⟩ :=
    findAllString_isScan matchToken matchToken_bounds (tokenizeNormalize input)
  refine ⟨gs, last, hflat, ?_, ?_⟩
  · unfold tokenize
    rw [hfind]
    simp [Function.comp_def]
  · intro gs1 gap t gs2 hgs hnot
    subst hgs
    obtain ⟨-, htok, -⟩ := isScan_at matchToken gs1 gs2 gap t last hscan
    have htext := matchText_of_not_tag _ _ htok hnot
    obtain ⟨⟨sp, c, body, ht, hsp, hc, hbody⟩, hnext⟩ := text_token_facts _ _ htext
    simp only [isTextStart, Bool.and_eq_true, Bool.not_eq_true'] at hc
    exact ⟨text_token_not_after_space gs1 gs2 gap t last hscan hnot,
      ⟨sp, c, body, ht, hsp, (notAngle_ne c hc.1).1, (notAngle_ne c hc.1).2, hc.2,
        fun x hx => notAngle_ne x (hbody x hx)⟩, hnext⟩

/-! ## Claim C9: attributes in the order of the matches -/

theorem isScan_tokens (m : List Char → Option Nat) :
    ∀ (gs : List (List Char × List Char)) (last : List Char), IsScan m gs last →
      ∀ g ∈ gs, ∃ rest, m (g.2 ++ rest) = some g.2.length := by
  intro gs
  induction gs with
  | nil => intro last _ g hg; simp at hg
  | cons g0 gs ih =>
    intro last h g hg
    obtain ⟨gap, t⟩ := g0
    rcases List.mem_cons.1 hg with rfl | hg
    · exact ⟨_, h.2.1⟩
    · exact ih last h.2.2.2 g hg

theorem parseAttributeTokens_forall₂ (gs : List (List Char × List Char)) (last : List Char)
    (h : IsScan matchAttribute gs last) :
    ∃ attrs, parseAttributeTokens ((gs.map Prod.snd).map Token.mk) = .ok attrs ∧
      List.Forall₂ (fun g a => parseAttribute (Token.mk g.2) = .ok a) gs attrs := by
  induction gs with
  | nil => exact ⟨[], rfl, List.Forall₂.nil⟩
  | cons g gs ih =>
    obtain ⟨gap, t⟩ := g
    obtain ⟨-, htok, -, hrest⟩ := h
    obtain ⟨attrs, hattrs, hall⟩ := ih hrest
    obtain ⟨a, ha⟩ := parseAttribute_match t _ htok
    refine ⟨a :: attrs, ?_, List.Forall₂.cons ha hall⟩
    simp only [List.map_cons, parseAttributeTokens, ha, hattrs]

theorem replaceAllAux_of_not_mem (c : Char) (new : List Char) :
    ∀ (fuel : Nat) (s : List Char), s.length ≤ fuel → c ∉ s →
      replaceAllAux [c] new fuel s = s := by
  intro fuel
  induction fuel with
  | zero =>
    intro s hlen _
    have : s = [] := List.eq_nil_of_length_eq_zero (by omega)
    subst this
    rfl
  | succ fuel ih =>
    intro s hlen hc
    cases s with
    | nil => rfl
    | cons d ds =>
      simp only [List.mem_cons, not_or] at hc
      unfold replaceAllAux
      have hpre : List.isPrefixOf [c] (d :: ds) = false := by
        simp [List.isPrefixOf, hc.1]
      rw [hpre]
      simp only [Bool.false_eq_true, if_false]
      rw [ih ds (by simpa using hlen) hc.2]

theorem replaceAll_of_not_mem (s new : List Char) (c : Char) (h : c ∉ s) :
    ReplaceAll s [c] new = s := by
  unfold ReplaceAll
  rw [if_neg (List.cons_ne_nil _ _)]
  exact replaceAllAux_of_not_mem c new _ s (Nat.le_refl _) h

theorem trimSpace_of_tag (s : List Char) (hp : HasPrefix s [SpecialCharLessThan] = true)
    (hs : HasSuffix s [SpecialCharGreaterThan] = true) : TrimSpace s = s := by
  unfold HasSuffix at hs
  unfold HasPrefix at hp
  unfold TrimSpace
  cases s with
  | nil => simp [List.isPrefixOf] at hp
  | cons c cs =>
    have hc : c = '<' := by
      simp only [List.isPrefixOf, SpecialCharLessThan, Bool.and_true, beq_iff_eq] at hp
      exact hp.symm
    subst hc
    have h1 : List.dropWhile isSpace ('<' :: cs) = '<' :: cs := by
      rw [List.dropWhile_cons]
      have : isSpace '<' = false := by decide
      simp [this]
    rw [h1]
    cases hr : ('<' :: cs).reverse with
    | nil => simp at hr
    | cons d ds =>
      rw [hr] at hs
      have hd : d = '>' := by
        simp only [List.reverse_cons, List.reverse_nil, List.nil_append, List.isPrefixOf,
          SpecialCharGreaterThan, Bool.and_true, beq_iff_eq] at hs
        exact hs.symm
      subst hd
      have h2 : List.dropWhile isSpace ('>' :: ds) = '>' :: ds := by
        rw [List.dropWhile_cons]
        have : isSpace '>' = false := by decide
        simp [this]
      rw [h2, ← hr, List.reverse_reverse]

/-- Claim C9: for every text, `ParseAttributes` returns one attribute per match of the
attribute pattern, in the left-to-right order of the matches: the matches are the
segments of a scan of the text the pattern is run on, and the list returned pairs off
with them in order, each attribute being what the loop body makes of its match.  For a
tag (a text from `<` to `>` without tab, line feed or carriage return) the text the
pattern is run on is the tag itself.  The tag `<speak version="1.0" xml:lang="en-US">`
yields [(version, 1.0), (xml:lang, en-US)]. -/
theorem attributes_in_match_order (input : List Char) :
    (∃ (gs : List (List Char × List Char)) (last : List Char) (attrs : List SSMLAttribute),
      segmentsFlat gs ++ last = attributesNormalize input ∧
      IsScan matchAttribute gs last ∧
      (tokenizeAttributes input).map Token.value = gs.map Prod.snd ∧
      ParseAttributes input = .ok attrs ∧
      attrs.length = gs.length ∧
      List.Forall₂ (fun g a => parseAttribute (Token.mk g.2) = .ok a) gs attrs) ∧
    (HasPrefix input [SpecialCharLessThan] = true →
      HasSuffix input [SpecialCharGreaterThan] = true →
      SpecialCharTab ∉ input → SpecialCharNewLine ∉ input →
      SpecialCharCarriageReturn ∉ input → attributesNormalize input = input) ∧
    ParseAttributes "<speak version=\"1.0\" xml:lang=\"en-US\">".toList =
      .ok [⟨"version".toList, "1.0".toList⟩, ⟨"xml:lang".toList, "en-US".toList⟩] := by
  refine ⟨?_, ?_, by rfl⟩
  · obtain ⟨gs, last, hfind, hflat, hscan⟩ :=
      findAllString_isScan matchAttribute matchAttribute_bounds (attributesNormalize input)
    obtain ⟨attrs, hattrs, hall⟩ := parseAttributeTokens_forall₂ gs last hscan
    refine ⟨gs, last, attrs, hflat, hscan, ?_, ?_, hall.length_eq.symm, hall⟩
    · unfold tokenizeAttributes
      rw [hfind]
      simp [Function.comp_def]
    · unfold ParseAttributes tokenizeAttributes
      rw [hfind, hattrs]
  · intro hp hs h1 h2 h3
    unfold attributesNormalize
    simp only
    rw [replaceAll_of_not_mem _ _ _ h1, replaceAll_of_not_mem _ _ _ h2,
      replaceAll_of_not_mem _ _ _ h3]
    exact trimSpace_of_tag input hp hs

theorem count_eq_match (name sp1 sp2 val : List Char)
    (h1 : ∀ c ∈ name, isAttrNameChar c = true) (h2 : ∀ c ∈ sp1, isBlank c = true)
    (h3 : ∀ c ∈ sp2, isBlank c = true) (h4 : ∀ c ∈ val, isAttrValueChar c = true) :
    (name ++ (sp1 ++ '=' :: (sp2 ++ quoteChar :: (val ++ [quoteChar])))).count '=' = 1 := by
  have c1 : name.count '=' = 0 :=
    List.count_eq_zero.2 (fun hm => attrNameChar_ne_eq _ (h1 _ hm) rfl)
  have c2 : sp1.count '=' = 0 :=
    List.count_eq_zero.2 (fun hm => absurd (blank_eq_space _ (h2 _ hm)) (by decide))
  have c3 : sp2.count '=' = 0 :=
    List.count_eq_zero.2 (fun hm => absurd (blank_eq_space _ (h3 _ hm)) (by decide))
  have c4 : val.count '=' = 0 :=
    List.count_eq_zero.2 (fun hm => attrValueChar_ne_eq _ (h4 _ hm) rfl)
  have hq : (quoteChar == '=') = false := by decide
  simp only [List.count_append, List.count_cons, List.count_nil, c1, c2, c3, c4, hq,
    beq_self_eq_true, if_true, Bool.false_eq_true, if_false]

/-! ## Claim C11: a root with leaves only -/

theorem buildTree_items (opening closing : Token) (items : List Item)
    (hclose : closing.isClosingTag = true) (hwf : itemsWellFormed items = true) :
    buildTree (opening :: (itemsTokens items ++ [closing])) =
      .ok (some (.mk (attributesOf opening) opening.extractValue (itemsMirror items))) := by
  have h := addNode_items (itemsTokens items).length items (Nat.le_refl _) hwf [opening] []
    closing (.mk (attributesOf opening) opening.extractValue []) 0
    (itemsTokens items).length.succ.succ hclose (by simp)
    (by simp only [List.length_append, List.length_cons, List.length_nil]; omega)
  simp only [List.length_cons, List.length_nil, List.singleton_append, SSMLNode.attributes,
    SSMLNode.value, SSMLNode.children, List.nil_append, Nat.zero_add] at h
  unfold buildTree
  simp only [List.length_cons, List.length_append, List.length_nil, Nat.zero_add]
  rw [addNode_root _ 0 0 _ opening (by simp)]
  simp only [Nat.max_self, Nat.zero_add]
  rw [h]

theorem itemsTokens_leaves (ts : List Token) : itemsTokens (ts.map Item.leaf) = ts := by
  induction ts with
  | nil => rfl
  | cons t ts ih => simp [itemsTokens, Item.tokens, ih]

theorem itemsMirror_leaves (ts : List Token) :
    itemsMirror (ts.map Item.leaf) = ts.map leafNode := by
  induction ts with
  | nil => rfl
  | cons t ts ih => simp [itemsMirror, Item.mirror, leafNode, ih]

theorem itemsWellFormed_leaves (ts : List Token)
    (h : ∀ t ∈ ts, t.isOpeningTag = false ∧ t.isClosingTag = false) :
    itemsWellFormed (ts.map Item.leaf) = true := by
  induction ts with
  | nil => rfl
  | cons t ts ih =>
    have ht := h t (List.mem_cons_self _ _)
    simp only [List.map_cons, itemsWellFormed, Item.wellFormed, ht.1, ht.2, Bool.not_false,
      Bool.and_self, Bool.true_and]
    exact ih (fun u hu => h u (List.mem_cons_of_mem _ hu))

/-- Claim C11: for a token sequence made of a first token, tokens `t1 ... tn` none of which
is an opening or a closing tag, and a closing tag, the recursive builder returns a root
with exactly `n` children, the i-th being the leaf of `ti`: value `extractValue(ti)`,
attributes `ParseAttributes(ti)`, no children. -/
theorem buildTree_leaves (opening closing : Token) (ts : List Token)
    (hclose : closing.isClosingTag = true)
    (hts : ∀ t ∈ ts, t.isOpeningTag = false ∧ t.isClosingTag = false) :
    buildTree (opening :: (ts ++ [closing])) =
      .ok (some (.mk (attributesOf opening) opening.extractValue (ts.map leafNode))) ∧
    (ts.map leafNode).length = ts.length ∧
    ∀ t ∈ ts, ParseAttributes t.value = .ok (leafNode t).attributes ∧
      (leafNode t).value = t.extractValue ∧ (leafNode t).children = [] := by
  refine ⟨?_, by simp, fun t _ => ⟨parseAttributes_eq_attributesOf t, rfl, rfl⟩⟩
  have h := buildTree_items opening closing (ts.map Item.leaf) hclose
    (itemsWellFormed_leaves ts hts)
  rw [itemsTokens_leaves, itemsMirror_leaves] at h
  exact h

/-- The claim C11 at its two witnesses: `<speak>hello< br/>world!</speak>` has the children
text `hello`, leaf `br` and text `world!`; `<speak></speak>` has value `speak`, no
attributes and no children. -/
theorem buildTree_leaves_witness :
    (tokenize "<speak>hello< br/>world!</speak>".toList =
        [tok "<speak>", tok "hello", tok "< br/>", tok "world!", tok "</speak>"] ∧
      buildTree [tok "<speak>", tok "hello", tok "< br/>", tok "world!", tok "</speak>"] =
        .ok (some (.mk [] "speak".toList [.mk [] "hello".toList [], .mk [] "br".toList [],
          .mk [] "world!".toList []]))) ∧
    (tokenize "<speak></speak>".toList = [tok "<speak>", tok "</speak>"] ∧
      buildTree [tok "<speak>", tok "</speak>"] = .ok (some (.mk [] "speak".toList []))) :=
  ⟨⟨by decide,
    (buildTree_leaves (tok "<speak>") (tok "</speak>")
      [tok "hello", tok "< br/>", tok "world!"] (by decide) (by decide)).1⟩,
   ⟨by decide, (buildTree_leaves (tok "<speak>") (tok "</speak>") [] (by decide) (by decide)).1⟩⟩

/-! ## Claim C14: the root -/

theorem buildTree_cons (t : Token) (rest : List Token) :
    ∃ root, buildTree (t :: rest) = .ok (some root) ∧ root.value = t.extractValue ∧
      root.attributes = attributesOf t := by
  obtain ⟨node, mp, calls, hcalls, hsome, -⟩ :=
    addNodeCalls_spec (t :: rest) (t :: rest).length
      (some (.mk (attributesOf t) t.extractValue [])) (0 + 1) (max 0 0)
      (by simp) (by simp)
  have hres := addNodeCalls_result (t :: rest) (t :: rest).length
    (some (.mk (attributesOf t) t.extractValue [])) (0 + 1) (max 0 0)
  rw [hcalls] at hres
  obtain ⟨root, rfl⟩ := Option.isSome_iff_exists.1 (hsome rfl)
  have hadd : addNode (t :: rest).length (some (.mk (attributesOf t) t.extractValue []))
      (0 + 1) (t :: rest) (max 0 0) = .ok (some root, mp) := hres.symm
  obtain ⟨hv, ha, -⟩ := addNode_builtFromTokens (t :: rest) _ _ root _ _ _ hadd (by
    intro n hn
    simp [children_mk, nodesAll] at hn)
  refine ⟨root, ?_, hv.trans (value_mk _ _ _), ha.trans (attributes_mk _ _ _)⟩
  unfold buildTree
  rw [addNode_root _ 0 0 (t :: rest) t (by simp), hadd]

/-- Claim C14: for every input, `ParseTree` returns no node exactly when `tokenize` yields
no tokens; otherwise it returns a root whose value is `extractValue` of the first token
and whose attributes are what `ParseAttributes` returns for the first token.  For the
balanced input `<a>x</a>` the root has value `a`. -/
theorem root_of_first_token (input : List Char) :
    (ParseTree input = .ok none ↔ tokenize input = []) ∧
    (∀ t rest, tokenize input = t :: rest →
      ∃ root, ParseTree input = .ok (some root) ∧ root.value = t.extractValue ∧
        ParseAttributes t.value = .ok root.attributes) ∧
    (∃ root, ParseTree "<a>x</a>".toList = .ok (some root) ∧ root.value = "a".toList) := by
  have hcons : ∀ t rest, tokenize input = t :: rest →
      ∃ root, ParseTree input = .ok (some root) ∧ root.value = t.extractValue ∧
        ParseAttributes t.value = .ok root.attributes := by
    intro t rest htoks
    obtain ⟨root, hroot, hv, ha⟩ := buildTree_cons t rest
    refine ⟨root, ?_, hv, ?_⟩
    · unfold ParseTree
      rw [htoks, hroot]
    · rw [ha]
      exact parseAttributes_eq_attributesOf t
  refine ⟨?_, hcons, ⟨.mk [] "a".toList [.mk [] "x".toList []], by rfl, by rfl⟩⟩
  constructor
  · intro h
    cases htoks : tokenize input with
    | nil => rfl
    | cons t rest =>
      obtain ⟨root, hroot, -⟩ := hcons t rest htoks
      rw [hroot] at h
      simp at h
  · intro h
    unfold ParseTree
    rw [h]
    rfl

/-! ## `strings.ReplaceAll`: unfolding equations -/

theorem replaceAllAux_fuel (old new : List Char) (hold : old ≠ []) :
    ∀ (f1 f2 : Nat) (s : List Char), s.length ≤ f1 → s.length ≤ f2 →
      replaceAllAux old new f1 s = replaceAllAux old new f2 s := by
  intro f1
  induction f1 with
  | zero =>
    intro f2 s h1 _
    have : s = [] := List.eq_nil_of_length_eq_zero (by omega)
    subst this
    cases f2 <;> rfl
  | succ f1 ih =>
    intro f2 s h1 h2
    cases s with
    | nil => cases f2 <;> rfl
    | cons c cs =>
      cases f2 with
      | zero => simp at h2
      | succ f2 =>
        have hpos : 0 < old.length := List.length_pos.2 hold
        simp only [replaceAllAux]
        split
        · rw [ih f2 _ (by simp only [List.length_drop, List.length_cons] at h1 ⊢; omega)
            (by simp only [List.length_drop, List.length_cons] at h2 ⊢; omega)]
        · rw [ih f2 cs (by simpa using h1) (by simpa using h2)]

theorem replaceAll_nil (old new : List Char) (hold : old ≠ []) : ReplaceAll [] old new = [] := by
  unfold ReplaceAll
  rw [if_neg hold]
  rfl

theorem replaceAll_cons_match (c : Char) (cs old new : List Char) (hold : old ≠ [])
    (h : old.isPrefixOf (c :: cs) = true) :
    ReplaceAll (c :: cs) old new = new ++ ReplaceAll ((c :: cs).drop old.length) old new := by
  have hpos : 0 < old.length := List.length_pos.2 hold
  unfold ReplaceAll
  rw [if_neg hold, if_neg hold]
  simp only [List.length_cons, replaceAllAux, h, if_true]
  rw [replaceAllAux_fuel old new hold cs.length ((c :: cs).drop old.length).length _
    (by simp only [List.length_drop, List.length_cons]; omega) (Nat.le_refl _)]

theorem replaceAll_cons_skip (c : Char) (cs old new : List Char) (hold : old ≠ [])
    (h : old.isPrefixOf (c :: cs) = false) :
    ReplaceAll (c :: cs) old new = c :: ReplaceAll cs old new := by
  unfold ReplaceAll
  rw [if_neg hold, if_neg hold]
  simp only [List.length_cons, replaceAllAux, h, Bool.false_eq_true, if_false]

/-- Deleting a one-character string deletes every occurrence of the character. -/
theorem replaceAll_single (s : List Char) (c : Char) :
    ReplaceAll s [c] [] = s.filter (fun x => x != c) := by
  induction s with
  | nil => exact replaceAll_nil _ _ (List.cons_ne_nil _ _)
  | cons d ds ih =>
    by_cases hd : d = c
    · subst hd
      rw [replaceAll_cons_match _ _ _ _ (List.cons_ne_nil _ _) (by simp [List.isPrefixOf])]
      simp only [List.length_cons, List.length_nil, List.drop_succ_cons, List.drop_zero,
        List.nil_append, ih]
      simp
    · rw [replaceAll_cons_skip _ _ _ _ (List.cons_ne_nil _ _)
        (by simp [List.isPrefixOf, Ne.symm hd]), ih]
      simp [hd]

/-- A pattern with a character that does not occur in the string is not replaced. -/
theorem replaceAll_of_absent (s old new : List Char) (x : Char) (hx : x ∈ old) (hs : x ∉ s) :
    ReplaceAll s old new = s := by
  have hold : old ≠ [] := List.ne_nil_of_mem hx
  induction s with
  | nil => exact replaceAll_nil _ _ hold
  | cons d ds ih =>
    have hpre : old.isPrefixOf (d :: ds) = false := by
      cases h : old.isPrefixOf (d :: ds) with
      | false => rfl
      | true =>
        exact absurd ((List.isPrefixOf_iff_prefix.1 h).subset hx) hs
    rw [replaceAll_cons_skip _ _ _ _ hold hpre, ih (fun hm => hs (List.mem_cons_of_mem _ hm))]

/-- A pattern cannot match inside a prefix that lacks its first character. -/
theorem replaceAll_append_left (pre rest old new : List Char) (a : Char) (old1 : List Char)
    (hold : old = a :: old1) (ha : a ∉ pre) :
    ReplaceAll (pre ++ rest) old new = pre ++ ReplaceAll rest old new := by
  have hne : old ≠ [] := by rw [hold]; exact List.cons_ne_nil _ _
  induction pre with
  | nil => rfl
  | cons d ds ih =>
    simp only [List.mem_cons, not_or] at ha
    have hpre : old.isPrefixOf (d :: (ds ++ rest)) = false := by
      rw [hold]
      simp [List.isPrefixOf, ha.1]
    simp only [List.cons_append]
    rw [replaceAll_cons_skip _ _ _ _ hne hpre, ih ha.2]

theorem mem_replaceAll_le (old new : List Char) (hold : old ≠ []) (x : Char) :
    ∀ (n : Nat) (s : List Char), s.length ≤ n → x ∈ ReplaceAll s old new → x ∈ s ∨ x ∈ new := by
  intro n
  induction n with
  | zero =>
    intro s hlen h
    have : s = [] := List.eq_nil_of_length_eq_zero (by omega)
    subst this
    rw [replaceAll_nil _ _ hold] at h
    simp at h
  | succ n ih =>
    intro s hlen h
    cases s with
    | nil =>
      rw [replaceAll_nil _ _ hold] at h
      simp at h
    | cons d ds =>
      have hpos : 0 < old.length := List.length_pos.2 hold
      cases hp : old.isPrefixOf (d :: ds) with
      | true =>
        rw [replaceAll_cons_match _ _ _ _ hold hp] at h
        rcases List.mem_append.1 h with h | h
        · exact Or.inr h
        · rcases ih _ (by simp only [List.length_drop, List.length_cons] at hlen ⊢; omega) h
            with h | h
          · exact Or.inl (List.mem_of_mem_drop h)
          · exact Or.inr h
      | false =>
        rw [replaceAll_cons_skip _ _ _ _ hold hp] at h
        rcases List.mem_cons.1 h with h | h
        · exact Or.inl (h ▸ List.mem_cons_self _ _)
        · rcases ih _ (by simpa using hlen) h with h | h
          · exact Or.inl (List.mem_cons_of_mem _ h)
          · exact Or.inr h

theorem mem_replaceAll (s old new : List Char) (hold : old ≠ []) (x : Char)
    (h : x ∈ ReplaceAll s old new) : x ∈ s ∨ x ∈ new :=
  mem_replaceAll_le old new hold x s.length s (Nat.le_refl _) h

/-! ## Claim C17: tab, line feed and carriage return -/

theorem three_deletes (s : List Char) :
    ReplaceAll (ReplaceAll (ReplaceAll s [SpecialCharTab] []) [SpecialCharNewLine] [])
      [SpecialCharCarriageReturn] [] = deleteControl s := by
  rw [replaceAll_single, replaceAll_single, replaceAll_single, List.filter_filter,
    List.filter_filter]
  unfold deleteControl
  congr 1
  funext c
  cases (c != SpecialCharTab) <;> cases (c != SpecialCharNewLine) <;>
    cases (c != SpecialCharCarriageReturn) <;> rfl

theorem deleteControl_idem (s : List Char) : deleteControl (deleteControl s) = deleteControl s := by
  unfold deleteControl
  rw [List.filter_filter]
  congr 1
  funext c
  simp

theorem tokenizeNormalize_eq (s : List Char) :
    tokenizeNormalize s =
      TrimSpace (ReplaceAll (ReplaceAll (ReplaceAll (deleteControl s) SpecialStrLessThan
        [SpecialCharLessThan]) SpecialStrGreaterThan [SpecialCharGreaterThan])
        SpecialStrAmpersand [SpecialCharAmpersand]) := by
  unfold tokenizeNormalize
  simp only
  rw [three_deletes]

theorem mem_segmentsFlat_of_token (gs : List (List Char × List Char)) (g : List Char × List Char)
    (hg : g ∈ gs) (c : Char) (hc : c ∈ g.2) : c ∈ segmentsFlat gs := by
  induction gs with
  | nil => simp at hg
  | cons g0 gs ih =>
    obtain ⟨gap, t⟩ := g0
    simp only [segmentsFlat, List.mem_append]
    rcases List.mem_cons.1 hg with rfl | hg
    · exact Or.inr (Or.inl hc)
    · exact Or.inr (Or.inr (ih hg))

theorem mem_tokenizeNormalize_of_token (input : List Char) (t : Token) (ht : t ∈ tokenize input)
    (c : Char) (hc : c ∈ t.value) : c ∈ tokenizeNormalize input := by
  obtain ⟨gs, last, hfind, hflat, -⟩ :=
    findAllString_isScan matchToken matchToken_bounds (tokenizeNormalize input)
  unfold tokenize at ht
  rw [hfind] at ht
  simp only [List.map_map, List.mem_map, Function.comp_apply] at ht
  obtain ⟨g, hg, rfl⟩ := ht
  rw [← hflat]
  exact List.mem_append_left _ (mem_segmentsFlat_of_token gs g hg c hc)

theorem mem_deleteControl_of_mem_tokenizeNormalize (input : List Char) (c : Char)
    (hc : c ∈ tokenizeNormalize input) :
    c ∈ deleteControl input ∨ c = '<' ∨ c = '>' ∨ c = '&' := by
  rw [tokenizeNormalize_eq] at hc
  have h1 := mem_trimSpace _ _ hc
  rcases mem_replaceAll _ _ _ (by decide) _ h1 with h2 | h2
  · rcases mem_replaceAll _ _ _ (by decide) _ h2 with h3 | h3
    · rcases mem_replaceAll _ _ _ (by decide) _ h3 with h4 | h4
      · exact Or.inl h4
      · exact Or.inr (Or.inl (by simpa [SpecialCharLessThan] using h4))
    · exact Or.inr (Or.inr (Or.inl (by simpa [SpecialCharGreaterThan] using h3)))
  · exact Or.inr (Or.inr (Or.inr (by simpa [SpecialCharAmpersand] using h2)))

/-- Claim C17: for every input, `tokenize` gives the same tokens as on the input with
every tab, line feed and carriage return deleted, and no token holds a tab, a line feed or
a carriage return. -/
theorem control_characters_collapse (input : List Char) :
    tokenize input = tokenize (deleteControl input) ∧
    ∀ t ∈ tokenize input, SpecialCharTab ∉ t.value ∧ SpecialCharNewLine ∉ t.value ∧
      SpecialCharCarriageReturn ∉ t.value := by
  constructor
  · unfold tokenize
    rw [tokenizeNormalize_eq, tokenizeNormalize_eq (deleteControl input), deleteControl_idem]
  · intro t ht
    have key : ∀ c ∈ t.value, c ≠ SpecialCharTab ∧ c ≠ SpecialCharNewLine ∧
        c ≠ SpecialCharCarriageReturn := by
      intro c hc
      have hn := mem_tokenizeNormalize_of_token input t ht c hc
      rcases mem_deleteControl_of_mem_tokenizeNormalize input c hn with h | h | h | h
      · unfold deleteControl at h
        have h2 := (List.mem_filter.1 h).2
        simp only [Bool.and_eq_true, bne_iff_ne, ne_eq] at h2
        exact ⟨h2.1.1, h2.1.2, h2.2⟩
      · subst h; decide
      · subst h; decide
      · subst h; decide
    exact ⟨fun h => (key _ h).1 rfl, fun h => (key _ h).2.1 rfl, fun h => (key _ h).2.2 rfl⟩

/-! ## Claim C18: the two kinds of token -/

theorem head_of_isTag (t : Token) (h : t.isTag = true) : t.value.head? = some '<' := by
  unfold Token.isTag Token.isOpeningTag Token.isClosingTag Token.isSelfClosingTag HasPrefix
    at h
  cases hv : t.value with
  | nil =>
    rw [hv] at h
    simp [List.isPrefixOf, SpecialStrClosingTag] at h
  | cons c cs =>
    rw [hv] at h
    by_cases hc : c = '<'
    · rw [hc]; rfl
    · have h1 : List.isPrefixOf SpecialStrClosingTag (c :: cs) = false := by
        simp [SpecialStrClosingTag, List.isPrefixOf, Ne.symm hc]
      have h2 : List.isPrefixOf [SpecialCharLessThan] (c :: cs) = false := by
        simp [SpecialCharLessThan, List.isPrefixOf, Ne.symm hc]
      rw [h1, h2] at h
      simp at h

theorem tagChar_not_angle (x : Char) (h : isTagChar x = true) : x ≠ '<' ∧ x ≠ '>' := by
  constructor
  · rintro rfl
    revert h
    decide
  · rintro rfl
    revert h
    decide

/-- Claim C18, amended: every token returned by `tokenize` is either a tag token (it
starts with `<`, ends with `>`, holds no other `<` or `>`, and `isTag` is true) or a text
run (it holds no `<` and no `>`, `isTag` is false, and one of its characters lies outside
the pattern class `\s`: tab, line feed, form feed, carriage return, space); so no token is
empty and none is made of characters of `\s` only. -/
theorem token_kinds (input : List Char) :
    ∀ t ∈ tokenize input,
      ((t.isTag = true ∧ ∃ body, t.value = '<' :: (body ++ ['>']) ∧
          ∀ x ∈ body, x ≠ '<' ∧ x ≠ '>') ∨
       (t.isTag = false ∧ (∀ x ∈ t.value, x ≠ '<' ∧ x ≠ '>') ∧
          ∃ x ∈ t.value, isReSpace x = false)) ∧
      t.value ≠ [] ∧ ∃ x ∈ t.value, isReSpace x = false := by
  intro t ht
  obtain ⟨gs, last, hfind, -, hscan⟩ :=
    findAllString_isScan matchToken matchToken_bounds (tokenizeNormalize input)
  unfold tokenize at ht
  rw [hfind] at ht
  simp only [List.map_map, List.mem_map, Function.comp_apply] at ht
  obtain ⟨g, hg, rfl⟩ := ht
  obtain ⟨rest, hmatch⟩ := isScan_tokens matchToken gs last hscan g hg
  simp only
  cases htag : (Token.mk g.2).isTag with
  | true =>
    have hm := hmatch
    unfold matchToken at hm
    split at hm
    · rename_i n hn
      simp only [Option.some.injEq] at hm
      subst hm
      obtain ⟨body, rest1, hs, hlen, hbody⟩ := matchTag_shape _ _ hn
      have hs2 : g.2 ++ rest = ('<' :: (body ++ ['>'])) ++ rest1 := by
        rw [hs]
        simp
      have hv := (List.append_inj hs2 hlen).1
      refine ⟨Or.inl ⟨rfl, body, hv, fun x hx => tagChar_not_angle x (hbody x hx)⟩, ?_, ?_⟩
      · rw [hv]
        exact List.cons_ne_nil _ _
      · rw [hv]
        exact ⟨'<', List.mem_cons_self _ _, by decide⟩
    · obtain ⟨⟨sp, c, body, hv, hsp, hc, hbody⟩, -⟩ := text_token_facts _ _ hm
      have hhead := head_of_isTag _ htag
      simp only at hhead
      rw [hv] at hhead
      exfalso
      cases sp with
      | nil =>
        simp only [List.nil_append, List.head?_cons, Option.some.injEq] at hhead
        subst hhead
        revert hc
        decide
      | cons x sp =>
        simp only [List.cons_append, List.head?_cons, Option.some.injEq] at hhead
        have hx := hsp x (List.mem_cons_self _ _)
        rw [hhead] at hx
        exact absurd hx (by decide)
  | false =>
    have htext := matchText_of_not_tag _ _ hmatch htag
    obtain ⟨⟨sp, c, body, hv, hsp, hc, hbody⟩, -⟩ := text_token_facts _ _ htext
    have hcs : isReSpace c = false := by
      simp only [isTextStart, Bool.and_eq_true, Bool.not_eq_true'] at hc
      exact hc.2
    have hcn : isNotAngle c = true := by
      simp only [isTextStart, Bool.and_eq_true] at hc
      exact hc.1
    have hmem : c ∈ g.2 := by
      rw [hv]
      simp
    refine ⟨Or.inr ⟨rfl, ?_, c, hmem, hcs⟩, ?_, c, hmem, hcs⟩
    · intro x hx
      rw [hv] at hx
      rcases List.mem_append.1 hx with hx | hx
      · rw [hsp x hx]
        decide
      · rcases List.mem_cons.1 hx with rfl | hx
        · exact notAngle_ne _ hcn
        · exact notAngle_ne _ (hbody x hx)
    · exact List.ne_nil_of_mem hmem

/-- The amended claim C18 at the text run `b ` of `<a>b </a>`. -/
theorem token_kinds_witness :
    (((tok "b ").isTag = true ∧ ∃ body, (tok "b ").value = '<' :: (body ++ ['>']) ∧
          ∀ x ∈ body, x ≠ '<' ∧ x ≠ '>') ∨
       ((tok "b ").isTag = false ∧ (∀ x ∈ (tok "b ").value, x ≠ '<' ∧ x ≠ '>') ∧
          ∃ x ∈ (tok "b ").value, isReSpace x = false)) ∧
      (tok "b ").value ≠ [] ∧ ∃ x ∈ (tok "b ").value, isReSpace x = false :=
  token_kinds "<a>b </a>".toList (tok "b ") (by decide)

/-! ## `FindAllString`: unfolding equations -/

theorem findAllAux_fuel (m : List Char → Option Nat) (hm : ∀ s n, m s = some n → 0 < n) :
    ∀ (f1 f2 : Nat) (s : List Char), s.length ≤ f1 → s.length ≤ f2 →
      findAllAux m f1 s = findAllAux m f2 s := by
  intro f1
  induction f1 with
  | zero =>
    intro f2 s h1 _
    have : s = [] := List.eq_nil_of_length_eq_zero (by omega)
    subst this
    cases f2 <;> rfl
  | succ f1 ih =>
    intro f2 s h1 h2
    cases s with
    | nil => cases f2 <;> rfl
    | cons c cs =>
      cases f2 with
      | zero => simp at h2
      | succ f2 =>
        simp only [findAllAux]
        cases hmatch : m (c :: cs) with
        | none =>
          simp only
          exact ih f2 cs (by simpa using h1) (by simpa using h2)
        | some n =>
          have hpos := hm _ _ hmatch
          simp only
          rw [ih f2 _ (by simp only [List.length_drop, List.length_cons] at h1 ⊢; omega)
            (by simp only [List.length_drop, List.length_cons] at h2 ⊢; omega)]

theorem findAllString_nil (m : List Char → Option Nat) : FindAllString m [] = [] := rfl

theorem findAllString_skip (m : List Char → Option Nat) (c : Char) (cs : List Char)
    (h : m (c :: cs) = none) : FindAllString m (c :: cs) = FindAllString m cs := by
  unfold FindAllString
  simp only [List.length_cons, findAllAux, h]

theorem findAllString_token (m : List Char → Option Nat)
    (hm : ∀ s n, m s = some n → 0 < n) (t rest : List Char)
    (h : m (t ++ rest) = some t.length) :
    FindAllString m (t ++ rest) = t :: FindAllString m rest := by
  have hpos := hm _ _ h
  cases t with
  | nil => simp at hpos
  | cons c cs =>
    have h' : m (c :: (cs ++ rest)) = some (cs.length + 1) := h
    show FindAllString m (c :: (cs ++ rest)) = _
    have hlen : (c :: (cs ++ rest)).length = (cs ++ rest).length + 1 := rfl
    unfold FindAllString
    rw [hlen]
    simp only [findAllAux, h']
    have h1 : List.take (cs.length + 1) (c :: (cs ++ rest)) = c :: cs := by
      simp
    have h2 : List.drop (cs.length + 1) (c :: (cs ++ rest)) = rest := by
      simp
    rw [h1, h2]
    rw [findAllAux_fuel m hm (cs ++ rest).length rest.length rest (by simp)
      (Nat.le_refl _)]

theorem matchToken_pos (s : List Char) (n : Nat) (h : matchToken s = some n) : 0 < n :=
  (matchToken_bounds s n h).1

theorem takeWhile_append_stop (p : Char → Bool) (a b : List Char) (ha : ∀ x ∈ a, p x = true)
    (hb : ∀ x, b.head? = some x → p x = false) : (a ++ b).takeWhile p = a := by
  induction a with
  | nil =>
    cases b with
    | nil => rfl
    | cons x b => simp [List.takeWhile_cons, hb x rfl]
  | cons x a ih =>
    simp only [List.cons_append, List.takeWhile_cons, ha x (List.mem_cons_self _ _), if_true]
    rw [ih (fun y hy => ha y (List.mem_cons_of_mem _ hy))]

theorem dropWhile_append_stop (p : Char → Bool) (a b : List Char) (ha : ∀ x ∈ a, p x = true)
    (hb : ∀ x, b.head? = some x → p x = false) : (a ++ b).dropWhile p = b := by
  induction a with
  | nil =>
    cases b with
    | nil => rfl
    | cons x b => simp [List.dropWhile_cons, hb x rfl]
  | cons x a ih =>
    simp only [List.cons_append, List.dropWhile_cons, ha x (List.mem_cons_self _ _), if_true]
    exact ih (fun y hy => ha y (List.mem_cons_of_mem _ hy))

/-- The tag alternative matches a `<`, characters of its class and a `>`. -/
theorem matchTag_of_shape (body rest : List Char) (hbody : ∀ x ∈ body, isTagChar x = true) :
    matchTag ('<' :: (body ++ '>' :: rest)) = some ('<' :: (body ++ ['>'])).length := by
  have hstop : ∀ x, ('>' :: rest).head? = some x → isTagChar x = false := by
    intro x hx
    simp only [List.head?_cons, Option.some.injEq] at hx
    subst hx
    decide
  unfold matchTag
  simp only [if_true]
  rw [dropWhile_append_stop _ _ _ hbody hstop, takeWhile_append_stop _ _ _ hbody hstop]
  simp

theorem matchToken_of_tag (body rest : List Char) (hbody : ∀ x ∈ body, isTagChar x = true) :
    matchToken (('<' :: (body ++ ['>'])) ++ rest) = some ('<' :: (body ++ ['>'])).length := by
  unfold matchToken
  have h := matchTag_of_shape body rest hbody
  simp only [List.cons_append, List.append_assoc, List.singleton_append,
    List.nil_append] at h ⊢
  rw [h]

/-- The text alternative matches a run of characters other than angle brackets, none of
them whitespace other than the space and one of them not a space, up to an angle bracket
or the end. -/
theorem matchText_of_run (u rest : List Char)
    (hu : ∀ x ∈ u, isNotAngle x = true ∧ (isReSpace x = true → x = ' '))
    (hne : ∃ x ∈ u, x ≠ ' ') (hrest : ∀ x, rest.head? = some x → isNotAngle x = false) :
    matchText (u ++ rest) = some u.length := by
  induction u with
  | nil =>
    obtain ⟨x, hx, -⟩ := hne
    simp at hx
  | cons c u ih =>
    by_cases hc : c = ' '
    · subst hc
      have hne2 : ∃ x ∈ u, x ≠ ' ' := by
        obtain ⟨x, hx, hxne⟩ := hne
        rcases List.mem_cons.1 hx with rfl | hx
        · exact absurd rfl hxne
        · exact ⟨x, hx, hxne⟩
      have := matchText_space _ _ (ih (fun x hx => hu x (List.mem_cons_of_mem _ hx)) hne2)
      simpa using this
    · have hcu := hu c (List.mem_cons_self _ _)
      have hblank : isBlank c = false := by
        simp [isBlank, hc]
      have hstart : isTextStart c = true := by
        unfold isTextStart
        rw [hcu.1]
        cases hr : isReSpace c with
        | false => rfl
        | true => exact absurd (hcu.2 hr) hc
      unfold matchText
      simp only [List.cons_append, List.dropWhile_cons, hblank, Bool.false_eq_true, if_false,
        List.takeWhile_cons, List.length_nil, hstart, if_true]
      rw [takeWhile_append_stop _ _ _ (fun x hx => (hu x (List.mem_cons_of_mem _ hx)).1) hrest]
      simp
      omega

theorem matchToken_of_run (u rest : List Char)
    (hu : ∀ x ∈ u, isNotAngle x = true ∧ (isReSpace x = true → x = ' '))
    (hne : ∃ x ∈ u, x ≠ ' ') (hrest : ∀ x, rest.head? = some x → isNotAngle x = false) :
    matchToken (u ++ rest) = some u.length := by
  unfold matchToken
  have htag : matchTag (u ++ rest) = none := by
    cases u with
    | nil =>
      obtain ⟨x, hx, -⟩ := hne
      simp at hx
    | cons c u =>
      have hc : c ≠ '<' := (notAngle_ne c (hu c (List.mem_cons_self _ _)).1).1
      simp [matchTag, hc]
  rw [htag]
  exact matchText_of_run u rest hu hne hrest

/-! ## Claim C12: escape normalization -/

theorem deleteControl_of_clean (s : List Char)
    (h : ∀ c ∈ s, c ≠ SpecialCharTab ∧ c ≠ SpecialCharNewLine ∧ c ≠ SpecialCharCarriageReturn) :
    deleteControl s = s := by
  unfold deleteControl
  rw [List.filter_eq_self]
  intro c hc
  obtain ⟨h1, h2, h3⟩ := h c hc
  simp [h1, h2, h3]

theorem hasSuffix_append (a b : List Char) : HasSuffix (a ++ b) b = true := by
  unfold HasSuffix
  rw [List.reverse_append]
  exact List.isPrefixOf_iff_prefix.2 (List.prefix_append _ _)

/-- Claim C12: for every text `t` without `<`, `>`, `&` and without whitespace other than
the space (no character of the class `\s` but the space), `tokenize` of `<s>`, `t`,
`&amp;`, `</s>` is the three tokens `<s>`, `t` followed by `&`, and `</s>`. -/
theorem escape_normalization (t : List Char)
    (ht : ∀ c ∈ t, c ≠ '<' ∧ c ≠ '>' ∧ c ≠ '&' ∧ (isReSpace c = true → c = ' ')) :
    tokenize ("<s>".toList ++ t ++ "&amp;</s>".toList) =
      [tok "<s>", Token.mk (t ++ ['&']), tok "</s>"] := by
  have hclean : ∀ c ∈ "<s>".toList ++ t ++ "&amp;</s>".toList,
      c ≠ SpecialCharTab ∧ c ≠ SpecialCharNewLine ∧ c ≠ SpecialCharCarriageReturn := by
    intro c hc
    rcases List.mem_append.1 hc with hc | hc
    · rcases List.mem_append.1 hc with hc | hc
      · exact (by decide : ∀ c ∈ "<s>".toList, c ≠ SpecialCharTab ∧
          c ≠ SpecialCharNewLine ∧ c ≠ SpecialCharCarriageReturn) c hc
      · obtain ⟨-, -, -, hsp⟩ := ht c hc
        refine ⟨?_, ?_, ?_⟩ <;> rintro rfl <;> exact absurd (hsp (by decide)) (by decide)
    · exact (by decide : ∀ c ∈ "&amp;</s>".toList, c ≠ SpecialCharTab ∧
        c ≠ SpecialCharNewLine ∧ c ≠ SpecialCharCarriageReturn) c hc
  have hamp : '&' ∉ "<s>".toList ++ t := by
    intro hc
    rcases List.mem_append.1 hc with hc | hc
    · exact absurd hc (by decide)
    · exact (ht _ hc).2.2.1 rfl
  have hnorm : tokenizeNormalize ("<s>".toList ++ t ++ "&amp;</s>".toList) =
      "<s>".toList ++ ((t ++ ['&']) ++ "</s>".toList) := by
    rw [tokenizeNormalize_eq, deleteControl_of_clean _ hclean]
    rw [replaceAll_append_left _ _ SpecialStrLessThan _ '&' _ rfl hamp]
    have e1 : ReplaceAll "&amp;</s>".toList SpecialStrLessThan [SpecialCharLessThan] =
        "&amp;</s>".toList := by decide
    rw [e1, replaceAll_append_left _ _ SpecialStrGreaterThan _ '&' _ rfl hamp]
    have e2 : ReplaceAll "&amp;</s>".toList SpecialStrGreaterThan [SpecialCharGreaterThan] =
        "&amp;</s>".toList := by decide
    rw [e2, replaceAll_append_left _ _ SpecialStrAmpersand _ '&' _ rfl hamp]
    have e3 : ReplaceAll "&amp;</s>".toList SpecialStrAmpersand [SpecialCharAmpersand] =
        "&</s>".toList := by decide
    rw [e3]
    have hshape : "<s>".toList ++ t ++ "&</s>".toList =
        ("<s>".toList ++ t ++ "&</s".toList) ++ [SpecialCharGreaterThan] := by
      simp [SpecialCharGreaterThan]
    rw [trimSpace_of_tag _ (by simp [HasPrefix, SpecialCharLessThan, List.isPrefixOf])
      (by rw [hshape]; exact hasSuffix_append _ _)]
    simp
  unfold tokenize
  rw [hnorm]
  have m1 : matchToken ("<s>".toList ++ ((t ++ ['&']) ++ "</s>".toList)) =
      some "<s>".toList.length :=
    matchToken_of_tag ['s'] _ (by decide)
  have m2 : matchToken ((t ++ ['&']) ++ "</s>".toList) = some (t ++ ['&']).length := by
    apply matchToken_of_run
    · intro x hx
      rcases List.mem_append.1 hx with hx | hx
      · obtain ⟨h1, h2, -, h4⟩ := ht x hx
        exact ⟨by simp [isNotAngle, h1, h2], h4⟩
      · simp only [List.mem_singleton] at hx
        subst hx
        decide
    · exact ⟨'&', by simp, by decide⟩
    · intro x hx
      simp only [String.toList, List.head?_cons, Option.some.injEq] at hx
      subst hx
      decide
  have m3 : matchToken ("</s>".toList ++ []) = some "</s>".toList.length := by decide
  rw [findAllString_token matchToken matchToken_pos _ _ m1,
    findAllString_token matchToken matchToken_pos _ _ m2]
  have h3 := findAllString_token matchToken matchToken_pos _ _ m3
  rw [List.append_nil] at h3
  rw [h3, findAllString_nil]
  rfl

/-- The claim C12 at its witness: ` This is sentence one. &amp;` between `<s>` and `</s>`
tokenizes to the single text token ` This is sentence one. &`. -/
theorem escape_normalization_witness :
    tokenize ("<s>".toList ++ " This is sentence one. ".toList ++ "&amp;</s>".toList) =
      [tok "<s>", Token.mk (" This is sentence one. ".toList ++ ['&']), tok "</s>"] ∧
    " This is sentence one. ".toList ++ ['&'] = " This is sentence one. &".toList :=
  ⟨escape_normalization " This is sentence one. ".toList (by decide), by decide⟩

/-! ## `extractValue` on tags -/

theorem alnum_range (c : Char) (h : c.isAlphanum = true) : 48 ≤ c.toNat ∧ c.toNat ≤ 122 := by
  simp only [Char.isAlphanum, Char.isAlpha, Char.isUpper, Char.isLower, Char.isDigit,
    Bool.or_eq_true, Bool.and_eq_true, decide_eq_true_eq, ge_iff_le] at h
  simp only [UInt32.le_def, BitVec.le_def] at h
  have e1 : (UInt32.toBitVec 48).toNat = 48 := rfl
  have e2 : (UInt32.toBitVec 57).toNat = 57 := rfl
  have e3 : (UInt32.toBitVec 65).toNat = 65 := rfl
  have e4 : (UInt32.toBitVec 90).toNat = 90 := rfl
  have e5 : (UInt32.toBitVec 97).toNat = 97 := rfl
  have e6 : (UInt32.toBitVec 122).toNat = 122 := rfl
  rw [e1, e2, e3, e4, e5, e6] at h
  have e : c.toNat = c.val.toBitVec.toNat := rfl
  rw [e]
  omega

theorem alnum_not_space (c : Char) (h : c.isAlphanum = true) : isSpace c = false := by
  have := alnum_range c h
  unfold isSpace
  simp only [Bool.or_eq_false_iff, Bool.and_eq_false_iff, decide_eq_false_iff_not,
    beq_eq_false_iff_ne, ne_eq]
  omega

/-- What the proofs about `extractValue` use of the characters of a name. -/
theorem nameChar_facts (c : Char) (h : isNameChar c = true) :
    c ≠ '<' ∧ c ≠ '>' ∧ c ≠ '/' ∧ c ≠ ' ' ∧ c ≠ '=' ∧ isSpace c = false := by
  refine ⟨?_, ?_, ?_, ?_, ?_, ?_⟩
  · rintro rfl; revert h; decide
  · rintro rfl; revert h; decide
  · rintro rfl; revert h; decide
  · rintro rfl; revert h; decide
  · rintro rfl; revert h; decide
  · simp only [isNameChar, Bool.or_eq_true, beq_iff_eq] at h
    rcases h with (((h | h) | h) | h) | h
    · exact alnum_not_space c h
    · subst h; decide
    · subst h; decide
    · subst h; decide
    · subst h; decide

theorem alnum_isNameChar (c : Char) (h : c.isAlphanum = true) : isNameChar c = true := by
  simp [isNameChar, h]

theorem dropWhile_append_keep (p : Char → Bool) (z n : List Char) (x : Char)
    (hn : n.head? = some x) (hx : p x = false) :
    (z ++ n).dropWhile p = z.dropWhile p ++ n := by
  induction z with
  | nil =>
    cases n with
    | nil => simp at hn
    | cons y n =>
      simp only [List.head?_cons, Option.some.injEq] at hn
      subst hn
      simp [List.dropWhile_cons, hx]
  | cons c z ih =>
    by_cases hc : p c = true
    · simp only [List.cons_append, List.dropWhile_cons, hc, if_true]
      exact ih
    · simp [List.dropWhile_cons, hc]

theorem trimSpace_name_append (name z : List Char) (hne : name ≠ [])
    (hsp : ∀ c ∈ name, isSpace c = false) :
    TrimSpace (name ++ z) = name ++ (z.reverse.dropWhile isSpace).reverse := by
  unfold TrimSpace
  cases name with
  | nil => exact absurd rfl hne
  | cons a name =>
    have ha : isSpace a = false := hsp a (List.mem_cons_self _ _)
    have h1 : List.dropWhile isSpace (a :: name ++ z) = a :: name ++ z := by
      simp [List.dropWhile_cons, ha]
    rw [h1, List.reverse_append]
    obtain ⟨x, hx⟩ : ∃ x, (a :: name).reverse.head? = some x := by
      cases hr : (a :: name).reverse with
      | nil => simp at hr
      | cons y ys => exact ⟨y, rfl⟩
    have hxm : x ∈ a :: name := by
      have : x ∈ (a :: name).reverse := List.mem_of_mem_head? hx
      exact List.mem_reverse.1 this
    rw [dropWhile_append_keep isSpace _ _ x hx (hsp x hxm), List.reverse_append,
      List.reverse_reverse]

theorem rtrim_space_cons (w : List Char) :
    ((' ' :: w).reverse.dropWhile isSpace).reverse = [] ∨
      ∃ w1, ((' ' :: w).reverse.dropWhile isSpace).reverse = ' ' :: w1 := by
  have hsuf : (' ' :: w).reverse.dropWhile isSpace <:+ (' ' :: w).reverse :=
    List.dropWhile_suffix isSpace
  have hpre : ((' ' :: w).reverse.dropWhile isSpace).reverse <+: ' ' :: w := by
    have := List.reverse_prefix.2 hsuf
    rwa [List.reverse_reverse] at this
  cases hr : ((' ' :: w).reverse.dropWhile isSpace).reverse with
  | nil => exact Or.inl rfl
  | cons y ys =>
    right
    rw [hr] at hpre
    obtain ⟨t, ht⟩ := hpre
    simp only [List.cons_append, List.cons.injEq] at ht
    exact ⟨ys, by rw [ht.1]⟩

/-- Trimming a name followed by a space and more, and taking the first word, gives the
name. -/
theorem first_word_of_name_rest (name w : List Char) (hne : name ≠ [])
    (hsp : ∀ c ∈ name, c ≠ ' ' ∧ isSpace c = false) :
    (Split (TrimSpace (name ++ ' ' :: w)) ' ').headD [] = name := by
  rw [trimSpace_name_append name _ hne (fun c hc => (hsp c hc).2)]
  have hmem : ' ' ∉ name := fun h => (hsp _ h).1 rfl
  rcases rtrim_space_cons w with h | ⟨w1, h⟩
  · rw [h, List.append_nil, split_of_not_mem _ _ hmem]
    rfl
  · rw [h, split_append_sep _ _ _ hmem]
    rfl

theorem first_word_of_name (name : List Char) (hne : name ≠ [])
    (hsp : ∀ c ∈ name, c ≠ ' ' ∧ isSpace c = false) :
    (Split (TrimSpace name) ' ').headD [] = name := by
  have h := trimSpace_name_append name [] hne (fun c hc => (hsp c hc).2)
  simp only [List.append_nil, List.reverse_nil, List.dropWhile_nil] at h
  rw [h, split_of_not_mem _ _ (fun h => (hsp _ h).1 rfl)]
  rfl

/-- Deleting `<` and then `>` keeps the characters other than angle brackets. -/
theorem strip_angles (z : List Char) :
    ReplaceAll (ReplaceAll z [SpecialCharLessThan] []) [SpecialCharGreaterThan] [] =
      z.filter isNotAngle := by
  rw [replaceAll_single, replaceAll_single, List.filter_filter]
  congr 1
  funext c
  simp [isNotAngle, SpecialCharLessThan, SpecialCharGreaterThan, Bool.and_comm]

theorem filter_notAngle_tag (y tail : List Char) (hy : ∀ c ∈ y, c ≠ '<' ∧ c ≠ '>')
    (htail : tail = [] ∨ tail = ['>']) :
    ('<' :: (y ++ tail)).filter isNotAngle = y := by
  have h1 : y.filter isNotAngle = y := by
    rw [List.filter_eq_self]
    intro c hc
    simp [isNotAngle, (hy c hc).1, (hy c hc).2]
  have h0 : isNotAngle '<' = false := by decide
  rw [List.filter_cons, h0, List.filter_append, h1]
  rcases htail with rfl | rfl
  · simp
  · have : List.filter isNotAngle ['>'] = [] := by decide
    rw [this, List.append_nil]
    simp

/-- The pattern `</` is not found after a `<` that is followed by a character other than
`/` and by no further `<`. -/
theorem replace_closing_none (rest : List Char) (hhead : rest.head? ≠ some '/')
    (hrest : '<' ∉ rest) :
    ReplaceAll ('<' :: rest) SpecialStrClosingTag [] = '<' :: rest := by
  have hskip : SpecialStrClosingTag.isPrefixOf ('<' :: rest) = false := by
    cases rest with
    | nil => rfl
    | cons d ds =>
      have hd : d ≠ '/' := fun h => hhead (by rw [h]; rfl)
      simp [SpecialStrClosingTag, List.isPrefixOf, Ne.symm hd]
  rw [replaceAll_cons_skip _ _ _ _ (by decide) hskip,
    replaceAll_of_absent rest _ _ '<' (by decide) hrest]

theorem replace_selfClosing_end (x : List Char) (hx : '>' ∉ x) :
    ReplaceAll (x ++ ['/', '>']) SpecialStrSelfClosingTag [] = x := by
  induction x with
  | nil => decide
  | cons c x ih =>
    simp only [List.mem_cons, not_or] at hx
    have hskip : SpecialStrSelfClosingTag.isPrefixOf (c :: (x ++ ['/', '>'])) = false := by
      cases x with
      | nil =>
        simp [SpecialStrSelfClosingTag, List.isPrefixOf]
      | cons d x =>
        simp only [List.mem_cons, not_or] at hx
        simp [SpecialStrSelfClosingTag, List.isPrefixOf, hx.2.1]
    simp only [List.cons_append]
    rw [replaceAll_cons_skip _ _ _ _ (by decide) hskip, ih hx.2]

theorem replace_selfClosing_none (x : List Char) (hx : '>' ∉ x)
    (hlast : x.getLast? ≠ some '/') :
    ReplaceAll (x ++ ['>']) SpecialStrSelfClosingTag [] = x ++ ['>'] := by
  induction x with
  | nil => decide
  | cons c x ih =>
    simp only [List.mem_cons, not_or] at hx
    have hskip : SpecialStrSelfClosingTag.isPrefixOf (c :: (x ++ ['>'])) = false := by
      cases x with
      | nil =>
        have hc : c ≠ '/' := fun h => hlast (by rw [h]; rfl)
        simp [SpecialStrSelfClosingTag, List.isPrefixOf, Ne.symm hc]
      | cons d x =>
        simp only [List.mem_cons, not_or] at hx
        simp [SpecialStrSelfClosingTag, List.isPrefixOf, hx.2.1]
    simp only [List.cons_append]
    rw [replaceAll_cons_skip _ _ _ _ (by decide) hskip]
    cases x with
    | nil =>
      have : ReplaceAll ([] ++ ['>']) SpecialStrSelfClosingTag [] = [] ++ ['>'] := by decide
      rw [this]
    | cons d x =>
      rw [ih hx.2 (by
        intro h
        apply hlast
        rw [List.getLast?_cons_cons]
        exact h)]

theorem extractValue_of_isTag (s : List Char) (htag : (Token.mk s).isTag = true) :
    (Token.mk s).extractValue =
      (Split (TrimSpace (ReplaceAll (ReplaceAll (ReplaceAll (ReplaceAll s SpecialStrClosingTag [])
        SpecialStrSelfClosingTag []) [SpecialCharLessThan] []) [SpecialCharGreaterThan] []))
        ' ').headD [] := by
  unfold Token.extractValue
  simp only [htag, Bool.not_true, Bool.false_eq_true, if_false]

theorem extractValue_opening_form (name : List Char) (hne : name ≠ [])
    (hname : ∀ c ∈ name, isNameChar c = true) :
    (Token.mk ('<' :: (name ++ ['>']))).extractValue = name := by
  have hf := fun c hc => nameChar_facts c (hname c hc)
  have hslash : '/' ∉ '<' :: (name ++ ['>']) := by
    intro h
    rcases List.mem_cons.1 h with h | h
    · exact absurd h (by decide)
    · rcases List.mem_append.1 h with h | h
      · exact (hf _ h).2.2.1 rfl
      · simp at h
  rw [extractValue_of_isTag _ (isTag_of_tag_text name),
    replaceAll_of_absent _ _ _ '/' (by decide) hslash,
    replaceAll_of_absent _ _ _ '/' (by decide) hslash, strip_angles,
    filter_notAngle_tag name ['>'] (fun c hc => ⟨(hf c hc).1, (hf c hc).2.1⟩) (Or.inr rfl)]
  exact first_word_of_name name hne (fun c hc => ⟨(hf c hc).2.2.2.1, (hf c hc).2.2.2.2.2⟩)

theorem extractValue_closing_form (name : List Char) (hne : name ≠ [])
    (hname : ∀ c ∈ name, isNameChar c = true) :
    (Token.mk ('<' :: '/' :: (name ++ ['>']))).extractValue = name := by
  have hf := fun c hc => nameChar_facts c (hname c hc)
  have htag : (Token.mk ('<' :: '/' :: (name ++ ['>']))).isTag = true :=
    isTag_of_tag_text ('/' :: name)
  have hlt : '<' ∉ name ++ ['>'] := by
    intro h
    rcases List.mem_append.1 h with h | h
    · exact (hf _ h).1 rfl
    · simp at h
  have hslash : '/' ∉ name ++ ['>'] := by
    intro h
    rcases List.mem_append.1 h with h | h
    · exact (hf _ h).2.2.1 rfl
    · simp at h
  have h1 : ReplaceAll ('<' :: '/' :: (name ++ ['>'])) SpecialStrClosingTag [] =
      name ++ ['>'] := by
    rw [replaceAll_cons_match _ _ _ _ (by decide) (by simp [SpecialStrClosingTag,
      List.isPrefixOf])]
    simp only [SpecialStrClosingTag, List.length_cons, List.length_nil, List.drop_succ_cons,
      List.drop_zero, List.nil_append]
    exact replaceAll_of_absent _ _ _ '<' (by decide) hlt
  rw [extractValue_of_isTag _ htag, h1, replaceAll_of_absent _ _ _ '/' (by decide) hslash,
    replaceAll_of_absent _ _ _ '<' (by decide) hlt, replaceAll_single]
  have h4 : (name ++ ['>']).filter (fun x => x != SpecialCharGreaterThan) = name := by
    rw [List.filter_append]
    have : name.filter (fun x => x != SpecialCharGreaterThan) = name := by
      rw [List.filter_eq_self]
      intro c hc
      simp [SpecialCharGreaterThan, (hf c hc).2.1]
    rw [this]
    simp [SpecialCharGreaterThan]
  rw [h4]
  exact first_word_of_name name hne (fun c hc => ⟨(hf c hc).2.2.2.1, (hf c hc).2.2.2.2.2⟩)

theorem name_head_not_slash (name : List Char) (hne : name ≠ [])
    (hname : ∀ c ∈ name, isNameChar c = true) (z : List Char) :
    (name ++ z).head? ≠ some '/' := by
  cases name with
  | nil => exact absurd rfl hne
  | cons a name =>
    simp only [List.cons_append, List.head?_cons, ne_eq, Option.some.injEq]
    exact (nameChar_facts a (hname a (List.mem_cons_self _ _))).2.2.1

theorem extractValue_selfClosing_form (name : List Char) (hne : name ≠ [])
    (hname : ∀ c ∈ name, isNameChar c = true) :
    (Token.mk ('<' :: (name ++ ['/', '>']))).extractValue = name := by
  have hf := fun c hc => nameChar_facts c (hname c hc)
  have htag : (Token.mk ('<' :: (name ++ ['/', '>']))).isTag = true := by
    have := isTag_of_tag_text (name ++ ['/'])
    simpa using this
  have hlt : '<' ∉ name ++ ['/', '>'] := by
    intro h
    rcases List.mem_append.1 h with h | h
    · exact (hf _ h).1 rfl
    · exact absurd h (by decide)
  have hgt : '>' ∉ '<' :: name := by
    intro h
    rcases List.mem_cons.1 h with h | h
    · exact absurd h (by decide)
    · exact (hf _ h).2.1 rfl
  have h2 := replace_selfClosing_end ('<' :: name) hgt
  simp only [List.cons_append] at h2
  rw [extractValue_of_isTag _ htag,
    replace_closing_none _ (name_head_not_slash name hne hname _) hlt, h2, strip_angles]
  have h4 := filter_notAngle_tag name [] (fun c hc => ⟨(hf c hc).1, (hf c hc).2.1⟩) (Or.inl rfl)
  rw [List.append_nil] at h4
  rw [h4]
  exact first_word_of_name name hne (fun c hc => ⟨(hf c hc).2.2.2.1, (hf c hc).2.2.2.2.2⟩)

theorem extractValue_rest_form (name r : List Char) (hne : name ≠ [])
    (hname : ∀ c ∈ name, isNameChar c = true) (hr : ∀ c ∈ r, c ≠ '<' ∧ c ≠ '>') :
    (Token.mk ('<' :: (name ++ ' ' :: (r ++ ['>'])))).extractValue = name := by
  have hf := fun c hc => nameChar_facts c (hname c hc)
  have htag : (Token.mk ('<' :: (name ++ ' ' :: (r ++ ['>'])))).isTag = true := by
    have := isTag_of_tag_text (name ++ ' ' :: r)
    simpa using this
  have hlt : '<' ∉ name ++ ' ' :: (r ++ ['>']) := by
    intro h
    rcases List.mem_append.1 h with h | h
    · exact (hf _ h).1 rfl
    · rcases List.mem_cons.1 h with h | h
      · exact absurd h (by decide)
      · rcases List.mem_append.1 h with h | h
        · exact (hr _ h).1 rfl
        · simp at h
  have hfinish : ∀ w tail, (∀ c ∈ w, c ≠ '<' ∧ c ≠ '>') → (tail = [] ∨ tail = ['>']) →
      (Split (TrimSpace (ReplaceAll (ReplaceAll ('<' :: ((name ++ ' ' :: w) ++ tail))
        [SpecialCharLessThan] []) [SpecialCharGreaterThan] [])) ' ').headD [] = name := by
    intro w tail hw htail
    rw [strip_angles, filter_notAngle_tag (name ++ ' ' :: w) tail (by
      intro c hc
      rcases List.mem_append.1 hc with hc | hc
      · exact ⟨(hf c hc).1, (hf c hc).2.1⟩
      · rcases List.mem_cons.1 hc with rfl | hc
        · exact ⟨by decide, by decide⟩
        · exact hw c hc) htail]
    exact first_word_of_name_rest name w hne
      (fun c hc => ⟨(hf c hc).2.2.2.1, (hf c hc).2.2.2.2.2⟩)
  rw [extractValue_of_isTag _ htag,
    replace_closing_none _ (name_head_not_slash name hne hname _) hlt]
  have hgt : ∀ w, (∀ c ∈ w, c ≠ '<' ∧ c ≠ '>') → '>' ∉ '<' :: (name ++ ' ' :: w) := by
    intro w hw h
    rcases List.mem_cons.1 h with h | h
    · exact absurd h (by decide)
    · rcases List.mem_append.1 h with h | h
      · exact (hf _ h).2.1 rfl
      · rcases List.mem_cons.1 h with h | h
        · exact absurd h (by decide)
        · exact (hw _ h).2 rfl
  by_cases hlast : ('<' :: (name ++ ' ' :: r)).getLast? = some '/'
  · obtain ⟨ys, hys⟩ := List.getLast?_eq_some_iff.1 hlast
    rcases List.eq_nil_or_concat r with rfl | ⟨r0, e, rfl⟩
    · exfalso
      have h1 : ('<' :: name) ++ [' '] = ys ++ ['/'] := by
        rw [← hys]
        simp
      exact absurd (last_eq_of_concat_eq _ _ _ _ h1) (by decide)
    · rw [List.concat_eq_append] at hys hr ⊢
      have h1 : ('<' :: (name ++ ' ' :: r0)) ++ [e] = ys ++ ['/'] := by
        rw [← hys]
        simp
      have he := last_eq_of_concat_eq _ _ _ _ h1
      subst he
      have hr0 : ∀ c ∈ r0, c ≠ '<' ∧ c ≠ '>' := fun c hc => hr c (by simp [hc])
      have h2 := replace_selfClosing_end ('<' :: (name ++ ' ' :: r0)) (hgt r0 hr0)
      have e1 : '<' :: (name ++ ' ' :: (r0 ++ ['/'] ++ ['>'])) =
          ('<' :: (name ++ ' ' :: r0)) ++ ['/', '>'] := by simp
      rw [e1, h2]
      have h3 := hfinish r0 [] hr0 (Or.inl rfl)
      rw [List.append_nil] at h3
      exact h3
  · have h2 := replace_selfClosing_none ('<' :: (name ++ ' ' :: r)) (hgt r hr) hlast
    have e1 : '<' :: (name ++ ' ' :: (r ++ ['>'])) = ('<' :: (name ++ ' ' :: r)) ++ ['>'] := by
      simp
    rw [e1, h2]
    have h3 := hfinish r ['>'] hr (Or.inr rfl)
    simpa using h3

/-! ## Claims C19 and C13 -/

/-- Claim C19: for every non-empty name over letters, digits, `_`, `-`, `.`, `:` and every
string `r` over the character set of tags, `extractValue` of `<name>`, of `</name>`, of
`<name/>` and of `<name r>` is the name; for a token that is not a tag `extractValue` is
the text of the token, unchanged. -/
theorem extractValue_bare_name (name r : List Char) (hne : name ≠ [])
    (hname : ∀ c ∈ name, isNameChar c = true) (hr : ∀ c ∈ r, isTagChar c = true) :
    (Token.mk ("<".toList ++ name ++ ">".toList)).extractValue = name ∧
    (Token.mk ("</".toList ++ name ++ ">".toList)).extractValue = name ∧
    (Token.mk ("<".toList ++ name ++ "/>".toList)).extractValue = name ∧
    (Token.mk ("<".toList ++ name ++ " ".toList ++ r ++ ">".toList)).extractValue = name ∧
    ∀ t : Token, t.isTag = false → t.extractValue = t.value := by
  refine ⟨?_, ?_, ?_, ?_, ?_⟩
  · exact extractValue_opening_form name hne hname
  · exact extractValue_closing_form name hne hname
  · exact extractValue_selfClosing_form name hne hname
  · have h := extractValue_rest_form name r hne hname (fun c hc => tagChar_not_angle c (hr c hc))
    have e : "<".toList ++ name ++ " ".toList ++ r ++ ">".toList =
        '<' :: (name ++ ' ' :: (r ++ ['>'])) := by
      simp
    rw [e]
    exact h
  · intro t ht
    unfold Token.extractValue
    simp [ht]

/-- The claim C19 at the name `say-as` with the rest `interpret-as="date" /`. -/
theorem extractValue_bare_name_witness :
    (Token.mk ("<".toList ++ "say-as".toList ++ ">".toList)).extractValue = "say-as".toList ∧
    (Token.mk ("</".toList ++ "say-as".toList ++ ">".toList)).extractValue = "say-as".toList ∧
    (Token.mk ("<".toList ++ "say-as".toList ++ "/>".toList)).extractValue = "say-as".toList ∧
    (Token.mk ("<".toList ++ "say-as".toList ++ " ".toList ++
        "interpret-as=\"date\" /".toList ++ ">".toList)).extractValue = "say-as".toList ∧
    ∀ t : Token, t.isTag = false → t.extractValue = t.value :=
  extractValue_bare_name "say-as".toList "interpret-as=\"date\" /".toList (by decide)
    (by decide) (by decide)

theorem replicate_space_facts (k : Nat) :
    ∀ c ∈ List.replicate k ' ', c = ' ' := by
  intro c hc
  exact (List.mem_replicate.1 hc).2

/-- Claim C13: for every non-empty name of letters and digits and every `k`, the token
`<`, name, `k` spaces, `>` is an opening tag, not a closing tag and not a self-closing
tag; `extractValue` gives the name and `ParseAttributes` the empty list. -/
theorem whitespace_collapse (name : List Char) (k : Nat) (hne : name ≠ [])
    (hname : ∀ c ∈ name, c.isAlphanum = true) :
    (Token.mk ("<".toList ++ name ++ List.replicate k ' ' ++ ">".toList)).isOpeningTag = true ∧
    (Token.mk ("<".toList ++ name ++ List.replicate k ' ' ++ ">".toList)).isClosingTag = false ∧
    (Token.mk ("<".toList ++ name ++ List.replicate k ' ' ++ ">".toList)).isSelfClosingTag
      = false ∧
    (Token.mk ("<".toList ++ name ++ List.replicate k ' ' ++ ">".toList)).extractValue = name ∧
    ParseAttributes ("<".toList ++ name ++ List.replicate k ' ' ++ ">".toList) = .ok [] := by
  have hnc : ∀ c ∈ name, isNameChar c = true := fun c hc => alnum_isNameChar c (hname c hc)
  have hf := fun c hc => nameChar_facts c (hnc c hc)
  have e : "<".toList ++ name ++ List.replicate k ' ' ++ ">".toList =
      '<' :: ((name ++ List.replicate k ' ') ++ ['>']) := by
    simp
  have hy : ∀ c ∈ name ++ List.replicate k ' ', c ≠ '/' ∧ c ≠ '=' ∧ c ≠ '<' ∧ c ≠ '>' := by
    intro c hc
    rcases List.mem_append.1 hc with hc | hc
    · exact ⟨(hf c hc).2.2.1, (hf c hc).2.2.2.2.1, (hf c hc).1, (hf c hc).2.1⟩
    · rw [replicate_space_facts k c hc]
      exact ⟨by decide, by decide, by decide, by decide⟩
  have hclose : (Token.mk ('<' :: ((name ++ List.replicate k ' ') ++ ['>']))).isClosingTag
      = false := by
    cases name with
    | nil => exact absurd rfl hne
    | cons a name =>
      have ha : a ≠ '/' := (hf a (List.mem_cons_self _ _)).2.2.1
      simp [Token.isClosingTag, HasPrefix, SpecialStrClosingTag, List.isPrefixOf, Ne.symm ha]
  have hself : (Token.mk ('<' :: ((name ++ List.replicate k ' ') ++ ['>']))).isSelfClosingTag
      = false := by
    have hyne : name ++ List.replicate k ' ' ≠ [] := by
      simp [hne]
    cases hrev : (name ++ List.replicate k ' ').reverse with
    | nil => simp [hne] at hrev
    | cons d ds =>
      have hd : d ≠ '/' := by
        have : d ∈ name ++ List.replicate k ' ' := by
          rw [← List.mem_reverse, hrev]
          exact List.mem_cons_self _ _
        exact (hy d this).1
      unfold Token.isSelfClosingTag HasSuffix
      simp only [List.reverse_cons, List.reverse_append, List.reverse_nil, List.nil_append,
        List.singleton_append]
      rw [← List.reverse_append, hrev]
      simp [SpecialStrSelfClosingTag, List.isPrefixOf, Ne.symm hd]
  have htag := isTag_of_tag_text (name ++ List.replicate k ' ')
  rw [e]
  refine ⟨?_, hclose, hself, ?_, ?_⟩
  · unfold Token.isTag at htag
    rw [hclose, hself] at htag
    simpa using htag
  · cases k with
    | zero =>
      simp only [List.replicate_zero, List.append_nil]
      exact extractValue_opening_form name hne hnc
    | succ k =>
      have h := extractValue_rest_form name (List.replicate k ' ') hne hnc (by
        intro c hc
        rw [replicate_space_facts k c hc]
        exact ⟨by decide, by decide⟩)
      have e2 : '<' :: ((name ++ List.replicate (k + 1) ' ') ++ ['>']) =
          '<' :: (name ++ ' ' :: (List.replicate k ' ' ++ ['>'])) := by
        simp [List.replicate_succ]
      rw [e2]
      exact h
  · have hno : '=' ∉ '<' :: ((name ++ List.replicate k ' ') ++ ['>']) := by
      intro h
      rcases List.mem_cons.1 h with h | h
      · exact absurd h (by decide)
      · rcases List.mem_append.1 h with h | h
        · exact (hy _ h).2.1 rfl
        · simp at h
    unfold ParseAttributes
    rw [tokenizeAttributes_of_no_eq _ hno]
    rfl

/-- The claim C13 at its witness `<speak      >`. -/
theorem whitespace_collapse_witness :
    (Token.mk ("<".toList ++ "speak".toList ++ List.replicate 6 ' ' ++ ">".toList)).isOpeningTag
      = true ∧
    (Token.mk ("<".toList ++ "speak".toList ++ List.replicate 6 ' ' ++ ">".toList)).isClosingTag
      = false ∧
    (Token.mk ("<".toList ++ "speak".toList ++ List.replicate 6 ' ' ++
      ">".toList)).isSelfClosingTag = false ∧
    (Token.mk ("<".toList ++ "speak".toList ++ List.replicate 6 ' ' ++ ">".toList)).extractValue
      = "speak".toList ∧
    ParseAttributes ("<".toList ++ "speak".toList ++ List.replicate 6 ' ' ++ ">".toList) =
      .ok [] :=
  whitespace_collapse "speak".toList 6 (by decide) (by decide)

/-! ## Claim C15: the order of the three escapes -/

theorem replaceAll_prefix_reflect (old new1 : List Char) (n : Char) (hold : old ≠ []) :
    ∀ (p x : List Char), n ∉ p → p <+: ReplaceAll x old (n :: new1) → p <+: x := by
  intro p
  induction p with
  | nil => intro x _ _; exact List.nil_prefix
  | cons d p ih =>
    intro x hn hpre
    simp only [List.mem_cons, not_or] at hn
    cases x with
    | nil =>
      rw [replaceAll_nil _ _ hold] at hpre
      simp at hpre
    | cons e x =>
      cases hp : old.isPrefixOf (e :: x) with
      | true =>
        rw [replaceAll_cons_match _ _ _ _ hold hp] at hpre
        simp only [List.cons_append, List.cons_prefix_cons] at hpre
        exact absurd hpre.1.symm hn.1
      | false =>
        rw [replaceAll_cons_skip _ _ _ _ hold hp] at hpre
        rw [List.cons_prefix_cons] at hpre ⊢
        exact ⟨hpre.1, ih x hn.2 hpre.2⟩

theorem lt_match (y : List Char) :
    ReplaceAll (SpecialStrLessThan ++ y) SpecialStrLessThan [SpecialCharLessThan] =
      SpecialCharLessThan :: ReplaceAll y SpecialStrLessThan [SpecialCharLessThan] := by
  have h := replaceAll_cons_match '&' (['l', 't', ';'] ++ y) SpecialStrLessThan
    [SpecialCharLessThan] (by decide) (by simp [SpecialStrLessThan, List.isPrefixOf])
  simpa [SpecialStrLessThan] using h

theorem gt_match (y : List Char) :
    ReplaceAll (SpecialStrGreaterThan ++ y) SpecialStrGreaterThan [SpecialCharGreaterThan] =
      SpecialCharGreaterThan :: ReplaceAll y SpecialStrGreaterThan [SpecialCharGreaterThan] := by
  have h := replaceAll_cons_match '&' (['g', 't', ';'] ++ y) SpecialStrGreaterThan
    [SpecialCharGreaterThan] (by decide) (by simp [SpecialStrGreaterThan, List.isPrefixOf])
  simpa [SpecialStrGreaterThan] using h

theorem gt_over_lt (y : List Char) :
    ReplaceAll (SpecialStrLessThan ++ y) SpecialStrGreaterThan [SpecialCharGreaterThan] =
      SpecialStrLessThan ++ ReplaceAll y SpecialStrGreaterThan [SpecialCharGreaterThan] := by
  simp only [SpecialStrLessThan, List.cons_append, List.nil_append]
  rw [replaceAll_cons_skip _ _ _ _ (by decide)
      (by simp [SpecialStrGreaterThan, List.isPrefixOf]),
    replaceAll_cons_skip _ _ _ _ (by decide)
      (by simp [SpecialStrGreaterThan, List.isPrefixOf]),
    replaceAll_cons_skip _ _ _ _ (by decide)
      (by simp [SpecialStrGreaterThan, List.isPrefixOf]),
    replaceAll_cons_skip _ _ _ _ (by decide)
      (by simp [SpecialStrGreaterThan, List.isPrefixOf])]

theorem lt_over_gt (y : List Char) :
    ReplaceAll (SpecialStrGreaterThan ++ y) SpecialStrLessThan [SpecialCharLessThan] =
      SpecialStrGreaterThan ++ ReplaceAll y SpecialStrLessThan [SpecialCharLessThan] := by
  simp only [SpecialStrGreaterThan, List.cons_append, List.nil_append]
  rw [replaceAll_cons_skip _ _ _ _ (by decide)
      (by simp [SpecialStrLessThan, List.isPrefixOf]),
    replaceAll_cons_skip _ _ _ _ (by decide)
      (by simp [SpecialStrLessThan, List.isPrefixOf]),
    replaceAll_cons_skip _ _ _ _ (by decide)
      (by simp [SpecialStrLessThan, List.isPrefixOf]),
    replaceAll_cons_skip _ _ _ _ (by decide)
      (by simp [SpecialStrLessThan, List.isPrefixOf])]

theorem not_isPrefixOf_of_reflect (old1 new1 old2 : List Char) (n c : Char) (x : List Char)
    (hold1 : old1 ≠ []) (hn : n ∉ old2.tail)
    (h : old2.isPrefixOf (c :: x) = false) :
    old2.isPrefixOf (c :: ReplaceAll x old1 (n :: new1)) = false := by
  cases hp : old2.isPrefixOf (c :: ReplaceAll x old1 (n :: new1)) with
  | false => rfl
  | true =>
    exfalso
    have hpre := List.isPrefixOf_iff_prefix.1 hp
    cases old2 with
    | nil => simp at h
    | cons a old2 =>
      rw [List.cons_prefix_cons] at hpre
      have h2 := replaceAll_prefix_reflect old1 new1 n hold1 old2 x hn hpre.2
      have : (a :: old2).isPrefixOf (c :: x) = true :=
        List.isPrefixOf_iff_prefix.2 (by rw [List.cons_prefix_cons]; exact ⟨hpre.1, h2⟩)
      rw [this] at h
      exact absurd h (by decide)

/-- Replacing `&lt;` and replacing `&gt;` commute. -/
theorem lt_gt_commute :
    ∀ (n : Nat) (s : List Char), s.length ≤ n →
      ReplaceAll (ReplaceAll s SpecialStrLessThan [SpecialCharLessThan]) SpecialStrGreaterThan
          [SpecialCharGreaterThan] =
        ReplaceAll (ReplaceAll s SpecialStrGreaterThan [SpecialCharGreaterThan])
          SpecialStrLessThan [SpecialCharLessThan] := by
  intro n
  induction n with
  | zero =>
    intro s hs
    have : s = [] := List.eq_nil_of_length_eq_zero (by omega)
    subst this
    decide
  | succ n ih =>
    intro s hs
    cases s with
    | nil => decide
    | cons c cs =>
      cases h1 : SpecialStrLessThan.isPrefixOf (c :: cs) with
      | true =>
        obtain ⟨y, hy⟩ := List.isPrefixOf_iff_prefix.1 h1
        rw [← hy, lt_match, gt_over_lt, lt_match]
        rw [replaceAll_cons_skip _ _ _ _ (by decide)
          (by simp [SpecialStrGreaterThan, SpecialCharLessThan, List.isPrefixOf])]
        rw [ih y (by
          have := congrArg List.length hy
          simp only [List.length_append, List.length_cons, SpecialStrLessThan,
            List.length_nil] at this hs
          omega)]
      | false =>
        cases h2 : SpecialStrGreaterThan.isPrefixOf (c :: cs) with
        | true =>
          obtain ⟨y, hy⟩ := List.isPrefixOf_iff_prefix.1 h2
          rw [← hy, gt_match, lt_over_gt, gt_match]
          rw [replaceAll_cons_skip _ _ _ _ (by decide)
            (by simp [SpecialStrLessThan, SpecialCharGreaterThan, List.isPrefixOf])]
          rw [ih y (by
            have := congrArg List.length hy
            simp only [List.length_append, List.length_cons, SpecialStrGreaterThan,
              List.length_nil] at this hs
            omega)]
        | false =>
          rw [replaceAll_cons_skip _ _ _ _ (by decide) h1,
            replaceAll_cons_skip _ _ _ _ (by decide) h2,
            replaceAll_cons_skip _ _ _ _ (by decide)
              (not_isPrefixOf_of_reflect SpecialStrLessThan [] SpecialStrGreaterThan
                SpecialCharLessThan c cs (by decide) (by decide) h2),
            replaceAll_cons_skip _ _ _ _ (by decide)
              (not_isPrefixOf_of_reflect SpecialStrGreaterThan [] SpecialStrLessThan
                SpecialCharGreaterThan c cs (by decide) (by decide) h1),
            ih cs (by simpa using hs)]

/-- Claim C15, as stated, fails: on `&amp;lt;` the implemented order (`&lt;`, `&gt;`,
`&amp;`) gives `&lt;`, the order (`&amp;`, `&lt;`, `&gt;`) gives `<`. -/
theorem escapes_order_matters :
    replaceEscapes [escapeLessThan, escapeGreaterThan, escapeAmpersand] "&amp;lt;".toList =
      "&lt;".toList ∧
    replaceEscapes [escapeAmpersand, escapeLessThan, escapeGreaterThan] "&amp;lt;".toList =
      "<".toList := by
  decide

/-- Claim C15, amended: the implemented order is the one of `tokenize`; for every string
the two orders that replace `&amp;` last (`&lt;`, `&gt;`, `&amp;` and `&gt;`, `&lt;`,
`&amp;`) give the same result; each of the four other orders differs from the implemented
one on `&amp;lt;` or on `&amp;gt;`. -/
theorem escapes_order (s : List Char) :
    tokenizeNormalize s =
      TrimSpace (replaceEscapes [escapeLessThan, escapeGreaterThan, escapeAmpersand]
        (deleteControl s)) ∧
    replaceEscapes [escapeGreaterThan, escapeLessThan, escapeAmpersand] s =
      replaceEscapes [escapeLessThan, escapeGreaterThan, escapeAmpersand] s ∧
    replaceEscapes [escapeLessThan, escapeAmpersand, escapeGreaterThan] "&amp;gt;".toList ≠
      replaceEscapes [escapeLessThan, escapeGreaterThan, escapeAmpersand] "&amp;gt;".toList ∧
    replaceEscapes [escapeAmpersand, escapeLessThan, escapeGreaterThan] "&amp;lt;".toList ≠
      replaceEscapes [escapeLessThan, escapeGreaterThan, escapeAmpersand] "&amp;lt;".toList ∧
    replaceEscapes [escapeAmpersand, escapeGreaterThan, escapeLessThan] "&amp;lt;".toList ≠
      replaceEscapes [escapeLessThan, escapeGreaterThan, escapeAmpersand] "&amp;lt;".toList ∧
    replaceEscapes [escapeGreaterThan, escapeAmpersand, escapeLessThan] "&amp;lt;".toList ≠
      replaceEscapes [escapeLessThan, escapeGreaterThan, escapeAmpersand] "&amp;lt;".toList := by
  refine ⟨tokenizeNormalize_eq s, ?_, by decide, by decide, by decide, by decide⟩
  simp only [replaceEscapes, List.foldl_cons, List.foldl_nil, escapeLessThan,
    escapeGreaterThan, escapeAmpersand]
  rw [lt_gt_commute s.length s (Nat.le_refl _)]

/-! ## Claim C16: name and value of an attribute -/

theorem attrNameChar_not_space (c : Char) (h : isAttrNameChar c = true) : isSpace c = false := by
  simp only [isAttrNameChar, Bool.or_eq_true, beq_iff_eq] at h
  rcases h with h | h
  · subst h; decide
  · exact alnum_not_space c h

theorem trim_name_spaces (name sp1 : List Char) (hne : name ≠ [])
    (hname : ∀ c ∈ name, isAttrNameChar c = true) (hsp : ∀ c ∈ sp1, isBlank c = true) :
    TrimSpace (name ++ sp1) = name := by
  rw [trimSpace_name_append name sp1 hne (fun c hc => attrNameChar_not_space c (hname c hc))]
  have : sp1.reverse.dropWhile isSpace = [] := by
    rw [List.dropWhile_eq_nil_iff]
    intro c hc
    rw [blank_eq_space c (hsp c (List.mem_reverse.1 hc))]
    decide
  rw [this]
  simp

/-- What the loop body of `ParseAttributes` makes of a match: the name is the name of the
match; the value is the quoted characters preceded by the spaces that stand between `=`
and the opening quote. -/
theorem parseAttribute_of_match (name sp1 sp2 val : List Char) (hne : name ≠ [])
    (h1 : ∀ c ∈ name, isAttrNameChar c = true) (h2 : ∀ c ∈ sp1, isBlank c = true)
    (h3 : ∀ c ∈ sp2, isBlank c = true) (h4 : ∀ c ∈ val, isAttrValueChar c = true) :
    parseAttribute (Token.mk (name ++ (sp1 ++ '=' :: (sp2 ++ quoteChar :: (val ++ [quoteChar])))))
      = .ok { name := name, value := sp2 ++ val } := by
  unfold parseAttribute
  simp only
  rw [split_match name sp1 sp2 val h1 h2 h3 h4]
  simp only
  rw [trim_name_spaces name sp1 hne h1 h2, replaceAll_single]
  have hf : (sp2 ++ quoteChar :: (val ++ [quoteChar])).filter (fun x => x != quoteChar) =
      sp2 ++ val := by
    have e1 : sp2.filter (fun x => x != quoteChar) = sp2 := by
      rw [List.filter_eq_self]
      intro c hc
      rw [blank_eq_space c (h3 c hc)]
      decide
    have e2 : val.filter (fun x => x != quoteChar) = val := by
      rw [List.filter_eq_self]
      intro c hc
      have : c ≠ quoteChar := by
        rintro rfl
        exact absurd (h4 _ hc) (by decide)
      simp [this]
    simp only [List.filter_append, List.filter_cons, e1, e2]
    simp
  rw [hf]

/-- Claim C16 fails on the code: for `<a b= "c">` the attribute `b` gets the value ` c`,
with the space that stands between `=` and the opening quote. -/
theorem attribute_value_keeps_space :
    ParseAttributes "<a b= \"c\">".toList = .ok [⟨"b".toList, " c".toList⟩] ∧
    ParseAttributes "<a b = \"c\">".toList = .ok [⟨"b".toList, " c".toList⟩] ∧
    ParseAttributes "<a b =\"c\">".toList = .ok [⟨"b".toList, "c".toList⟩] :=
  ⟨by rfl, by rfl, by rfl⟩

/-! ## The loop form on the heap -/

mutual
theorem reprIn_stable (heap heap1 : List HeapNode) (lo hi : Nat)
    (h : ∀ i, lo ≤ i → i < hi → heap1[i]? = heap[i]?) :
    ∀ (ptr : Nat) (t : SSMLNode), ReprIn heap lo hi ptr t → ReprIn heap1 lo hi ptr t
  | ptr, .mk a v cs => by
    intro hr
    unfold ReprIn at hr ⊢
    obtain ⟨h1, h2, cell, hc, ha, hv, hl⟩ := hr
    exact ⟨h1, h2, cell, by rw [h ptr h1 h2]; exact hc, ha, hv,
      reprListIn_stable heap heap1 lo hi h cell.children cs hl⟩
theorem reprListIn_stable (heap heap1 : List HeapNode) (lo hi : Nat)
    (h : ∀ i, lo ≤ i → i < hi → heap1[i]? = heap[i]?) :
    ∀ (ptrs : List Nat) (ts : List SSMLNode), ReprListIn heap lo hi ptrs ts →
      ReprListIn heap1 lo hi ptrs ts
  | ptrs, [] => by
    intro hr
    unfold ReprListIn at hr ⊢
    exact hr
  | ptrs, t :: ts => by
    intro hr
    unfold ReprListIn at hr ⊢
    obtain ⟨p, ps, hp, h1, h2⟩ := hr
    exact ⟨p, ps, hp, reprIn_stable heap heap1 lo hi h p t h1,
      reprListIn_stable heap heap1 lo hi h ps ts h2⟩
end

mutual
theorem reprIn_widen (heap : List HeapNode) (lo hi lo1 hi1 : Nat) (hlo : lo1 ≤ lo)
    (hhi : hi ≤ hi1) :
    ∀ (ptr : Nat) (t : SSMLNode), ReprIn heap lo hi ptr t → ReprIn heap lo1 hi1 ptr t
  | ptr, .mk a v cs => by
    intro hr
    unfold ReprIn at hr ⊢
    obtain ⟨h1, h2, cell, hc, ha, hv, hl⟩ := hr
    exact ⟨by omega, by omega, cell, hc, ha, hv,
      reprListIn_widen heap lo hi lo1 hi1 hlo hhi cell.children cs hl⟩
theorem reprListIn_widen (heap : List HeapNode) (lo hi lo1 hi1 : Nat) (hlo : lo1 ≤ lo)
    (hhi : hi ≤ hi1) :
    ∀ (ptrs : List Nat) (ts : List SSMLNode), ReprListIn heap lo hi ptrs ts →
      ReprListIn heap lo1 hi1 ptrs ts
  | ptrs, [] => by
    intro hr
    unfold ReprListIn at hr ⊢
    exact hr
  | ptrs, t :: ts => by
    intro hr
    unfold ReprListIn at hr ⊢
    obtain ⟨p, ps, hp, h1, h2⟩ := hr
    exact ⟨p, ps, hp, reprIn_widen heap lo hi lo1 hi1 hlo hhi p t h1,
      reprListIn_widen heap lo hi lo1 hi1 hlo hhi ps ts h2⟩
end

theorem size_le_nodesSize_cons (t : SSMLNode) (ts : List SSMLNode) :
    t.size ≤ nodesSize (t :: ts) ∧ nodesSize ts ≤ nodesSize (t :: ts) := by
  simp only [nodesSize]
  omega

mutual
theorem readNode_of_reprIn (heap : List HeapNode) (lo hi : Nat) :
    ∀ (ptr : Nat) (t : SSMLNode) (fuel : Nat), ReprIn heap lo hi ptr t → t.size ≤ fuel →
      readNode heap fuel ptr = .ok t
  | ptr, .mk a v cs, fuel => by
    intro hr hsize
    unfold ReprIn at hr
    obtain ⟨-, -, cell, hc, ha, hv, hl⟩ := hr
    simp only [SSMLNode.size] at hsize
    obtain ⟨fuel, rfl⟩ : ∃ k, fuel = k + 1 := ⟨fuel - 1, by omega⟩
    unfold readNode
    simp only [hc]
    rw [readNodes_of_reprListIn heap lo hi cell.children cs fuel hl (by omega), ha, hv]
theorem readNodes_of_reprListIn (heap : List HeapNode) (lo hi : Nat) :
    ∀ (ptrs : List Nat) (ts : List SSMLNode) (fuel : Nat), ReprListIn heap lo hi ptrs ts →
      nodesSize ts ≤ fuel → ptrs.mapM (readNode heap fuel) = .ok ts
  | ptrs, [], fuel => by
    intro hr _
    unfold ReprListIn at hr
    subst hr
    rfl
  | ptrs, t :: ts, fuel => by
    intro hr hsize
    unfold ReprListIn at hr
    obtain ⟨p, ps, hp, h1, h2⟩ := hr
    subst hp
    have hs := size_le_nodesSize_cons t ts
    rw [List.mapM_cons, readNode_of_reprIn heap lo hi p t fuel h1 (by omega),
      readNodes_of_reprListIn heap lo hi ps ts fuel h2 (by omega)]
    rfl
end

theorem getElem?_heapAppendChild_ne (heap : List HeapNode) (cur node i : Nat) (h : i ≠ cur) :
    (heapAppendChild heap cur node)[i]? = heap[i]? := by
  unfold heapAppendChild
  rw [List.getElem?_modify]
  cases heap[i]? with
  | none => rfl
  | some cell => simp [Ne.symm h]

theorem getElem?_heapAppendChild_eq (heap : List HeapNode) (cur node : Nat) :
    (heapAppendChild heap cur node)[cur]? =
      (heap[cur]?).map (fun cell => cell.withChildren [node]) := by
  unfold heapAppendChild
  rw [List.getElem?_modify]
  cases heap[cur]? with
  | none => rfl
  | some cell => simp [HeapNode.withChildren]

theorem length_heapAppendChild (heap : List HeapNode) (cur node : Nat) :
    (heapAppendChild heap cur node).length = heap.length := by
  unfold heapAppendChild
  exact List.length_modify _ _ _

/-- One iteration of the loop on a token that is not a closing tag. -/
theorem loopStep_eq (st : LoopState) (t : Token) (hclose : t.isClosingTag = false) :
    loopStep st t =
      if t.isOpeningTag then
        .ok { heap := (match st.current with
                | none => st.heap ++ [cellOf t]
                | some cur => heapAppendChild (st.heap ++ [cellOf t]) cur st.heap.length),
              root := (match st.root with
                | none => some st.heap.length
                | some r => some r),
              current := some st.heap.length, stack := st.stack ++ [st.current] }
      else
        .ok { heap := (match st.current with
                | none => st.heap ++ [cellOf t]
                | some cur => heapAppendChild (st.heap ++ [cellOf t]) cur st.heap.length),
              root := (match st.root with
                | none => some st.heap.length
                | some r => some r),
              current := st.current, stack := st.stack } := by
  unfold loopStep
  rw [if_neg (by rw [hclose]; decide), getNodeFromToken_eq]
  rfl

/-- One iteration of the loop on a token that is neither an opening nor a closing tag,
with a current node and a root. -/
theorem loopStep_leaf (st : LoopState) (t : Token) (cur r : Nat)
    (hopen : t.isOpeningTag = false) (hclose : t.isClosingTag = false)
    (hcur : st.current = some cur) (hroot : st.root = some r) :
    loopStep st t = .ok { heap := heapAppendChild (st.heap ++ [cellOf t]) cur st.heap.length,
                          root := some r, current := some cur, stack := st.stack } := by
  rw [loopStep_eq st t hclose, hopen, hcur, hroot]
  rfl

/-- One iteration of the loop on an opening tag, with a current node and a root. -/
theorem loopStep_opening (st : LoopState) (t : Token) (cur r : Nat)
    (hopen : t.isOpeningTag = true) (hclose : t.isClosingTag = false)
    (hcur : st.current = some cur) (hroot : st.root = some r) :
    loopStep st t = .ok { heap := heapAppendChild (st.heap ++ [cellOf t]) cur st.heap.length,
                          root := some r, current := some st.heap.length,
                          stack := st.stack ++ [some cur] } := by
  rw [loopStep_eq st t hclose, hopen, hcur, hroot]
  rfl

/-- One iteration of the loop on a closing tag, with a non-empty stack. -/
theorem loopStep_closing (st : LoopState) (t : Token) (stack : List (Option Nat))
    (top : Option Nat) (hclose : t.isClosingTag = true) (hstack : st.stack = stack ++ [top]) :
    loopStep st t = .ok { st with current := top, stack := stack } := by
  unfold loopStep
  rw [if_pos hclose, hstack, if_pos (by simp), List.getLast?_concat, List.dropLast_concat]
  rfl

theorem loopRun_append (toks rest : List Token) :
    ∀ (st st1 : LoopState), loopRun st toks = .ok st1 →
      loopRun st (toks ++ rest) = loopRun st1 rest := by
  induction toks with
  | nil =>
    intro st st1 h
    simp only [loopRun, Except.ok.injEq] at h
    subst h
    rfl
  | cons t toks ih =>
    intro st st1 h
    simp only [List.cons_append, loopRun] at h ⊢
    cases hstep : loopStep st t with
    | error e => simp [hstep] at h
    | ok st2 =>
      simp only [hstep] at h ⊢
      exact ih st2 st1 h

theorem loopRun_cons (st st1 : LoopState) (t : Token) (toks : List Token)
    (h : loopStep st t = .ok st1) : loopRun st (t :: toks) = loopRun st1 toks := by
  simp only [loopRun, h]

/-- Allocating a cell at the end of the heap and linking it to the current node. -/
theorem alloc_facts (heap : List HeapNode) (cell : HeapNode) (cur : Nat)
    (hcur : cur < heap.length) :
    (heapAppendChild (heap ++ [cell]) cur heap.length).length = heap.length + 1 ∧
    (heapAppendChild (heap ++ [cell]) cur heap.length)[heap.length]? = some cell ∧
    (heapAppendChild (heap ++ [cell]) cur heap.length)[cur]? =
      (heap[cur]?).map (fun c => c.withChildren [heap.length]) ∧
    ∀ i, i < heap.length → i ≠ cur →
      (heapAppendChild (heap ++ [cell]) cur heap.length)[i]? = heap[i]? := by
  refine ⟨?_, ?_, ?_, ?_⟩
  · rw [length_heapAppendChild]
    simp
  · rw [getElem?_heapAppendChild_ne _ _ _ _ (by omega)]
    simp
  · rw [getElem?_heapAppendChild_eq, List.getElem?_append_left hcur]
  · intro i hi hne
    rw [getElem?_heapAppendChild_ne _ _ _ _ hne, List.getElem?_append_left hi]

theorem withChildren_map_map (o : Option HeapNode) (a : Nat) (ps : List Nat) :
    (o.map (fun c => c.withChildren [a])).map (fun c => c.withChildren ps) =
      o.map (fun c => c.withChildren (a :: ps)) := by
  cases o with
  | none => rfl
  | some c => simp [HeapNode.withChildren]

theorem withChildren_nil_map (o : Option HeapNode) :
    o.map (fun c => c.withChildren []) = o := by
  cases o with
  | none => rfl
  | some c => simp [HeapNode.withChildren]

theorem cellOf_attributes (t : Token) : (cellOf t).attributes = attributesOf t := by
  unfold cellOf
  rfl

theorem cellOf_value (t : Token) : (cellOf t).value = t.extractValue := by
  simp only [cellOf]

theorem cellOf_children (t : Token) : (cellOf t).children = [] := by
  unfold cellOf
  rfl

theorem cellOf_withChildren_attributes (t : Token) (ps : List Nat) :
    ((cellOf t).withChildren ps).attributes = attributesOf t := by
  unfold HeapNode.withChildren cellOf
  rfl

theorem cellOf_withChildren_value (t : Token) (ps : List Nat) :
    ((cellOf t).withChildren ps).value = t.extractValue := by
  simp only [HeapNode.withChildren, cellOf]

theorem cellOf_withChildren_children (t : Token) (ps : List Nat) :
    ((cellOf t).withChildren ps).children = ps := by
  unfold HeapNode.withChildren cellOf
  rfl

/-- The loop on a balanced run of items, started with a current node and a root: the
items become, in order, the next children of the current node, which is current again at
the end, and the stack is as before. -/
theorem loopRun_items :
    ∀ (n : Nat) (items : List Item), (itemsTokens items).length ≤ n →
      itemsBalanced items = true →
      ∀ (st : LoopState) (cur r : Nat), st.current = some cur → st.root = some r →
        cur < st.heap.length →
        ∃ (st1 : LoopState) (ptrs : List Nat),
          loopRun st (itemsTokens items) = .ok st1 ∧
          st1.current = some cur ∧ st1.root = some r ∧ st1.stack = st.stack ∧
          st1.heap.length = st.heap.length + nodesSize (itemsMirror items) ∧
          (∀ i, i < st.heap.length → i ≠ cur → st1.heap[i]? = st.heap[i]?) ∧
          st1.heap[cur]? = (st.heap[cur]?).map (fun cell => cell.withChildren ptrs) ∧
          ReprListIn st1.heap st.heap.length st1.heap.length ptrs (itemsMirror items) := by
  intro n
  induction n with
  | zero =>
    intro items hlen _ st cur r hcur hroot hlt
    cases items with
    | nil =>
      refine ⟨st, [], rfl, hcur, hroot, rfl, by simp [itemsMirror, nodesSize],
        fun _ _ _ => rfl, (withChildren_nil_map _).symm, ?_⟩
      simp [itemsMirror, ReprListIn]
    | cons item rest =>
      cases item <;> simp [itemsTokens, Item.tokens] at hlen
  | succ n ih =>
    intro items hlen hbal st cur r hcur hroot hlt
    cases items with
    | nil =>
      refine ⟨st, [], rfl, hcur, hroot, rfl, by simp [itemsMirror, nodesSize],
        fun _ _ _ => rfl, (withChildren_nil_map _).symm, ?_⟩
      simp [itemsMirror, ReprListIn]
    | cons item rest =>
      cases item with
      | leaf token =>
        simp only [itemsBalanced, Item.balanced, Bool.and_eq_true, Bool.not_eq_true'] at hbal
        obtain ⟨⟨hopen, hclose⟩, hrest⟩ := hbal
        simp only [itemsTokens, Item.tokens, List.singleton_append, List.length_cons] at hlen
        obtain ⟨hA, hB, hC, hD⟩ := alloc_facts st.heap (cellOf token) cur hlt
        have hstep := loopStep_leaf st token cur r hopen hclose hcur hroot
        obtain ⟨st1, ptrs, hrun, hcur1, hroot1, hstack1, hlen1, hold1, hcell1, hrepr1⟩ :=
          ih rest (by omega) hrest
            { heap := heapAppendChild (st.heap ++ [cellOf token]) cur st.heap.length,
              root := some r, current := some cur, stack := st.stack } cur r rfl rfl (by
            show cur < (heapAppendChild (st.heap ++ [cellOf token]) cur st.heap.length).length
            omega)
        simp only at hrun hstack1 hlen1 hold1 hcell1 hrepr1
        refine ⟨st1, st.heap.length :: ptrs, ?_, hcur1, hroot1, hstack1, ?_, ?_, ?_, ?_⟩
        · simp only [itemsTokens, Item.tokens, List.singleton_append]
          rw [loopRun_cons _ _ _ _ hstep, hrun]
        · rw [hlen1, hA]
          simp only [itemsMirror, Item.mirror, nodesSize, SSMLNode.size]
          omega
        · intro i hi hne
          rw [hold1 i (by omega) hne, hD i hi hne]
        · rw [hcell1, hC, withChildren_map_map]
        · simp only [itemsMirror, Item.mirror]
          unfold ReprListIn
          refine ⟨st.heap.length, ptrs, rfl, ?_, ?_⟩
          · unfold ReprIn
            refine ⟨Nat.le_refl _, by omega, cellOf token, ?_, cellOf_attributes _,
              cellOf_value _, ?_⟩
            · rw [hold1 _ (by omega) (by omega), hB]
            · rw [cellOf_children]
              unfold ReprListIn
              rfl
          · exact reprListIn_widen _ _ _ _ _ (by omega) (Nat.le_refl _) _ _ hrepr1
      | elem opening its cl =>
        simp only [itemsBalanced, Item.balanced, Bool.and_eq_true] at hbal
        obtain ⟨⟨⟨hopen, hcl⟩, hits⟩, hrest⟩ := hbal
        simp only [itemsTokens, Item.tokens, List.length_cons, List.cons_append,
          List.length_append, List.length_nil] at hlen
        have hnc := opening_not_closing _ hopen
        obtain ⟨hA, hB, hC, hD⟩ := alloc_facts st.heap (cellOf opening) cur hlt
        have hstep := loopStep_opening st opening cur r hopen hnc hcur hroot
        -- the items of the element, under the new node
        obtain ⟨st2, ptrsIn, hrun2, hcur2, hroot2, hstack2, hlen2, hold2, hcell2, hrepr2⟩ :=
          ih its (by omega) hits
            { heap := heapAppendChild (st.heap ++ [cellOf opening]) cur st.heap.length,
              root := some r, current := some st.heap.length,
              stack := st.stack ++ [some cur] } st.heap.length r rfl rfl (by
            show st.heap.length <
              (heapAppendChild (st.heap ++ [cellOf opening]) cur st.heap.length).length
            omega)
        simp only at hrun2 hstack2 hlen2 hold2 hcell2 hrepr2
        -- the closing tag pops the parent
        have hstep3 := loopStep_closing st2 cl st.stack (some cur) hcl hstack2
        -- the rest of the items, under the parent again
        obtain ⟨st4, ptrsRest, hrun4, hcur4, hroot4, hstack4, hlen4, hold4, hcell4, hrepr4⟩ :=
          ih rest (by omega) hrest { st2 with current := some cur, stack := st.stack } cur r
            rfl hroot2 (by
              show cur < st2.heap.length
              omega)
        simp only at hrun4 hstack4 hlen4 hold4 hcell4 hrepr4
        have hsize : nodesSize (itemsMirror (Item.elem opening its cl :: rest)) =
            1 + nodesSize (itemsMirror its) + nodesSize (itemsMirror rest) := by
          simp only [itemsMirror, Item.mirror, nodesSize, SSMLNode.size]
        refine ⟨st4, st.heap.length :: ptrsRest, ?_, hcur4, hroot4, hstack4, ?_, ?_, ?_, ?_⟩
        · simp only [itemsTokens, Item.tokens, List.cons_append, List.append_assoc]
          rw [loopRun_cons _ _ _ _ hstep, loopRun_append _ _ _ _ hrun2]
          rw [loopRun_cons _ _ _ _ hstep3]
          exact hrun4
        · rw [hsize, hlen4, hlen2, hA]
          omega
        · intro i hi hne
          rw [hold4 i (by omega) hne, hold2 i (by omega) (by omega), hD i hi hne]
        · rw [hcell4, hold2 cur (by omega) (by omega), hC, withChildren_map_map]
        · simp only [itemsMirror, Item.mirror]
          unfold ReprListIn
          refine ⟨st.heap.length, ptrsRest, rfl, ?_, ?_⟩
          · unfold ReprIn
            refine ⟨Nat.le_refl _, by omega, (cellOf opening).withChildren ptrsIn, ?_,
              cellOf_withChildren_attributes _ _, cellOf_withChildren_value _ _, ?_⟩
            · rw [hold4 _ (by omega) (by omega), hcell2, hB, Option.map_some']
            · have hstable : ReprListIn st4.heap (st.heap.length + 1) st2.heap.length ptrsIn
                  (itemsMirror its) := by
                apply reprListIn_stable st2.heap st4.heap _ _ _ _ _
                · rw [hA] at hrepr2
                  exact hrepr2
                · intro i h1 h2
                  exact hold4 i h2 (by omega)
              have hw := reprListIn_widen _ _ _ st.heap.length st4.heap.length (by omega)
                (by omega) _ _ hstable
              rw [cellOf_withChildren_children]
              exact hw
          · exact reprListIn_widen _ _ _ _ _ (by omega) (Nat.le_refl _) _ _ hrepr4

mutual
theorem item_nonclosing_count :
    ∀ (item : Item), item.balanced = true →
      (item.tokens.filter (fun t => !t.isClosingTag)).length = item.mirror.size
  | .leaf token => by
    intro h
    simp only [Item.balanced, Bool.and_eq_true, Bool.not_eq_true'] at h
    simp [Item.tokens, Item.mirror, SSMLNode.size, nodesSize, h.2]
  | .elem opening items closing => by
    intro h
    simp only [Item.balanced, Bool.and_eq_true] at h
    have hnc := opening_not_closing _ h.1.1
    have ih := items_nonclosing_count items h.2
    simp only [Item.tokens, Item.mirror, SSMLNode.size, List.filter_cons, hnc, Bool.not_false,
      if_true, List.filter_append, h.1.2, Bool.not_true, Bool.false_eq_true, if_false,
      List.filter_nil, List.append_nil, List.length_cons, ih]
    omega
theorem items_nonclosing_count :
    ∀ (items : List Item), itemsBalanced items = true →
      ((itemsTokens items).filter (fun t => !t.isClosingTag)).length =
        nodesSize (itemsMirror items)
  | [] => by
    intro _
    rfl
  | item :: rest => by
    intro h
    simp only [itemsBalanced, Bool.and_eq_true] at h
    simp only [itemsTokens, itemsMirror, nodesSize, List.filter_append, List.length_append,
      item_nonclosing_count item h.1, items_nonclosing_count rest h.2]
end

/-- Claim C20: for every balanced token sequence (a root element with an opening tag and a
closing tag; items that are leaves, neither opening nor closing tags, or elements, which
may be empty), `constructSSMLTree` returns the tree that mirrors the nesting, with the
children in document order and every item a child of its element, and the tree has one
node per token that is not a closing tag. -/
theorem constructSSMLTree_mirrors_nesting (opening closing : Token) (items : List Item)
    (hopen : opening.isOpeningTag = true) (hclose : closing.isClosingTag = true)
    (hbal : itemsBalanced items = true) :
    constructSSMLTree (Item.elem opening items closing).tokens =
      .ok (some (Item.elem opening items closing).mirror) ∧
    (Item.elem opening items closing).mirror.size =
      ((Item.elem opening items closing).tokens.filter (fun t => !t.isClosingTag)).length := by
  constructor
  · have hnc := opening_not_closing _ hopen
    have hstep1 : loopStep { heap := [], root := none, current := none, stack := [] } opening =
        .ok { heap := [cellOf opening], root := some 0, current := some 0, stack := [none] } := by
      rw [loopStep_eq _ _ hnc, hopen]
      rfl
    obtain ⟨st2, ptrs, hrun2, hcur2, hroot2, hstack2, hlen2, -, hcell2, hrepr2⟩ :=
      loopRun_items (itemsTokens items).length items (Nat.le_refl _) hbal
        { heap := [cellOf opening], root := some 0, current := some 0, stack := [none] } 0 0
        rfl rfl (by simp)
    simp only [List.length_cons, List.length_nil, Nat.zero_add, List.getElem?_cons_zero,
      Option.map_some'] at hlen2 hcell2 hrepr2 hstack2
    have hstep3 := loopStep_closing st2 closing [] none hclose hstack2
    have hrun : loopRun { heap := [], root := none, current := none, stack := [] }
        (Item.elem opening items closing).tokens =
        .ok { st2 with current := none, stack := [] } := by
      simp only [Item.tokens]
      rw [loopRun_cons _ _ _ _ hstep1, loopRun_append _ _ _ _ hrun2,
        loopRun_cons _ _ _ _ hstep3]
      rfl
    have hrepr : ReprIn st2.heap 0 st2.heap.length 0 (Item.elem opening items closing).mirror := by
      simp only [Item.mirror]
      unfold ReprIn
      refine ⟨Nat.le_refl _, by omega, (cellOf opening).withChildren ptrs, hcell2,
        cellOf_withChildren_attributes _ _, cellOf_withChildren_value _ _, ?_⟩
      rw [cellOf_withChildren_children]
      exact reprListIn_widen _ _ _ _ _ (by omega) (Nat.le_refl _) _ _ hrepr2
    have hread := readNode_of_reprIn st2.heap 0 st2.heap.length 0 _ (st2.heap.length + 1) hrepr
      (by
        simp only [Item.mirror, SSMLNode.size]
        omega)
    unfold constructSSMLTree
    rw [hrun]
    simp only [hroot2, hread]
  · have h := items_nonclosing_count items hbal
    have hnc := opening_not_closing _ hopen
    simp only [Item.tokens, Item.mirror, SSMLNode.size, List.filter_cons, hnc, Bool.not_false,
      if_true, List.filter_append, hclose, Bool.not_true, Bool.false_eq_true, if_false,
      List.filter_nil, List.append_nil, List.length_cons, h]
    omega

/-- The claim C20 at `<a><b></b>x</a>`: the empty element `b` keeps its sibling `x` under
`a`. -/
theorem constructSSMLTree_mirrors_nesting_witness :
    constructSSMLTree [tok "<a>", tok "<b>", tok "</b>", tok "x", tok "</a>"] =
      .ok (some (.mk [] ['a'] [.mk [] ['b'] [], .mk [] ['x'] []])) :=
  (constructSSMLTree_mirrors_nesting (tok "<a>") (tok "</a>")
    [.elem (tok "<b>") [] (tok "</b>"), .leaf (tok "x")] (by decide) (by decide) (by decide)).1

/-! ## Claim C21: escaped angle brackets are read as markup -/

theorem escapeAngles_nil : escapeAngles [] = [] := rfl

theorem escapeAngles_cons (c : Char) (s : List Char) :
    escapeAngles (c :: s) = escapeChar c ++ escapeAngles s := by
  simp [escapeAngles]

theorem escapeAngles_append (s t : List Char) :
    escapeAngles (s ++ t) = escapeAngles s ++ escapeAngles t := by
  simp [escapeAngles]

theorem escapeChar_lt : escapeChar SpecialCharLessThan = SpecialStrLessThan := by decide

theorem escapeChar_gt : escapeChar SpecialCharGreaterThan = SpecialStrGreaterThan := by decide

theorem escapeChar_other (c : Char) (h1 : c ≠ SpecialCharLessThan)
    (h2 : c ≠ SpecialCharGreaterThan) : escapeChar c = [c] := by
  unfold escapeChar
  rw [if_neg h1, if_neg h2]

theorem escapeChar_head (c : Char) :
    escapeChar c = [c] ∨ ∃ t, escapeChar c = SpecialCharAmpersand :: t := by
  by_cases h1 : c = SpecialCharLessThan
  · subst h1; exact Or.inr ⟨_, rfl⟩
  · by_cases h2 : c = SpecialCharGreaterThan
    · subst h2; exact Or.inr ⟨_, rfl⟩
    · exact Or.inl (escapeChar_other c h1 h2)

/-- Escaping the angle brackets of a string commutes with deleting its tabs, line feeds
and carriage returns. -/
theorem deleteControl_escapeAngles (s : List Char) :
    deleteControl (escapeAngles s) = escapeAngles (deleteControl s) := by
  induction s with
  | nil => rfl
  | cons c s ih =>
    have happ : ∀ a b : List Char,
        deleteControl (a ++ b) = deleteControl a ++ deleteControl b := by
      intro a b; simp [deleteControl]
    have hcons : deleteControl (c :: s) =
        (if (c != SpecialCharTab && c != SpecialCharNewLine &&
          c != SpecialCharCarriageReturn) = true then c :: deleteControl s
        else deleteControl s) := by
      simp only [deleteControl, List.filter_cons]
    rw [escapeAngles_cons, happ, ih, hcons]
    by_cases h1 : c = SpecialCharLessThan
    · subst h1
      rw [if_pos (by decide), escapeAngles_cons]
      congr 1
    · by_cases h2 : c = SpecialCharGreaterThan
      · subst h2
        rw [if_pos (by decide), escapeAngles_cons]
        congr 1
      · rw [escapeChar_other c h1 h2]
        by_cases hk : (c != SpecialCharTab && c != SpecialCharNewLine &&
            c != SpecialCharCarriageReturn) = true
        · rw [if_pos hk, escapeAngles_cons, escapeChar_other c h1 h2]
          simp [deleteControl, hk]
        · rw [if_neg hk]
          simp [deleteControl, hk]

/-- A string without `&` that starts the escaped string starts the string itself. -/
theorem escapeAngles_prefix_reflect :
    ∀ (p x : List Char), SpecialCharAmpersand ∉ p → p <+: escapeAngles x → p <+: x := by
  intro p
  induction p with
  | nil => intro x _ _; exact List.nil_prefix
  | cons d p ih =>
    intro x hn hpre
    simp only [List.mem_cons, not_or] at hn
    cases x with
    | nil => simp [escapeAngles_nil] at hpre
    | cons e x =>
      rw [escapeAngles_cons] at hpre
      rcases escapeChar_head e with h | ⟨t, h⟩
      · rw [h, List.singleton_append, List.cons_prefix_cons] at hpre
        rw [List.cons_prefix_cons]
        exact ⟨hpre.1, ih x hn.2 hpre.2⟩
      · rw [h, List.cons_append, List.cons_prefix_cons] at hpre
        exact absurd hpre.1.symm hn.1

theorem not_isPrefixOf_escapeAngles (old : List Char) (c : Char) (x : List Char)
    (hn : SpecialCharAmpersand ∉ old.tail) (h : old.isPrefixOf (c :: x) = false) :
    old.isPrefixOf (c :: escapeAngles x) = false := by
  cases hp : old.isPrefixOf (c :: escapeAngles x) with
  | false => rfl
  | true =>
    exfalso
    have hpre := List.isPrefixOf_iff_prefix.1 hp
    cases old with
    | nil => simp at h
    | cons a old =>
      rw [List.cons_prefix_cons] at hpre
      have h2 := escapeAngles_prefix_reflect old x hn hpre.2
      have : (a :: old).isPrefixOf (c :: x) = true :=
        List.isPrefixOf_iff_prefix.2 (by rw [List.cons_prefix_cons]; exact ⟨hpre.1, h2⟩)
      rw [this] at h
      exact absurd h (by decide)

/-- After the replacements of `&lt;` and `&gt;`, the escaped string and the string itself
are the same. -/
theorem unescape_escapeAngles :
    ∀ (n : Nat) (s : List Char), s.length ≤ n →
      ReplaceAll (ReplaceAll (escapeAngles s) SpecialStrLessThan [SpecialCharLessThan])
          SpecialStrGreaterThan [SpecialCharGreaterThan] =
        ReplaceAll (ReplaceAll s SpecialStrLessThan [SpecialCharLessThan])
          SpecialStrGreaterThan [SpecialCharGreaterThan] := by
  intro n
  induction n with
  | zero =>
    intro s hs
    have : s = [] := List.eq_nil_of_length_eq_zero (by omega)
    subst this
    rfl
  | succ n ih =>
    intro s hs
    cases s with
    | nil => rfl
    | cons c cs =>
      have hcs : cs.length ≤ n := by simpa using hs
      by_cases hlt : c = SpecialCharLessThan
      · subst hlt
        rw [escapeAngles_cons, escapeChar_lt, lt_match]
        rw [replaceAll_cons_skip SpecialCharLessThan cs SpecialStrLessThan _ (by decide)
          (by simp [SpecialStrLessThan, SpecialCharLessThan, List.isPrefixOf])]
        rw [replaceAll_cons_skip _ _ SpecialStrGreaterThan _ (by decide)
          (by simp [SpecialStrGreaterThan, SpecialCharLessThan, List.isPrefixOf])]
        rw [replaceAll_cons_skip _ _ SpecialStrGreaterThan _ (by decide)
          (by simp [SpecialStrGreaterThan, SpecialCharLessThan, List.isPrefixOf])]
        rw [ih cs hcs]
      · by_cases hgt : c = SpecialCharGreaterThan
        · subst hgt
          rw [escapeAngles_cons, escapeChar_gt, lt_over_gt, gt_match]
          rw [replaceAll_cons_skip SpecialCharGreaterThan cs SpecialStrLessThan _ (by decide)
            (by simp [SpecialStrLessThan, SpecialCharGreaterThan, List.isPrefixOf])]
          rw [replaceAll_cons_skip _ _ SpecialStrGreaterThan _ (by decide)
            (by simp [SpecialStrGreaterThan, SpecialCharGreaterThan, List.isPrefixOf])]
          rw [ih cs hcs]
        · cases h1 : SpecialStrLessThan.isPrefixOf (c :: cs) with
          | true =>
            obtain ⟨y, hy⟩ := List.isPrefixOf_iff_prefix.1 h1
            have hlen : y.length ≤ n := by
              have := congrArg List.length hy
              simp only [List.length_append, List.length_cons, SpecialStrLessThan,
                List.length_nil] at this hs
              omega
            have hesc : escapeAngles (SpecialStrLessThan ++ y) =
                SpecialStrLessThan ++ escapeAngles y := by
              rw [escapeAngles_append]
              congr 1
            rw [← hy, hesc, lt_match, lt_match]
            rw [replaceAll_cons_skip _ _ SpecialStrGreaterThan _ (by decide)
              (by simp [SpecialStrGreaterThan, SpecialCharLessThan, List.isPrefixOf])]
            rw [replaceAll_cons_skip _ _ SpecialStrGreaterThan _ (by decide)
              (by simp [SpecialStrGreaterThan, SpecialCharLessThan, List.isPrefixOf])]
            rw [ih y hlen]
          | false =>
            cases h2 : SpecialStrGreaterThan.isPrefixOf (c :: cs) with
            | true =>
              obtain ⟨y, hy⟩ := List.isPrefixOf_iff_prefix.1 h2
              have hlen : y.length ≤ n := by
                have := congrArg List.length hy
                simp only [List.length_append, List.length_cons, SpecialStrGreaterThan,
                  List.length_nil] at this hs
                omega
              have hesc : escapeAngles (SpecialStrGreaterThan ++ y) =
                  SpecialStrGreaterThan ++ escapeAngles y := by
                rw [escapeAngles_append]
                congr 1
              rw [← hy, hesc, lt_over_gt, lt_over_gt, gt_match, gt_match]
              rw [ih y hlen]
            | false =>
              rw [escapeAngles_cons, escapeChar_other c hlt hgt, List.singleton_append]
              have h1e := not_isPrefixOf_escapeAngles SpecialStrLessThan c cs (by decide) h1
              have h2e := not_isPrefixOf_escapeAngles SpecialStrGreaterThan c cs (by decide) h2
              rw [replaceAll_cons_skip _ _ _ _ (by decide) h1e,
                replaceAll_cons_skip _ _ _ _ (by decide) h1]
              rw [replaceAll_cons_skip _ _ _ _ (by decide)
                  (not_isPrefixOf_of_reflect SpecialStrLessThan [] SpecialStrGreaterThan
                    SpecialCharLessThan c (escapeAngles cs) (by decide) (by decide) h2e),
                replaceAll_cons_skip _ _ _ _ (by decide)
                  (not_isPrefixOf_of_reflect SpecialStrLessThan [] SpecialStrGreaterThan
                    SpecialCharLessThan c cs (by decide) (by decide) h2)]
              rw [ih cs hcs]

theorem tokenizeNormalize_escapeAngles (s : List Char) :
    tokenizeNormalize (escapeAngles s) = tokenizeNormalize s := by
  rw [tokenizeNormalize_eq, tokenizeNormalize_eq, deleteControl_escapeAngles,
    unescape_escapeAngles _ _ (Nat.le_refl _)]

/-- Escaping the angle brackets with two calls of `strings.ReplaceAll`, first `<` and then
`>`, gives the same string. -/
theorem escapeAngles_eq_replaceAll (s : List Char) :
    escapeAngles s = ReplaceAll (ReplaceAll s [SpecialCharLessThan] SpecialStrLessThan)
      [SpecialCharGreaterThan] SpecialStrGreaterThan := by
  induction s with
  | nil => rfl
  | cons c s ih =>
    rw [escapeAngles_cons, ih]
    by_cases hlt : c = SpecialCharLessThan
    · subst hlt
      rw [escapeChar_lt, replaceAll_cons_match _ _ _ _ (by decide)
        (by simp [List.isPrefixOf])]
      simp only [List.length_singleton, List.drop_succ_cons, List.drop_zero]
      simp only [SpecialStrLessThan, List.cons_append, List.nil_append]
      rw [replaceAll_cons_skip _ _ _ _ (by decide)
          (by simp [SpecialCharGreaterThan, List.isPrefixOf]),
        replaceAll_cons_skip _ _ _ _ (by decide)
          (by simp [SpecialCharGreaterThan, List.isPrefixOf]),
        replaceAll_cons_skip _ _ _ _ (by decide)
          (by simp [SpecialCharGreaterThan, List.isPrefixOf]),
        replaceAll_cons_skip _ _ _ _ (by decide)
          (by simp [SpecialCharGreaterThan, List.isPrefixOf])]
    · have hskip : [SpecialCharLessThan].isPrefixOf (c :: s) = false := by
        simp [List.isPrefixOf, Ne.symm hlt]
      rw [replaceAll_cons_skip _ _ _ _ (by decide) hskip]
      by_cases hgt : c = SpecialCharGreaterThan
      · subst hgt
        rw [escapeChar_gt, replaceAll_cons_match _ _ _ _ (by decide)
          (by simp [List.isPrefixOf])]
        simp only [List.length_singleton, List.drop_succ_cons, List.drop_zero]
      · rw [escapeChar_other c hlt hgt, replaceAll_cons_skip _ _ _ _ (by decide)
          (by simp [List.isPrefixOf, Ne.symm hgt])]
        rfl

/-- Claim C21: escaping does not keep angle brackets from being read as markup. For every
input `s`, `tokenize` gives the same tokens on `s` and on `s` with every `<` replaced by
`&lt;` and every `>` replaced by `&gt;` (the replacement done character by character, or
by two calls of `ReplaceAll`, which is the same string). On `&lt;p&gt;`, the escaped form
of `<p>`, the tokens are those of `<p>`: the one token `<p>`, which is a tag. -/
theorem escaped_angles_are_markup :
    (∀ s : List Char, tokenize (escapeAngles s) = tokenize s) ∧
    (∀ s : List Char, escapeAngles s =
      ReplaceAll (ReplaceAll s [SpecialCharLessThan] SpecialStrLessThan)
        [SpecialCharGreaterThan] SpecialStrGreaterThan) ∧
    escapeAngles "<p>".toList = "&lt;p&gt;".toList ∧
    tokenize "&lt;p&gt;".toList = tokenize "<p>".toList ∧
    tokenize "<p>".toList = [tok "<p>"] ∧
    (tok "<p>").isTag = true := by
  refine ⟨?_, escapeAngles_eq_replaceAll, by decide, by decide, by decide, by decide⟩
  intro s
  unfold tokenize
  rw [tokenizeNormalize_escapeAngles]

/-! ## The empty attribute list -/

theorem attributesNormalize_eq (input : List Char) :
    attributesNormalize input = TrimSpace (deleteControl input) := by
  unfold attributesNormalize
  simp only
  rw [three_deletes]

/-- The result of `ParseAttributes` is the empty list exactly when the attribute pattern
matches at no position of the text it is run on. -/
theorem parseAttributes_nil_iff (input : List Char) :
    ParseAttributes input = .ok [] ↔
      ∀ pre post, attributesNormalize input = pre ++ post → matchAttribute post = none := by
  obtain ⟨gs, last, hfind, hflat, hscan⟩ :=
    findAllString_isScan matchAttribute matchAttribute_bounds (attributesNormalize input)
  obtain ⟨attrs, hattrs, hall⟩ := parseAttributeTokens_forall₂ gs last hscan
  have hres : ParseAttributes input = .ok attrs := by
    unfold ParseAttributes tokenizeAttributes
    rw [hfind, hattrs]
  constructor
  · intro h
    rw [hres] at h
    simp only [Except.ok.injEq] at h
    subst h
    have hgs : gs = [] := List.eq_nil_of_length_eq_zero (by simpa using hall.length_eq)
    subst hgs
    simp only [segmentsFlat, List.nil_append] at hflat
    subst hflat
    intro pre post hsplit
    cases post with
    | nil => rfl
    | cons c g2 => exact hscan pre c g2 hsplit
  · intro hno
    rw [hres]
    cases gs with
    | nil =>
      cases hall
      rfl
    | cons g gs =>
      exfalso
      obtain ⟨gap, t⟩ := g
      have := hno gap (t ++ (segmentsFlat gs ++ last)) (by rw [← hflat]; simp [segmentsFlat])
      rw [hscan.2.1] at this
      simp at this

/-! ## Claim C6: the token of each node -/

theorem getTaggedNodeFromToken_eq (index : Nat) (token : Token) :
    getTaggedNodeFromToken index token =
      .ok (.mk index (attributesOf token) token.extractValue []) := by
  unfold getTaggedNodeFromToken
  rw [getNodeFromToken_eq]
  simp only [attributes_mk, value_mk]

theorem eraseAll_append (xs ys : List TaggedNode) :
    eraseAll (xs ++ ys) = eraseAll xs ++ eraseAll ys := by
  induction xs with
  | nil => simp [eraseAll]
  | cons x xs ih => simp [eraseAll, ih]

theorem erase_appendChild (p c : TaggedNode) :
    (p.appendChild c).erase = p.erase.appendChild c.erase := by
  cases p
  simp [TaggedNode.appendChild, TaggedNode.erase, SSMLNode.appendChild, eraseAll_append,
    eraseAll, TaggedNode.attributes, TaggedNode.value, TaggedNode.children,
    SSMLNode.attributes, SSMLNode.value, SSMLNode.children]

theorem erase_made (index : Nat) (token : Token) :
    (TaggedNode.mk index (attributesOf token) token.extractValue []).erase =
      .mk (attributesOf token) token.extractValue [] := by
  simp only [TaggedNode.erase, eraseAll]

/-- Forgetting the recorded indices gives the run of `addNode`. -/
theorem addNodeTagged_erase (tokens : List Token) :
    ∀ (fuel : Nat) (parent : Option TaggedNode) (index maxParsed : Nat),
      eraseResult (addNodeTagged fuel parent index tokens maxParsed) =
        addNode fuel (parent.map TaggedNode.erase) index tokens maxParsed := by
  intro fuel
  induction fuel with
  | zero => intro _ _ _; rfl
  | succ fuel ih =>
    intro parent index maxParsed
    unfold addNodeTagged addNode
    by_cases hidx : index ≥ tokens.length
    · simp only [if_pos hidx, eraseResult]
    · simp only [if_neg hidx]
      cases tokens[index]? with
      | none => rfl
      | some currentToken =>
        simp only [getTaggedNodeFromToken_eq, getNodeFromToken_eq]
        cases parent with
        | none =>
          simp only [Option.map_none']
          have h1 := ih (some (.mk index (attributesOf currentToken)
            currentToken.extractValue [])) (index + 1) (max maxParsed index)
          simp only [Option.map_some', erase_made] at h1
          exact h1
        | some p =>
          simp only [Option.map_some']
          by_cases hclose : currentToken.isClosingTag = true
          · simp only [if_pos hclose, eraseResult, Option.map_some']
          · simp only [if_neg hclose]
            by_cases hmark : index < max maxParsed index
            · simp only [if_pos hmark]
              have h1 := ih (some p) (max maxParsed index + 1) (max maxParsed index)
              simp only [Option.map_some'] at h1
              exact h1
            · simp only [if_neg hmark]
              by_cases hopen : currentToken.isOpeningTag = true
              · simp only [if_pos hopen]
                have h1 := ih (some (.mk index (attributesOf currentToken)
                  currentToken.extractValue [])) (index + 1) (max maxParsed index)
                simp only [Option.map_some', erase_made] at h1
                rw [← h1]
                cases addNodeTagged fuel (some (.mk index (attributesOf currentToken)
                    currentToken.extractValue [])) (index + 1) tokens (max maxParsed index) with
                | error e => rfl
                | ok r =>
                  obtain ⟨node1, mp1⟩ := r
                  cases node1 with
                  | none => rfl
                  | some child =>
                    simp only [eraseResult, Option.map_some']
                    rw [← erase_appendChild]
                    have h2 := ih (some (p.appendChild child)) (index + 1) mp1
                    simp only [Option.map_some'] at h2
                    exact h2
              · simp only [if_neg hopen]
                rw [← erase_made index, ← erase_appendChild]
                have h2 := ih (some (p.appendChild (.mk index (attributesOf currentToken)
                  currentToken.extractValue []))) (index + 1) (max maxParsed index)
                simp only [Option.map_some'] at h2
                exact h2

theorem tagged_index_mk (i : Nat) (a : List SSMLAttribute) (v : List Char)
    (c : List TaggedNode) : (TaggedNode.mk i a v c).index = i := rfl

theorem tagged_value_mk (i : Nat) (a : List SSMLAttribute) (v : List Char)
    (c : List TaggedNode) : (TaggedNode.mk i a v c).value = v := rfl

theorem tagged_attributes_mk (i : Nat) (a : List SSMLAttribute) (v : List Char)
    (c : List TaggedNode) : (TaggedNode.mk i a v c).attributes = a := rfl

theorem tagged_children_mk (i : Nat) (a : List SSMLAttribute) (v : List Char)
    (c : List TaggedNode) : (TaggedNode.mk i a v c).children = c := rfl

theorem taggedAll_append (xs ys : List TaggedNode) :
    taggedAll (xs ++ ys) = taggedAll xs ++ taggedAll ys := by
  induction xs with
  | nil => simp [taggedAll]
  | cons x xs ih => simp [taggedAll, ih]

theorem mem_taggedAll_appendChild (p c n : TaggedNode)
    (h : n ∈ taggedAll (p.appendChild c).children) :
    n ∈ taggedAll p.children ∨ n = c ∨ n ∈ taggedAll c.children := by
  cases p
  cases c
  simpa [TaggedNode.appendChild, TaggedNode.children, taggedAll_append, taggedAll,
    TaggedNode.descendants] using h

theorem appendChild_fields (p c : TaggedNode) :
    (p.appendChild c).index = p.index ∧ (p.appendChild c).value = p.value ∧
      (p.appendChild c).attributes = p.attributes := by
  cases p
  exact ⟨rfl, rfl, rfl⟩

/-- The children loop appends only nodes made from non-closing tokens at their own index,
and gives children only to nodes made from opening tags. -/
theorem addNodeTagged_madeAt (tokens : List Token) :
    ∀ (fuel : Nat) (p r : TaggedNode) (index m mp : Nat), 0 < index →
      addNodeTagged fuel (some p) index tokens m = .ok (some r, mp) →
      (∀ n ∈ taggedAll p.children, madeAt tokens n) →
      r.index = p.index ∧ r.value = p.value ∧ r.attributes = p.attributes ∧
        ∀ n ∈ taggedAll r.children, madeAt tokens n := by
  intro fuel
  induction fuel with
  | zero =>
    intro p r index m mp _ h
    simp [addNodeTagged] at h
  | succ fuel ih =>
    intro p r index m mp hpos h hp
    unfold addNodeTagged at h
    by_cases hidx : index ≥ tokens.length
    · rw [if_pos hidx] at h
      simp only [Except.ok.injEq, Prod.mk.injEq, Option.some.injEq] at h
      obtain ⟨rfl, -⟩ := h
      exact ⟨rfl, rfl, rfl, hp⟩
    · rw [if_neg hidx] at h
      have hlt : index < tokens.length := by omega
      have ht : tokens[index]? = some tokens[index] := List.getElem?_eq_getElem hlt
      simp only [ht, getTaggedNodeFromToken_eq] at h
      by_cases hclose : tokens[index].isClosingTag = true
      · rw [if_pos hclose] at h
        simp only [Except.ok.injEq, Prod.mk.injEq, Option.some.injEq] at h
        obtain ⟨rfl, -⟩ := h
        exact ⟨rfl, rfl, rfl, hp⟩
      · rw [if_neg hclose] at h
        have hcl : tokens[index].isClosingTag = false := by simpa using hclose
        by_cases hmark : index < max m index
        · rw [if_pos hmark] at h
          exact ih p r _ _ _ (by omega) h hp
        · rw [if_neg hmark] at h
          by_cases hopen : tokens[index].isOpeningTag = true
          · rw [if_pos hopen] at h
            have hmi := tagged_index_mk index (attributesOf tokens[index])
              tokens[index].extractValue []
            have hmv := tagged_value_mk index (attributesOf tokens[index])
              tokens[index].extractValue []
            have hma := tagged_attributes_mk index (attributesOf tokens[index])
              tokens[index].extractValue []
            have hmc := tagged_children_mk index (attributesOf tokens[index])
              tokens[index].extractValue []
            generalize TaggedNode.mk index (attributesOf tokens[index])
              tokens[index].extractValue [] = made at h hmi hmv hma hmc
            generalize hchild : addNodeTagged fuel (some made) (index + 1) tokens
              (max m index) = res at h
            cases res with
            | error e => simp at h
            | ok res =>
              obtain ⟨node, mp1⟩ := res
              cases node with
              | none => simp at h
              | some child =>
                simp only at h
                obtain ⟨hci, hcv, hca, hcc⟩ := ih _ child _ _ _ (by omega) hchild (by
                  intro n hn
                  rw [hmc] at hn
                  simp [taggedAll] at hn)
                rw [hmi] at hci
                rw [hmv] at hcv
                rw [hma] at hca
                obtain ⟨hi, hv, ha, hc⟩ := ih _ r _ _ _ (by omega) h (by
                  intro n hn
                  rcases mem_taggedAll_appendChild p child n hn with hn | rfl | hn
                  · exact hp n hn
                  · refine ⟨by rw [hci]; exact hpos, tokens[index], ?_, hcl, hcv, hca, ?_⟩
                    · rw [hci]; exact ht
                    · intro hf
                      exact absurd (hopen.symm.trans hf) (by decide)
                  · exact hcc n hn)
                obtain ⟨h1, h2, h3⟩ := appendChild_fields p child
                exact ⟨hi.trans h1, hv.trans h2, ha.trans h3, hc⟩
          · rw [if_neg hopen] at h
            have hmi := tagged_index_mk index (attributesOf tokens[index])
              tokens[index].extractValue []
            have hmv := tagged_value_mk index (attributesOf tokens[index])
              tokens[index].extractValue []
            have hma := tagged_attributes_mk index (attributesOf tokens[index])
              tokens[index].extractValue []
            have hmc := tagged_children_mk index (attributesOf tokens[index])
              tokens[index].extractValue []
            generalize TaggedNode.mk index (attributesOf tokens[index])
              tokens[index].extractValue [] = made at h hmi hmv hma hmc
            obtain ⟨hi, hv, ha, hc⟩ := ih _ r _ _ _ (by omega) h (by
              intro n hn
              rcases mem_taggedAll_appendChild p made n hn with hn | rfl | hn
              · exact hp n hn
              · refine ⟨by rw [hmi]; exact hpos, tokens[index], ?_, hcl, hmv, hma,
                  fun _ => hmc⟩
                rw [hmi]
                exact ht
              · rw [hmc] at hn
                simp [taggedAll] at hn)
            obtain ⟨h1, h2, h3⟩ := appendChild_fields p made
            exact ⟨hi.trans h1, hv.trans h2, ha.trans h3, hc⟩

theorem attributesOf_nil_iff (t : Token) :
    attributesOf t = [] ↔
      ∀ pre post, attributesNormalize t.value = pre ++ post → matchAttribute post = none := by
  rw [← parseAttributes_nil_iff, parseAttributes_eq_attributesOf]
  simp only [Except.ok.injEq]

theorem not_opening_of_not_tag (t : Token) (h : t.isTag = false) : t.isOpeningTag = false := by
  unfold Token.isTag at h
  cases ho : t.isOpeningTag with
  | false => rfl
  | true => simp [ho] at h

theorem erase_value (n : TaggedNode) : n.erase.value = n.value := by
  cases n
  rfl

theorem erase_attributes (n : TaggedNode) : n.erase.attributes = n.attributes := by
  cases n
  rfl

theorem erase_children_nil (n : TaggedNode) (h : n.children = []) : n.erase.children = [] := by
  cases n
  simp only [TaggedNode.children] at h
  subst h
  rfl

mutual
/-- The nodes below a node of the source are the nodes below the tagged node. -/
theorem erase_descendants :
    ∀ n : TaggedNode, n.erase.descendants = n.descendants.map TaggedNode.erase
  | .mk _ _ _ children => by
    simp only [TaggedNode.erase, SSMLNode.descendants, TaggedNode.descendants]
    exact nodesAll_eraseAll children
/-- The nodes of a list of trees of the source are the nodes of the tagged trees. -/
theorem nodesAll_eraseAll :
    ∀ ns : List TaggedNode, nodesAll (eraseAll ns) = (taggedAll ns).map TaggedNode.erase
  | [] => rfl
  | n :: rest => by
    simp only [eraseAll, nodesAll, taggedAll, List.map_cons, List.map_append]
    rw [erase_descendants n, nodesAll_eraseAll rest]
end

theorem buildTreeTagged_spec (tokens : List Token) :
    ∃ tagged : Option TaggedNode,
      buildTreeTagged tokens = .ok tagged ∧
      buildTree tokens = .ok (tagged.map TaggedNode.erase) ∧
      ∀ root, tagged = some root →
        (root.index = 0 ∧ ∃ t, tokens[0]? = some t ∧ root.value = t.extractValue ∧
          root.attributes = attributesOf t) ∧
        ∀ n ∈ root.descendants, madeAt tokens n := by
  have herase := addNodeTagged_erase tokens (tokens.length + 1) none 0 0
  obtain ⟨node, mp, calls, hcalls, -, -⟩ :=
    addNodeCalls_spec tokens (tokens.length + 1) none 0 0 (by omega) (by omega)
  have hres := addNodeCalls_result tokens (tokens.length + 1) none 0 0
  rw [hcalls] at hres
  simp only [dropCalls, Option.map_none'] at hres herase
  rw [← hres] at herase
  generalize hrun : addNodeTagged (tokens.length + 1) none 0 tokens 0 = res at herase
  cases res with
  | error e => simp [eraseResult] at herase
  | ok res =>
    obtain ⟨tagged, mp1⟩ := res
    simp only [eraseResult, Except.ok.injEq, Prod.mk.injEq] at herase
    refine ⟨tagged, ?_, ?_, ?_⟩
    · unfold buildTreeTagged
      rw [hrun]
    · unfold buildTree
      rw [← hres, herase.1]
    · intro root hroot
      subst hroot
      cases htoks : tokens with
      | nil =>
        rw [htoks] at hrun
        simp [addNodeTagged] at hrun
      | cons t rest =>
        rw [htoks] at hrun
        unfold addNodeTagged at hrun
        simp only [List.length_cons, ge_iff_le, Nat.le_zero_eq, Nat.add_one_ne_zero,
          if_false, List.getElem?_cons_zero, getTaggedNodeFromToken_eq] at hrun
        have hmi := tagged_index_mk 0 (attributesOf t) t.extractValue []
        have hmv := tagged_value_mk 0 (attributesOf t) t.extractValue []
        have hma := tagged_attributes_mk 0 (attributesOf t) t.extractValue []
        have hmc := tagged_children_mk 0 (attributesOf t) t.extractValue []
        generalize TaggedNode.mk 0 (attributesOf t) t.extractValue [] = made
          at hrun hmi hmv hma hmc
        obtain ⟨hi, hv, ha, hc⟩ := addNodeTagged_madeAt (t :: rest) _ made root _ _ _
          (by omega) hrun (by
            intro n hn
            rw [hmc] at hn
            simp [taggedAll] at hn)
        refine ⟨⟨hi.trans hmi, t, List.getElem?_cons_zero, hv.trans hmv, ha.trans hma⟩, ?_⟩
        intro n hn
        cases root
        exact hc n hn

/-- Claim C6, amended: the tree returned by `ParseTree` is the tree of `buildTreeTagged`
with the recorded indices forgotten.  Its root is made from the first token.  Every node
strictly below the root is made from a token after the first that is not a closing tag;
it has the extracted value of that token and the attribute list `ParseAttributes` returns
for its text.  When the token is not an opening tag, in particular when it is a text run,
the node has no children.  The attribute list is empty exactly when the attribute pattern
matches at no position of the text it is run on (the text of the token with tab, line feed
and carriage return deleted, then trimmed).  For `<p>p<b>x</b></p>` the node of the text
run `p` is made from token 1 and has no children. -/
theorem text_nodes_below_root (input : List Char) :
    (∃ tagged : Option TaggedNode,
      buildTreeTagged (tokenize input) = .ok tagged ∧
      ParseTree input = .ok (tagged.map TaggedNode.erase) ∧
      ∀ root, tagged = some root →
        (root.index = 0 ∧ ∃ t, (tokenize input)[0]? = some t ∧
          root.erase.value = t.extractValue ∧
          ParseAttributes t.value = .ok root.erase.attributes) ∧
        root.erase.descendants = root.descendants.map TaggedNode.erase ∧
        ∀ n ∈ root.descendants, 0 < n.index ∧ ∃ t, (tokenize input)[n.index]? = some t ∧
          t.isClosingTag = false ∧ n.erase.value = t.extractValue ∧
          ParseAttributes t.value = .ok n.erase.attributes ∧
          (t.isOpeningTag = false → n.erase.children = []) ∧
          (t.isTag = false → n.erase.children = []) ∧
          (n.erase.attributes = [] ↔ ∀ pre post,
            TrimSpace (deleteControl t.value) = pre ++ post → matchAttribute post = none)) ∧
    buildTreeTagged (tokenize "<p>p<b>x</b></p>".toList) =
      .ok (some (.mk 0 [] ['p'] [.mk 1 [] ['p'] [], .mk 2 [] ['b'] [.mk 3 [] ['x'] []]])) ∧
    ParseTree "<p>p<b>x</b></p>".toList =
      .ok (some (.mk [] ['p'] [.mk [] ['p'] [], .mk [] ['b'] [.mk [] ['x'] []]])) := by
  refine ⟨?_, by rfl, by rfl⟩
  obtain ⟨tagged, hrun, herase, hall⟩ := buildTreeTagged_spec (tokenize input)
  refine ⟨tagged, hrun, herase, ?_⟩
  intro root hroot
  obtain ⟨⟨hidx, t0, ht0, hv0, ha0⟩, hnodes⟩ := hall root hroot
  refine ⟨⟨hidx, t0, ht0, (erase_value root).trans hv0, ?_⟩, erase_descendants root, ?_⟩
  · rw [erase_attributes, ha0]
    exact parseAttributes_eq_attributesOf t0
  · intro n hn
    obtain ⟨hpos, t, ht, hcl, hv, ha, hch⟩ := hnodes n hn
    refine ⟨hpos, t, ht, hcl, (erase_value n).trans hv, ?_,
      fun h => erase_children_nil n (hch h),
      fun h => erase_children_nil n (hch (not_opening_of_not_tag t h)), ?_⟩
    · rw [erase_attributes, ha]
      exact parseAttributes_eq_attributesOf t
    · rw [erase_attributes, ha, ← attributesNormalize_eq]
      exact attributesOf_nil_iff t

/-! ## Claim C10: the text the attribute pattern is run on -/

/-- Claim C10, as stated, fails: in `b<TAB>="c"` the attribute pattern matches at no
position of the input, yet `ParseAttributes` returns [(b, c)]: the pattern is run on the
input with the tab deleted, and there it matches. -/
theorem attribute_match_after_tab_deleted :
    (∀ pre post, "b\t=\"c\"".toList = pre ++ post → matchAttribute post = none) ∧
    FindAllString matchAttribute "b\t=\"c\"".toList = [] ∧
    attributesNormalize "b\t=\"c\"".toList = "b=\"c\"".toList ∧
    ParseAttributes "b\t=\"c\"".toList = .ok [⟨['b'], ['c']⟩] := by
  refine ⟨?_, by decide, by decide, by rfl⟩
  intro pre post h
  have hmem : post ∈ List.tails "b\t=\"c\"".toList := by
    rw [List.mem_tails]
    exact ⟨pre, h.symm⟩
  exact (by decide : ∀ post ∈ List.tails "b\t=\"c\"".toList, matchAttribute post = none)
    post hmem

/-- Claim C10, amended: `ParseAttributes` never fails.  Every attribute match holds exactly
one `=` and splits on `=` into exactly two pieces, so the two indexed pieces exist.  The
result is the empty list exactly when the pattern matches at no position of the text it is
run on, which is the input with every tab, line feed and carriage return deleted and then
trimmed; in particular it is empty whenever the input holds no `=`, as for a tag that has
a name only. -/
theorem parseAttributes_never_fails (input : List Char) :
    (∃ attrs, ParseAttributes input = .ok attrs) ∧
    (∀ m ∈ tokenizeAttributes input,
      m.value.count '=' = 1 ∧ ∃ name value, Split m.value '=' = [name, value]) ∧
    (ParseAttributes input = .ok [] ↔ ∀ pre post,
      TrimSpace (deleteControl input) = pre ++ post → matchAttribute post = none) ∧
    ('=' ∉ input → ParseAttributes input = .ok []) ∧
    ParseAttributes "<speak>".toList = .ok [] ∧
    ParseAttributes "</speak>".toList = .ok [] ∧
    ParseAttributes "< br/>".toList = .ok [] := by
  refine ⟨parseAttributes_ok input, ?_, ?_, ?_, by rfl, by rfl, by rfl⟩
  · obtain ⟨gs, last, hfind, -, hscan⟩ :=
      findAllString_isScan matchAttribute matchAttribute_bounds (attributesNormalize input)
    intro m hm
    unfold tokenizeAttributes at hm
    rw [hfind] at hm
    simp only [List.map_map, List.mem_map, Function.comp_apply] at hm
    obtain ⟨g, hg, rfl⟩ := hm
    obtain ⟨rest, hmatch⟩ := isScan_tokens matchAttribute gs last hscan g hg
    obtain ⟨name, sp1, sp2, val, hshape, -, h1, h2, h3, h4⟩ :=
      match_text_of_matchAttribute _ _ hmatch
    simp only
    rw [hshape]
    exact ⟨count_eq_match name sp1 sp2 val h1 h2 h3 h4, _, _,
      split_match name sp1 sp2 val h1 h2 h3 h4⟩
  · rw [← attributesNormalize_eq]
    exact parseAttributes_nil_iff input
  · intro hno
    unfold ParseAttributes
    rw [tokenizeAttributes_of_no_eq _ hno]
    rfl

/-! ## Claim C18: whitespace that is not in the class of the pattern -/

/-- Claim C18, as stated, fails: for `<a> \v </a>` (the middle character is U+000B, the
vertical tab) the text between the tags is a token, and every character of it is
whitespace for `unicode.IsSpace`, the notion `strings.TrimSpace` uses in `tokenize`. -/
theorem whitespace_only_token :
    tokenize "<a> \x0b </a>".toList = [tok "<a>", tok " \x0b ", tok "</a>"] ∧
    (tok " \x0b ").isTag = false ∧
    (∀ x ∈ (tok " \x0b ").value, isSpace x = true) ∧
    TrimSpace (tok " \x0b ").value = [] ∧
    isReSpace (Char.ofNat 11) = false := by
  decide

end SSML
